import Mathlib

/-!
# Arithmetic expression evaluator (`lab3_Shalamai.cpp`)

A shallow embedding of the `Lexer` and the recursive-descent `Parser` of
`lab3_Shalamai.cpp`, and theorems about them.

Modelling conventions.

* `std::string` is a `List Char`; one `Char` stands for one C++ `char`.
  `std::isspace` and `std::isdigit` are those of the default "C" locale
  (the program never calls `setlocale`).
* `int` is a 32-bit two's complement integer: a value is an `Int` in
  `[INT_MIN, INT_MAX]`, and every arithmetic operation of the program is
  followed by `wrap`.  Signed overflow is undefined behaviour in C++; the
  wrap-around is what the usual targets do for `+ - *`.  The division
  `INT_MIN / -1` has no `int` quotient: the division instruction traps and
  the process is killed, which is the outcome `Error.killed`.  Every theorem
  that names a value says in which range no overflow occurs at all.
* `throw std::runtime_error(msg)` is `Except.error e`, where `e : Error` names
  the `throw` statement, `Error.message e` is the `std::string` it is given and
  `Error.what e` is what `ex.what()` returns, a C string.  The program has one
  exception type; its errors differ by their message only.
* The mutually recursive `parseExpr` / `parseTerm` / `parseFactor` take a
  recursion budget (`fuel`); `parse` supplies `3 * length + 3`, which is
  always enough (`fuel_enough`, `parse_fueled`).
-/

namespace Lab3

/-! ## Machine integers -/

/-- Smallest value of `int`. -/
def INT_MIN : Int := -2147483648

/-- Largest value of `int`. -/
def INT_MAX : Int := 2147483647

/-- Reduction of an integer to the 32-bit two's complement range. -/
def wrap (x : Int) : Int := (x + 2147483648) % 4294967296 - 2147483648

/-- Whether an integer is a value of `int` without wrapping. -/
def inInt (x : Int) : Bool := decide (INT_MIN ≤ x) && decide (x ≤ INT_MAX)

/-! ## Tokens and errors -/

/-- The `enum class TokenType`. -/
inductive TokenType where
  | Number
  | Plus
  | Minus
  | Star
  | Slash
  | LParen
  | RParen
  | End
  deriving DecidableEq, Repr

/-- The `struct Token`. -/
structure Token where
  type : TokenType
  value : Int
  deriving DecidableEq, Repr

/-- The `throw` statements of the program, one constructor each; `killed`
for the division that the process does not survive (no exception), and
`outOfFuel` for a recursion budget that ran out (no statement of the
program). -/
inductive Error where
  /-- `Lexer::getNextToken`, the `default:` case of the `switch`. -/
  | unknownChar (c : Char)
  /-- `Parser::parse`, lookahead is not `End` after `parseExpr`. -/
  | unknownSymbol
  /-- `Parser::eat`, lookahead differs from the expected kind. -/
  | unexpectedToken
  /-- `Parser::parseFactor`, the `default:` case of the `switch`. -/
  | operandExpected
  /-- `Parser::parseTerm`, right operand of `/` is zero. -/
  | divisionByZero
  /-- `Parser::parseTerm`, `value /= right` with `INT_MIN / -1`: the division
  traps and the process is killed; nothing is thrown. -/
  | killed
  /-- The recursion budget of the model ran out. -/
  | outOfFuel
  deriving DecidableEq, Repr

/-- The bytes of the string literal `"Невідомий символ: '"` of
`Lexer::getNextToken`, as the UTF-8 source file holds them: two bytes for
every Cyrillic letter, one `Char` per byte. -/
def unknownCharPrefix : List Char :=
  [208, 157, 208, 181, 208, 178, 209, 150, 208, 180, 208, 190, 208, 188, 208, 184, 208, 185,
    32, 209, 129, 208, 184, 208, 188, 208, 178, 208, 190, 208, 187, 58, 32, 39].map Char.ofNat

/-- The `std::string` given to `std::runtime_error`, one `Char` per byte;
empty where nothing is thrown. -/
def Error.message : Error → List Char
  | .unknownChar c => unknownCharPrefix ++ [c] ++ "'".toList
  | .unknownSymbol => "Unknown symbol".toList
  | .unexpectedToken => "Syntax error: unexpected token".toList
  | .operandExpected => "Syntax error: operand expected".toList
  | .divisionByZero => "Division by zero".toList
  | .killed => []
  | .outOfFuel => []

/-- A `std::string` read as a C string: the bytes before the first NUL. -/
def cString : List Char → List Char
  | [] => []
  | c :: r => if c.toNat = 0 then [] else c :: cString r

/-- The message as `ex.what()` returns it: a `const char*`, which ends before
the first NUL byte of the `std::string`. -/
def Error.what (e : Error) : String := String.mk (cString e.message)

/-- The message starts with `Syntax error`, as the messages of `Parser::eat`
and `Parser::parseFactor` do. -/
def Error.isSyntaxError (e : Error) : Bool :=
  "Syntax error".toList.isPrefixOf e.what.toList

/-- The error is one of the `throw` statements of the program. -/
def Error.isThrown : Error → Bool
  | .killed => false
  | .outOfFuel => false
  | _ => true

/-! ## Lexer -/

/-- `std::isspace` in the "C" locale: space, `\t`, `\n`, `\v`, `\f`, `\r`. -/
def isspace (c : Char) : Bool :=
  c.toNat == 32 || (decide (9 ≤ c.toNat) && decide (c.toNat ≤ 13))

/-- `std::isdigit`: `'0'` to `'9'`. -/
def isdigit (c : Char) : Bool :=
  decide (48 ≤ c.toNat) && decide (c.toNat ≤ 57)

/-- The `class Lexer`: the text and the cursor `pos`. -/
structure Lexer where
  text : List Char
  pos : Nat
  deriving DecidableEq, Repr

/-- The loop of `Lexer::skipWhitespace`.  The first argument is the text from
the cursor on (`text[pos]`, `text[pos+1]`, ...), empty when
`pos >= text.size()`; the result is the cursor after the loop. -/
def skipWhitespaceLoop : List Char → Nat → Nat
  | [], pos => pos
  | c :: rest, pos => if isspace c then skipWhitespaceLoop rest (pos + 1) else pos

/-- `Lexer::skipWhitespace`. -/
def Lexer.skipWhitespace (lx : Lexer) : Lexer :=
  { lx with pos := skipWhitespaceLoop (lx.text.drop lx.pos) lx.pos }

/-- The digit loop of `Lexer::getNextToken`:
`value = value * 10 + (text[pos] - '0'); ++pos`.  The first argument is the
text from the cursor on; the result is the cursor and `value` after the
loop. -/
def readDigitsLoop : List Char → Nat → Int → Nat × Int
  | [], pos, value => (pos, value)
  | c :: rest, pos, value =>
    if isdigit c then
      readDigitsLoop rest (pos + 1) (wrap (wrap (value * 10) + ((c.toNat : Int) - 48)))
    else (pos, value)

/-- `Lexer::getNextToken`: the token, and the lexer with the cursor moved. -/
def Lexer.getNextToken (lx : Lexer) : Except Error (Token × Lexer) :=
  let lx := lx.skipWhitespace
  match lx.text[lx.pos]? with
  | none => .ok (⟨.End, 0⟩, lx)
  | some c =>
    if isdigit c then
      let r := readDigitsLoop (lx.text.drop lx.pos) lx.pos 0
      .ok (⟨.Number, r.2⟩, { lx with pos := r.1 })
    else
      let lx := { lx with pos := lx.pos + 1 }
      if c = '+' then .ok (⟨.Plus, 0⟩, lx)
      else if c = '-' then .ok (⟨.Minus, 0⟩, lx)
      else if c = '*' then .ok (⟨.Star, 0⟩, lx)
      else if c = '/' then .ok (⟨.Slash, 0⟩, lx)
      else if c = '(' then .ok (⟨.LParen, 0⟩, lx)
      else if c = ')' then .ok (⟨.RParen, 0⟩, lx)
      else .error (.unknownChar c)

/-! ## Parser -/

/-- The `class Parser`: the lexer and the lookahead token `current`. -/
structure Parser where
  lexer : Lexer
  current : Token
  deriving DecidableEq, Repr

/-- The statement `current = lexer.getNextToken();`. -/
def Parser.advance (lx : Lexer) : Except Error Parser :=
  match lx.getNextToken with
  | .error e => .error e
  | .ok (tok, lx) => .ok { lexer := lx, current := tok }

/-- The constructor `Parser(input)`. -/
def Parser.new (input : List Char) : Except Error Parser :=
  Parser.advance { text := input, pos := 0 }

/-- `Parser::eat`. -/
def Parser.eat (p : Parser) (expected : TokenType) : Except Error Parser :=
  if p.current.type = expected then Parser.advance p.lexer
  else .error .unexpectedToken

mutual

/-- `Parser::parseExpr`: the value and the parser state after it. -/
def Parser.parseExpr : Nat → Parser → Except Error (Int × Parser)
  | 0, _ => .error .outOfFuel
  | fuel + 1, p =>
    match Parser.parseTerm fuel p with
    | .error e => .error e
    | .ok (value, p) => Parser.parseExprLoop fuel value p

/-- The `while` loop of `Parser::parseExpr`. -/
def Parser.parseExprLoop : Nat → Int → Parser → Except Error (Int × Parser)
  | 0, _, _ => .error .outOfFuel
  | fuel + 1, value, p =>
    if p.current.type = .Plus ∨ p.current.type = .Minus then
      let op := p.current.type
      match p.eat p.current.type with
      | .error e => .error e
      | .ok p =>
        match Parser.parseTerm fuel p with
        | .error e => .error e
        | .ok (right, p) =>
          if op = .Plus then Parser.parseExprLoop fuel (wrap (value + right)) p
          else Parser.parseExprLoop fuel (wrap (value - right)) p
    else .ok (value, p)

/-- `Parser::parseTerm`. -/
def Parser.parseTerm : Nat → Parser → Except Error (Int × Parser)
  | 0, _ => .error .outOfFuel
  | fuel + 1, p =>
    match Parser.parseFactor fuel p with
    | .error e => .error e
    | .ok (value, p) => Parser.parseTermLoop fuel value p

/-- The `while` loop of `Parser::parseTerm`.  The quotient of `INT_MIN` by
`-1` is no `int`: `value /= right` traps there and the process is killed. -/
def Parser.parseTermLoop : Nat → Int → Parser → Except Error (Int × Parser)
  | 0, _, _ => .error .outOfFuel
  | fuel + 1, value, p =>
    if p.current.type = .Star ∨ p.current.type = .Slash then
      let op := p.current.type
      match p.eat p.current.type with
      | .error e => .error e
      | .ok p =>
        match Parser.parseFactor fuel p with
        | .error e => .error e
        | .ok (right, p) =>
          if op = .Star then Parser.parseTermLoop fuel (wrap (value * right)) p
          else if right = 0 then .error .divisionByZero
          else if value = -2147483648 ∧ right = -1 then .error .killed
          else Parser.parseTermLoop fuel (wrap (Int.tdiv value right)) p
    else .ok (value, p)

/-- `Parser::parseFactor`. -/
def Parser.parseFactor : Nat → Parser → Except Error (Int × Parser)
  | 0, _ => .error .outOfFuel
  | fuel + 1, p =>
    match p.current.type with
    | .Number =>
      let v := p.current.value
      match p.eat .Number with
      | .error e => .error e
      | .ok p => .ok (v, p)
    | .LParen =>
      match p.eat .LParen with
      | .error e => .error e
      | .ok p =>
        match Parser.parseExpr fuel p with
        | .error e => .error e
        | .ok (v, p) =>
          match p.eat .RParen with
          | .error e => .error e
          | .ok p => .ok (v, p)
    | .Minus =>
      match p.eat .Minus with
      | .error e => .error e
      | .ok p =>
        match Parser.parseFactor fuel p with
        | .error e => .error e
        | .ok (v, p) => .ok (wrap (-v), p)
    | _ => .error .operandExpected

end

/-- `Parser::parse`, on the state the constructor left. -/
def Parser.parse (p : Parser) : Except Error Int :=
  match Parser.parseExpr (3 * p.lexer.text.length + 3) p with
  | .error e => .error e
  | .ok (result, p) =>
    if p.current.type ≠ .End then .error .unknownSymbol
    else .ok result

/-- One round of `main`: `Parser parser(line); parser.parse()`. -/
def parse (line : List Char) : Except Error Int :=
  match Parser.new line with
  | .error e => .error e
  | .ok p => p.parse

/-! ## Texts and the reference evaluator

The base-10 text of a number, expression trees with their fully parenthesised
text, and the reference evaluator on unbounded integers. -/

/-- The base-10 text of a natural number. -/
def decimal (n : Nat) : List Char := (Nat.repr n).toList

/-- The binary operators. -/
inductive BinOp where
  | add
  | sub
  | mul
  | div
  deriving DecidableEq, Repr

/-- Expression trees: literals, unary negation, binary operators. -/
inductive Expr where
  | lit (n : Nat)
  | neg (e : Expr)
  | bin (op : BinOp) (l r : Expr)
  deriving Repr

/-- The character of a binary operator. -/
def BinOp.char : BinOp → Char
  | .add => '+'
  | .sub => '-'
  | .mul => '*'
  | .div => '/'

/-- The fully parenthesised text of a tree: a literal as its decimal digits,
negation as `-(e)`, a binary operator as `(l)op(r)`. -/
def render : Expr → List Char
  | .lit n => decimal n
  | .neg e => "-(".toList ++ render e ++ ")".toList
  | .bin op l r =>
    "(".toList ++ render l ++ ")".toList ++ [op.char] ++ "(".toList ++ render r ++ ")".toList

/-- The reference evaluator, on unbounded integers: division truncates toward
zero, and `none` is the failure at a division whose right operand is zero. -/
def refEval : Expr → Option Int
  | .lit n => some (n : Int)
  | .neg e =>
    match refEval e with
    | none => none
    | some v => some (-v)
  | .bin op l r =>
    match refEval l with
    | none => none
    | some a =>
      match refEval r with
      | none => none
      | some b =>
        match op with
        | .add => some (a + b)
        | .sub => some (a - b)
        | .mul => some (a * b)
        | .div => if b = 0 then none else some (Int.tdiv a b)

/-- The value of the tree, if it has one, is within `int`. -/
def valueInRange (e : Expr) : Bool :=
  match refEval e with
  | none => true
  | some v => inInt v

/-- All intermediate values of the reference evaluator are within `int`: the
literals and the value of every subtree it evaluates (the right operand is not
evaluated when the left one fails). -/
def inRange : Expr → Bool
  | .lit n => valueInRange (.lit n)
  | .neg e => inRange e && valueInRange (.neg e)
  | .bin op l r =>
    inRange l &&
      (match refEval l with
        | none => true
        | some _ => inRange r && valueInRange (.bin op l r))

/-! ## Definitions used in the proofs -/

/-- The text from the cursor on. -/
def Lexer.rest (lx : Lexer) : List Char := lx.text.drop lx.pos

/-- The token that starts a text and the number of characters it takes,
white space before it included: what `Lexer::getNextToken` does, read off
the text from the cursor on. -/
def scan : List Char → Except Error (Token × Nat)
  | [] => .ok (⟨.End, 0⟩, 0)
  | c :: r =>
    if isspace c then
      match scan r with
      | .error e => .error e
      | .ok (t, k) => .ok (t, k + 1)
    else if isdigit c then
      let d := readDigitsLoop (c :: r) 0 0
      .ok (⟨.Number, d.2⟩, d.1)
    else if c = '+' then .ok (⟨.Plus, 0⟩, 1)
    else if c = '-' then .ok (⟨.Minus, 0⟩, 1)
    else if c = '*' then .ok (⟨.Star, 0⟩, 1)
    else if c = '/' then .ok (⟨.Slash, 0⟩, 1)
    else if c = '(' then .ok (⟨.LParen, 0⟩, 1)
    else if c = ')' then .ok (⟨.RParen, 0⟩, 1)
    else .error (.unknownChar c)

/-- The errors of the first run that the second run repeats. -/
def Error.kept (strict : Prop) (e : Error) : Prop :=
  e ≠ .outOfFuel ∧
    (strict ∨ (e = .divisionByZero ∨ e = .killed) ∨ ∃ c, e = .unknownChar c)

/-- Related results of `advance` and `eat`. -/
def RelP (P : Parser → Parser → Prop) (strict : Prop) (r1 r2 : Except Error Parser) : Prop :=
  match r1 with
  | .ok p1 => ∃ p2, r2 = .ok p2 ∧ P p1 p2
  | .error e => Error.kept strict e → r2 = .error e

/-- Related results of the parsing functions. -/
def RelOut (P : Parser → Parser → Prop) (strict : Prop)
    (r1 r2 : Except Error (Int × Parser)) : Prop :=
  match r1 with
  | .ok (v, p1) => ∃ p2, r2 = .ok (v, p2) ∧ P p1 p2
  | .error e => Error.kept strict e → r2 = .error e

/-- What a relation between parser states has to satisfy. -/
structure Simulation (P : Parser → Parser → Prop) (strict : Prop) : Prop where
  cur : ∀ p1 p2, P p1 p2 → p1.current.type ≠ .End → p2.current = p1.current
  adv : ∀ p1 p2, P p1 p2 → p1.current.type ≠ .End →
    RelP P strict (Parser.advance p1.lexer) (Parser.advance p2.lexer)
  stop : ∀ p1 p2, P p1 p2 → p1.current.type = .End →
    p2.current.type ≠ .Plus ∧ p2.current.type ≠ .Minus ∧
    p2.current.type ≠ .Star ∧ p2.current.type ≠ .Slash
  strictEnd : strict → ∀ p1 p2, P p1 p2 → p1.current.type = .End → p2.current.type = .End

/-- The simulation statement for the five parsing functions, first run with
fuel `n`, second with fuel `m`. -/
def SimAt (P : Parser → Parser → Prop) (strict : Prop) (n m : Nat) : Prop :=
  ∀ p1 p2, P p1 p2 →
    RelOut P strict (Parser.parseFactor n p1) (Parser.parseFactor m p2) ∧
    (∀ v, RelOut P strict (Parser.parseTermLoop n v p1) (Parser.parseTermLoop m v p2)) ∧
    RelOut P strict (Parser.parseTerm n p1) (Parser.parseTerm m p2) ∧
    (∀ v, RelOut P strict (Parser.parseExprLoop n v p1) (Parser.parseExprLoop m v p2)) ∧
    RelOut P strict (Parser.parseExpr n p1) (Parser.parseExpr m p2)

/-- The relation between a run on a text and a run on a text that continues
with `post`, whose first token is `T`, `k` characters long: the same
lookahead and `post` after the rest, until the first run is at `End`, where
the second holds `T`. -/
def Ext (post : List Char) (T : Token) (k : Nat) (p1 p2 : Parser) : Prop :=
  (p1.current.type ≠ .End ∧ p2.current = p1.current ∧ p2.lexer.rest = p1.lexer.rest ++ post) ∨
  (p1.current.type = .End ∧ p2.current = T ∧ p2.lexer.rest = post.drop k)

/-- Characters after the cursor, plus one for a lookahead other than `End`. -/
def Parser.size (p : Parser) : Nat :=
  p.lexer.rest.length + (if p.current.type = .End then 0 else 1)

/-- A result that is not `outOfFuel` and leaves a state of size below `s`. -/
def Fine (s : Nat) (r : Except Error (Int × Parser)) : Prop :=
  r ≠ .error .outOfFuel ∧ ∀ v q, r = .ok (v, q) → q.size < s

/-- The same for `advance` and `eat`. -/
def FineP (s : Nat) (r : Except Error Parser) : Prop :=
  r ≠ .error .outOfFuel ∧ ∀ q, r = .ok q → q.size < s

/-- With fuel `3 * size + 1` (`+ 2` for `parseTerm`, `+ 3` for `parseExpr`) no
parsing function runs out of fuel, and the state it returns is smaller. -/
def FuelAt (n : Nat) : Prop :=
  ∀ p : Parser,
    (3 * p.size + 1 ≤ n → Fine p.size (Parser.parseFactor n p)) ∧
    (∀ v, 3 * p.size + 1 ≤ n → Fine (p.size + 1) (Parser.parseTermLoop n v p)) ∧
    (3 * p.size + 2 ≤ n → Fine p.size (Parser.parseTerm n p)) ∧
    (∀ v, 3 * p.size + 1 ≤ n → Fine (p.size + 1) (Parser.parseExprLoop n v p)) ∧
    (3 * p.size + 3 ≤ n → Fine p.size (Parser.parseExpr n p))

/-- The lookahead and the text after the cursor. -/
def Parser.view (p : Parser) : Token × List Char := (p.current, p.lexer.rest)

/-- A result with the state replaced by its view. -/
def outcome (r : Except Error (Int × Parser)) : Except Error (Int × (Token × List Char)) :=
  match r with
  | .error e => .error e
  | .ok (v, q) => .ok (v, q.view)

/-- With enough fuel, `f` started in a state with view `s` ends with `o`. -/
def Yields (f : Nat → Parser → Except Error (Int × Parser)) (s : Token × List Char)
    (o : Except Error (Int × (Token × List Char))) : Prop :=
  o ≠ .error .outOfFuel ∧ ∀ p : Parser, p.view = s → ∃ n, outcome (f n p) = o

/-- More fuel keeps a result. -/
def Mono (f : Nat → Parser → Except Error (Int × Parser)) : Prop :=
  ∀ n m p, n ≤ m → RelOut Eq True (f n p) (f m p)

/-- The first token `t` of the text `r`, and the text `r'` after it. -/
def Next (r : List Char) (t : Token) (r' : List Char) : Prop :=
  ∃ k, scan r = .ok (t, k) ∧ r.drop k = r'

/-- One round of the digit loop: `value = value * 10 + (c - '0')`. -/
def stepDigit (v : Int) (c : Char) : Int := wrap (wrap (v * 10) + ((c.toNat : Int) - 48))

/-- A result whose value and whose lookahead value are within `int`. -/
def Ranged (r : Except Error (Int × Parser)) : Prop :=
  ∀ v q, r = .ok (v, q) → inInt v = true ∧ inInt q.current.value = true

/-- The same for `advance` and `eat`. -/
def RangedP (r : Except Error Parser) : Prop :=
  ∀ q, r = .ok q → inInt q.current.value = true

/-- All five parsing functions return values within `int`, when the lookahead
value and the running value are. -/
def RangedAt (n : Nat) : Prop :=
  ∀ p : Parser, inInt p.current.value = true →
    Ranged (Parser.parseFactor n p) ∧
    (∀ v, inInt v = true → Ranged (Parser.parseTermLoop n v p)) ∧
    Ranged (Parser.parseTerm n p) ∧
    (∀ v, inInt v = true → Ranged (Parser.parseExprLoop n v p)) ∧
    Ranged (Parser.parseExpr n p)

/-- The evaluator on `int`: the reference evaluator with every operation
reduced to the `int` range, as the program computes, the division of
`INT_MIN` by `-1` included. -/
def evalInt : Expr → Except Error Int
  | .lit n => .ok (wrap n)
  | .neg e =>
    match evalInt e with
    | .error x => .error x
    | .ok v => .ok (wrap (-v))
  | .bin op l r =>
    match evalInt l with
    | .error x => .error x
    | .ok a =>
      match evalInt r with
      | .error x => .error x
      | .ok b =>
        match op with
        | .add => .ok (wrap (a + b))
        | .sub => .ok (wrap (a - b))
        | .mul => .ok (wrap (a * b))
        | .div =>
          if b = 0 then .error .divisionByZero
          else if a = -2147483648 ∧ b = -1 then .error .killed
          else .ok (wrap (Int.tdiv a b))

/-- The errors of the evaluator on `int`. -/
def evalError (x : Error) : Prop := x = .divisionByZero ∨ x = .killed

/-- The result of `parse` that corresponds to a result of an evaluator. -/
def toResult : Option Int → Except Error Int
  | some v => .ok v
  | none => .error .divisionByZero

/-! ## Definitions for the cursor, white space and operands -/

/-- The cursor after a call of `Lexer::getNextToken`, also when the call
throws: the `++pos` before the `switch` has happened by then. -/
def Lexer.cursorAfter (lx : Lexer) : Nat :=
  let lx := lx.skipWhitespace
  match lx.text[lx.pos]? with
  | none => lx.pos
  | some c =>
    if isdigit c then (readDigitsLoop (lx.text.drop lx.pos) lx.pos 0).1
    else lx.pos + 1

/-- The states of the `Lexer` of a text: the state the constructor leaves, and
the states that calls of `getNextToken` returning a token lead to. -/
inductive Lexer.Reachable (text : List Char) : Lexer → Prop where
  | init : Lexer.Reachable text ⟨text, 0⟩
  | step {lx lx' : Lexer} {t : Token} :
    Lexer.Reachable text lx → lx.getNextToken = .ok (t, lx') → Lexer.Reachable text lx'

/-- The tokens of `n` successive calls of `getNextToken` on one `Lexer`, and the
`Lexer` after them. -/
def Lexer.getNextTokens : Nat → Lexer → Except Error (List Token × Lexer)
  | 0, lx => .ok ([], lx)
  | n + 1, lx =>
    match lx.getNextToken with
    | .error e => .error e
    | .ok (t, lx) =>
      match Lexer.getNextTokens n lx with
      | .error e => .error e
      | .ok (ts, lx) => .ok (t :: ts, lx)

/-- The `Parser` object after a call of `Parser::eat`, also when the call
throws: `current` is assigned only when `getNextToken` returns. -/
def Parser.afterEat (p : Parser) (expected : TokenType) : Parser :=
  if p.current.type = expected then
    match p.lexer.getNextToken with
    | .ok (tok, lx) => { lexer := lx, current := tok }
    | .error _ => { p with lexer := { p.lexer with pos := p.lexer.cursorAfter } }
  else p

/-- The number of characters a call of `getNextToken` moves the cursor by, read
off the text from the cursor on. -/
def scanLen : List Char → Nat
  | [] => 0
  | c :: r =>
    if isspace c then scanLen r + 1
    else if isdigit c then (readDigitsLoop (c :: r) 0 0).1
    else 1

/-- The characters the `Lexer` accepts: white space, decimal digits, and
`+ - * / ( )`. -/
def legalChar (c : Char) : Bool :=
  isspace c || isdigit c || decide (c ∈ ['+', '-', '*', '/', '(', ')'])

/-- All characters before the cursor are accepted ones, and a lookahead `End`
means that the cursor is at the end of the text. -/
def Scanned (p : Parser) : Prop :=
  (∀ c ∈ p.lexer.text.take p.lexer.pos, legalChar c = true) ∧
  (p.current.type = .End → p.lexer.text.length ≤ p.lexer.pos)

/-- The relation of a run with itself that carries `Scanned` along. -/
def ScannedRun (s : List Char) (p1 p2 : Parser) : Prop :=
  p1 = p2 ∧ p1.lexer.text = s ∧ Scanned p1

/-- The text `s2` is the text `s1` with white space characters inserted,
none of them between two adjacent digits.  The flag says whether the
character before the two texts is a digit: `WsInserted false s1 s2` relates
two whole lines. -/
inductive WsInserted : Bool → List Char → List Char → Prop where
  | nil (b : Bool) : WsInserted b [] []
  | keep (b : Bool) (c : Char) {s1 s2 : List Char} :
      WsInserted (isdigit c) s1 s2 → WsInserted b (c :: s1) (c :: s2)
  | ins (b : Bool) (w : Char) {s1 s2 : List Char} :
      isspace w = true → (b = true → ∀ c ∈ s1.head?, isdigit c = false) →
      WsInserted b s1 s2 → WsInserted b s1 (w :: s2)

/-- The first tokens of two texts agree, and so do the texts after them up to
inserted white space. -/
def ScanWs (r1 r2 : List Char) : Prop :=
  match scan r1 with
  | .error e => scan r2 = .error e
  | .ok (t, k1) => ∃ k2, scan r2 = .ok (t, k2) ∧ WsInserted false (r1.drop k1) (r2.drop k2)

/-- Two parser states with the same lookahead, the second on a text with
white space inserted. -/
def WsRun (p1 p2 : Parser) : Prop :=
  p2.current = p1.current ∧ WsInserted false p1.lexer.rest p2.lexer.rest

/-- A text `post` that holds one binary operator `T`, `k` characters long
with the white space before it, and white space only after it. -/
structure Operator (post : List Char) (T : Token) (k : Nat) : Prop where
  first : scan post = .ok (T, k)
  nodigit : ∀ c ∈ post.head?, isdigit c = false
  last : ∃ j, scan (post.drop k) = .ok (⟨.End, 0⟩, j)
  op : (T.type = .Star ∨ T.type = .Slash) ∨ (T.type = .Plus ∨ T.type = .Minus)

/-- The second call returns what the first returns, in a related state. -/
def AnyP (E : Parser → Parser → Prop) (r1 r2 : Except Error Parser) : Prop :=
  match r1 with
  | .ok p1 => ∃ p2, r2 = .ok p2 ∧ E p1 p2
  | .error _ => True

/-- The same for the parsing functions. -/
def AnyOut (E : Parser → Parser → Prop) (r1 r2 : Except Error (Int × Parser)) : Prop :=
  match r1 with
  | .ok (v, q1) => ∃ q2, r2 = .ok (v, q2) ∧ E q1 q2
  | .error _ => True

/-- The second call returns what the first returns, where the first does not
stop at `End`. -/
def SyncOut (E : Parser → Parser → Prop) (r1 r2 : Except Error (Int × Parser)) : Prop :=
  match r1 with
  | .ok (v, q1) => q1.current.type ≠ .End → ∃ q2, r2 = .ok (v, q2) ∧ E q1 q2
  | .error _ => True

/-- A term of the first run that stops at `End`: the second run, which holds
the operator `T` there, goes on with `*` and `/` and finds no operand, and
stops as well with `+` and `-`. -/
def TermOut (E : Parser → Parser → Prop) (T : Token)
    (r1 r2 : Except Error (Int × Parser)) : Prop :=
  match r1 with
  | .ok (v, q1) => q1.current.type = .End →
      (T.type = .Star ∨ T.type = .Slash → r2 = .error .operandExpected) ∧
      (T.type = .Plus ∨ T.type = .Minus → ∃ q2, r2 = .ok (v, q2) ∧ E q1 q2)
  | .error _ => True

/-- An expression of the first run that stops at `End`: the second run finds
no operand. -/
def ExprOut (r1 r2 : Except Error (Int × Parser)) : Prop :=
  match r1 with
  | .ok (_, q1) => q1.current.type = .End → r2 = .error .operandExpected
  | .error _ => True

/-- The five parsing functions on a text and on the text with `post` after
it, up to the end of the first text. -/
def SyncAt (E : Parser → Parser → Prop) (n m : Nat) : Prop :=
  ∀ p1 p2, E p1 p2 →
    AnyOut E (Parser.parseFactor n p1) (Parser.parseFactor m p2) ∧
    (∀ v, SyncOut E (Parser.parseTermLoop n v p1) (Parser.parseTermLoop m v p2)) ∧
    SyncOut E (Parser.parseTerm n p1) (Parser.parseTerm m p2) ∧
    (∀ v, SyncOut E (Parser.parseExprLoop n v p1) (Parser.parseExprLoop m v p2)) ∧
    SyncOut E (Parser.parseExpr n p1) (Parser.parseExpr m p2)

/-- The parsing functions at the end of the first text, the second run with
two more units of fuel. -/
def OperandAt (E : Parser → Parser → Prop) (T : Token) (n : Nat) : Prop :=
  ∀ p1 p2, E p1 p2 →
    (∀ v, TermOut E T (Parser.parseTermLoop n v p1) (Parser.parseTermLoop (n + 2) v p2)) ∧
    TermOut E T (Parser.parseTerm n p1) (Parser.parseTerm (n + 2) p2) ∧
    (∀ v, (p1.current.type = .End → T.type = .Plus ∨ T.type = .Minus) →
      ExprOut (Parser.parseExprLoop n v p1) (Parser.parseExprLoop (n + 2) v p2)) ∧
    ExprOut (Parser.parseExpr n p1) (Parser.parseExpr (n + 2) p2)

/-! ## The lexer as a function of the text from the cursor on -/

theorem readDigitsLoop_pos (l : List Char) (pos : Nat) (v : Int) :
    readDigitsLoop l pos v = (pos + (readDigitsLoop l 0 v).1, (readDigitsLoop l 0 v).2) := by
  induction l generalizing pos v with
  | nil => simp [readDigitsLoop]
  | cons c r ih =>
    by_cases hc : isdigit c = true
    · simp only [readDigitsLoop, hc, if_true]
      rw [ih (pos + 1), ih (0 + 1)]
      simp only [Prod.mk.injEq, and_true]
      omega
    · simp [readDigitsLoop, hc]

theorem drop_eq_cons {text : List Char} {pos : Nat} {c : Char} {r : List Char}
    (h : text.drop pos = c :: r) : text[pos]? = some c ∧ text.drop (pos + 1) = r := by
  constructor
  · have := List.head?_drop text pos
    rw [h] at this
    simpa using this.symm
  · have := List.drop_drop 1 pos text
    rw [h] at this
    simpa [Nat.add_comm] using this.symm

theorem getNextToken_eq_scan_aux (l : List Char) :
    ∀ (text : List Char) (pos : Nat), text.drop pos = l →
      Lexer.getNextToken ⟨text, pos⟩ =
        match scan l with
        | .error e => .error e
        | .ok (t, k) => .ok (t, ⟨text, pos + k⟩) := by
  induction l with
  | nil =>
    intro text pos h
    have hlen : text.length ≤ pos := List.drop_eq_nil_iff.mp h
    simp [Lexer.getNextToken, Lexer.skipWhitespace, h, skipWhitespaceLoop, scan,
      List.getElem?_eq_none hlen]
  | cons c r ih =>
    intro text pos h
    obtain ⟨hget, hdrop⟩ := drop_eq_cons h
    by_cases hs : isspace c = true
    · have hstep : Lexer.getNextToken ⟨text, pos⟩ = Lexer.getNextToken ⟨text, pos + 1⟩ := by
        simp [Lexer.getNextToken, Lexer.skipWhitespace, h, hdrop, skipWhitespaceLoop, hs]
      rw [hstep, ih text (pos + 1) hdrop]
      simp only [scan, hs, if_true]
      cases scan r with
      | error e => rfl
      | ok a =>
        simp only [Except.ok.injEq, Prod.mk.injEq, Lexer.mk.injEq, true_and]
        omega
    · have hs' : isspace c = false := by simpa using hs
      have hskip : (Lexer.skipWhitespace ⟨text, pos⟩) = ⟨text, pos⟩ := by
        simp [Lexer.skipWhitespace, h, skipWhitespaceLoop, hs']
      simp only [Lexer.getNextToken, hskip, hget, scan, hs', h, Bool.false_eq_true, if_false]
      by_cases hd : isdigit c = true
      · simp only [hd, if_true]
        rw [readDigitsLoop_pos (c :: r) pos 0]
      · have hd' : isdigit c = false := by simpa using hd
        simp only [hd', Bool.false_eq_true, if_false]
        split_ifs <;> rfl

/-- `Lexer::getNextToken` depends on the text from the cursor on only, and
moves the cursor by the number of characters `scan` counts. -/
theorem getNextToken_eq_scan (lx : Lexer) :
    lx.getNextToken =
      match scan lx.rest with
      | .error e => .error e
      | .ok (t, k) => .ok (t, ⟨lx.text, lx.pos + k⟩) :=
  getNextToken_eq_scan_aux lx.rest lx.text lx.pos rfl

/-! ## Simulation between two runs of the parser

Two parser states are related by `P` when they hold the same lookahead and
their lexers deliver related tokens from then on, except that where the first
run is at `End` the second may hold a token that is no binary operator.  Then
every result of the first run is a result of the second, with at least as
much fuel.  `strict` says that the second run is at `End` whenever the first
is; errors caused by the lookahead are carried over only then. -/

section Simulation

variable {P : Parser → Parser → Prop} {strict : Prop}

theorem relP_bind {r1 r2 : Except Error Parser}
    {f1 f2 : Parser → Except Error (Int × Parser)} :
    RelP P strict r1 r2 →
    (∀ p1 p2, P p1 p2 → RelOut P strict (f1 p1) (f2 p2)) →
    RelOut P strict
      (match r1 with
        | .error e => .error e
        | .ok p => f1 p)
      (match r2 with
        | .error e => .error e
        | .ok p => f2 p) := by
  intro h hf
  cases r1 with
  | error e =>
    intro hk
    have h2 : r2 = .error e := h hk
    rw [h2]
  | ok p1 =>
    obtain ⟨p2, h2, hP⟩ := h
    rw [h2]
    exact hf p1 p2 hP

theorem relOut_bind {r1 r2 : Except Error (Int × Parser)}
    {f1 f2 : Int → Parser → Except Error (Int × Parser)} :
    RelOut P strict r1 r2 →
    (∀ v p1 p2, P p1 p2 → RelOut P strict (f1 v p1) (f2 v p2)) →
    RelOut P strict
      (match r1 with
        | .error e => .error e
        | .ok (v, p) => f1 v p)
      (match r2 with
        | .error e => .error e
        | .ok (v, p) => f2 v p) := by
  intro h hf
  cases r1 with
  | error e =>
    intro hk
    have h2 : r2 = .error e := h hk
    rw [h2]
  | ok a =>
    obtain ⟨v, p1⟩ := a
    obtain ⟨p2, h2, hP⟩ := h
    rw [h2]
    exact hf v p1 p2 hP

theorem Simulation.eat (S : Simulation P strict) {p1 p2 : Parser} (hP : P p1 p2)
    (t : TokenType) (ht : t ≠ .End) :
    RelP P strict (p1.eat t) (p2.eat t) := by
  by_cases h1 : p1.current.type = t
  · have hne : p1.current.type ≠ .End := by rw [h1]; exact ht
    have h2 : p2.current.type = t := by rw [S.cur p1 p2 hP hne]; exact h1
    simp only [Parser.eat, h1, h2, if_true]
    exact S.adv p1 p2 hP hne
  · have h2 : p2.current.type ≠ t ∨ ¬ strict := by
      by_cases he : p1.current.type = .End
      · by_cases hs : strict
        · left
          rw [S.strictEnd hs p1 p2 hP he]
          exact fun h => ht h.symm
        · exact Or.inr hs
      · left
        rw [S.cur p1 p2 hP he]
        exact h1
    simp only [Parser.eat, h1, if_false]
    intro hk
    rcases h2 with h2 | h2
    · simp only [h2, if_false]
    · rcases hk.2 with hs | hd | ⟨c, hc⟩
      · exact absurd hs h2
      · rcases hd with hd | hd <;> cases hd
      · cases hc

theorem kept_syntax_strict {e : Error} (hk : Error.kept strict e)
    (hd : e ≠ .divisionByZero ∧ e ≠ .killed) (hc : ∀ c, e ≠ .unknownChar c) : strict := by
  rcases hk.2 with hs | h | ⟨c, h⟩
  · exact hs
  · rcases h with h | h
    · exact absurd h hd.1
    · exact absurd h hd.2
  · exact absurd h (hc c)

theorem sim_factor (S : Simulation P strict) {n m : Nat} (ih : SimAt P strict n m)
    {p1 p2 : Parser} (hP : P p1 p2) :
    RelOut P strict (Parser.parseFactor (n + 1) p1) (Parser.parseFactor (m + 1) p2) := by
  by_cases he : p1.current.type = .End
  · have h1 : Parser.parseFactor (n + 1) p1 = .error .operandExpected := by
      simp only [Parser.parseFactor, he]
    rw [h1]
    intro hk
    have hs : strict := kept_syntax_strict hk (by decide) (by intro c; simp)
    have h2 := S.strictEnd hs p1 p2 hP he
    simp only [Parser.parseFactor, h2]
  · have hc := S.cur p1 p2 hP he
    simp only [Parser.parseFactor, hc]
    cases hty : p1.current.type with
    | Number =>
      exact relP_bind (S.eat hP .Number (by decide)) (fun p1' p2' hP' => ⟨p2', rfl, hP'⟩)
    | LParen =>
      refine relP_bind (S.eat hP .LParen (by decide)) (fun p1' p2' hP' => ?_)
      refine relOut_bind (ih p1' p2' hP').2.2.2.2 (fun v q1 q2 hQ => ?_)
      exact relP_bind (S.eat hQ .RParen (by decide)) (fun q1' q2' hQ' => ⟨q2', rfl, hQ'⟩)
    | Minus =>
      refine relP_bind (S.eat hP .Minus (by decide)) (fun p1' p2' hP' => ?_)
      exact relOut_bind (ih p1' p2' hP').1 (fun v q1 q2 hQ => ⟨q2, rfl, hQ⟩)
    | End => exact absurd hty he
    | Plus => intro _; rfl
    | Star => intro _; rfl
    | Slash => intro _; rfl
    | RParen => intro _; rfl

theorem sim_termLoop (S : Simulation P strict) {n m : Nat} (ih : SimAt P strict n m)
    {p1 p2 : Parser} (hP : P p1 p2) (v : Int) :
    RelOut P strict (Parser.parseTermLoop (n + 1) v p1) (Parser.parseTermLoop (m + 1) v p2) := by
  by_cases hop : p1.current.type = .Star ∨ p1.current.type = .Slash
  · have he : p1.current.type ≠ .End := by
      rcases hop with h | h <;> rw [h] <;> decide
    have hc := S.cur p1 p2 hP he
    simp only [Parser.parseTermLoop, hc, hop, if_true]
    refine relP_bind (S.eat hP _ he) (fun p1' p2' hP' => ?_)
    refine relOut_bind (ih p1' p2' hP').1 (fun right q1 q2 hQ => ?_)
    split_ifs
    · exact (ih q1 q2 hQ).2.1 _
    · intro _; rfl
    · intro _; rfl
    · exact (ih q1 q2 hQ).2.1 _
  · have h2 : ¬ (p2.current.type = .Star ∨ p2.current.type = .Slash) := by
      by_cases he : p1.current.type = .End
      · have := S.stop p1 p2 hP he
        tauto
      · rw [S.cur p1 p2 hP he]
        exact hop
    simp only [Parser.parseTermLoop, hop, h2, if_false]
    exact ⟨p2, rfl, hP⟩

theorem sim_exprLoop (S : Simulation P strict) {n m : Nat} (ih : SimAt P strict n m)
    {p1 p2 : Parser} (hP : P p1 p2) (v : Int) :
    RelOut P strict (Parser.parseExprLoop (n + 1) v p1) (Parser.parseExprLoop (m + 1) v p2) := by
  by_cases hop : p1.current.type = .Plus ∨ p1.current.type = .Minus
  · have he : p1.current.type ≠ .End := by
      rcases hop with h | h <;> rw [h] <;> decide
    have hc := S.cur p1 p2 hP he
    simp only [Parser.parseExprLoop, hc, hop, if_true]
    refine relP_bind (S.eat hP _ he) (fun p1' p2' hP' => ?_)
    refine relOut_bind (ih p1' p2' hP').2.2.1 (fun right q1 q2 hQ => ?_)
    split_ifs
    · exact (ih q1 q2 hQ).2.2.2.1 _
    · exact (ih q1 q2 hQ).2.2.2.1 _
  · have h2 : ¬ (p2.current.type = .Plus ∨ p2.current.type = .Minus) := by
      by_cases he : p1.current.type = .End
      · have := S.stop p1 p2 hP he
        tauto
      · rw [S.cur p1 p2 hP he]
        exact hop
    simp only [Parser.parseExprLoop, hop, h2, if_false]
    exact ⟨p2, rfl, hP⟩

theorem sim_term (_S : Simulation P strict) {n m : Nat} (ih : SimAt P strict n m)
    {p1 p2 : Parser} (hP : P p1 p2) :
    RelOut P strict (Parser.parseTerm (n + 1) p1) (Parser.parseTerm (m + 1) p2) := by
  simp only [Parser.parseTerm]
  exact relOut_bind (ih p1 p2 hP).1 (fun v q1 q2 hQ => (ih q1 q2 hQ).2.1 v)

theorem sim_expr (_S : Simulation P strict) {n m : Nat} (ih : SimAt P strict n m)
    {p1 p2 : Parser} (hP : P p1 p2) :
    RelOut P strict (Parser.parseExpr (n + 1) p1) (Parser.parseExpr (m + 1) p2) := by
  simp only [Parser.parseExpr]
  exact relOut_bind (ih p1 p2 hP).2.2.1 (fun v q1 q2 hQ => (ih q1 q2 hQ).2.2.2.1 v)

theorem relOut_outOfFuel (r : Except Error (Int × Parser)) :
    RelOut P strict (.error .outOfFuel) r := fun hk => absurd rfl hk.1

/-- A simulation relates the runs of all five parsing functions, the second
run with at least the fuel of the first. -/
theorem simulation (S : Simulation P strict) :
    ∀ n m, n ≤ m → SimAt P strict n m := by
  intro n
  induction n with
  | zero =>
    intro m _ p1 p2 _
    simp only [Parser.parseFactor, Parser.parseTermLoop, Parser.parseTerm,
      Parser.parseExprLoop, Parser.parseExpr]
    exact ⟨relOut_outOfFuel _, fun _ => relOut_outOfFuel _, relOut_outOfFuel _,
      fun _ => relOut_outOfFuel _, relOut_outOfFuel _⟩
  | succ n ih =>
    intro m hm
    obtain ⟨m, rfl⟩ : ∃ k, m = k + 1 := ⟨m - 1, by omega⟩
    have ih' := ih m (by omega)
    intro p1 p2 hP
    exact ⟨sim_factor S ih' hP, sim_termLoop S ih' hP, sim_term S ih' hP,
      sim_exprLoop S ih' hP, sim_expr S ih' hP⟩

end Simulation

/-! ## More fuel does not change a result -/

theorem advance_eq_scan (lx : Lexer) :
    Parser.advance lx =
      match scan lx.rest with
      | .error e => .error e
      | .ok (t, k) => .ok ⟨⟨lx.text, lx.pos + k⟩, t⟩ := by
  rw [Parser.advance, getNextToken_eq_scan]
  cases scan lx.rest with
  | error e => rfl
  | ok a => rfl

theorem rest_add (text : List Char) (pos k : Nat) :
    Lexer.rest ⟨text, pos + k⟩ = (Lexer.rest ⟨text, pos⟩).drop k := by
  simp [Lexer.rest, List.drop_drop, Nat.add_comm]

theorem simulation_eq : Simulation Eq True where
  cur := fun p1 p2 h _ => by rw [h]
  adv := fun p1 p2 h _ => by
    subst h
    cases hr : Parser.advance p1.lexer with
    | error e => exact fun _ => rfl
    | ok q => exact ⟨q, rfl, rfl⟩
  stop := fun p1 p2 h he => by
    subst h
    rw [he]
    decide
  strictEnd := fun _ p1 p2 h he => by rw [← h]; exact he

/-- A value returned with some fuel is returned with any larger fuel. -/
theorem parseExpr_fuel_ok {n m : Nat} (hnm : n ≤ m) {p : Parser} {v : Int} {q : Parser}
    (h : Parser.parseExpr n p = .ok (v, q)) : Parser.parseExpr m p = .ok (v, q) := by
  have hs := (simulation simulation_eq n m hnm p p rfl).2.2.2.2
  rw [h] at hs
  obtain ⟨q2, h2, hq⟩ := hs
  rw [h2, hq]

/-- An error of the program raised with some fuel is raised with any larger
fuel. -/
theorem parseExpr_fuel_error {n m : Nat} (hnm : n ≤ m) {p : Parser} {e : Error}
    (h : Parser.parseExpr n p = .error e) (he : e ≠ .outOfFuel) :
    Parser.parseExpr m p = .error e := by
  have hs := (simulation simulation_eq n m hnm p p rfl).2.2.2.2
  rw [h] at hs
  exact hs ⟨he, Or.inl trivial⟩

/-! ## Text after the expression -/

theorem readDigitsLoop_append (l post : List Char) (hnd : ∀ c ∈ post.head?, isdigit c = false)
    (pos : Nat) (v : Int) :
    readDigitsLoop (l ++ post) pos v = readDigitsLoop l pos v := by
  induction l generalizing pos v with
  | nil =>
    cases post with
    | nil => rfl
    | cons c r =>
      have hc : isdigit c = false := hnd c (by simp)
      simp [readDigitsLoop, hc]
  | cons c r ih =>
    by_cases hc : isdigit c = true
    · simp only [List.cons_append, readDigitsLoop, hc, if_true]
      exact ih _ _
    · simp [readDigitsLoop, hc]

theorem readDigitsLoop_le (l : List Char) (v : Int) :
    (readDigitsLoop l 0 v).1 ≤ l.length := by
  induction l generalizing v with
  | nil => simp [readDigitsLoop]
  | cons c r ih =>
    by_cases hc : isdigit c = true
    · simp only [readDigitsLoop, hc, if_true, List.length_cons]
      rw [readDigitsLoop_pos]
      have := ih (wrap (wrap (v * 10) + ((c.toNat : Int) - 48)))
      simp only
      omega
    · simp [readDigitsLoop, hc]

/-- The first token of a text followed by `post`, when `post` does not start
with a digit: the first token of the text if there is one, else the first
token of `post`. -/
theorem scan_append (r post : List Char) (hnd : ∀ c ∈ post.head?, isdigit c = false) :
    match scan r with
    | .error e => scan (r ++ post) = .error e
    | .ok (t, k) =>
      if t.type = .End then
        k = r.length ∧
        scan (r ++ post) =
          match scan post with
          | .error e => .error e
          | .ok (t2, j) => .ok (t2, j + r.length)
      else scan (r ++ post) = .ok (t, k) ∧ k ≤ r.length := by
  induction r with
  | nil =>
    simp only [scan, if_true, List.nil_append, List.length_nil, Nat.add_zero, true_and]
    cases scan post with
    | error e => rfl
    | ok a => rfl
  | cons c r ih =>
    rw [List.cons_append]
    by_cases hs : isspace c = true
    · simp only [scan, hs, if_true, List.length_cons]
      cases hsr : scan r with
      | error e =>
        rw [hsr] at ih
        simp only at ih
        simp only [ih]
      | ok a =>
        obtain ⟨t, k⟩ := a
        rw [hsr] at ih
        simp only at ih ⊢
        by_cases ht : t.type = .End
        · simp only [ht, if_true] at ih ⊢
          obtain ⟨hk, hsc⟩ := ih
          refine ⟨by omega, ?_⟩
          rw [hsc]
          cases scan post with
          | error e => rfl
          | ok b => simp only [Except.ok.injEq, Prod.mk.injEq, true_and]; omega
        · simp only [ht, if_false] at ih ⊢
          obtain ⟨hsc, hk⟩ := ih
          rw [hsc]
          exact ⟨rfl, by omega⟩
    · have hs' : isspace c = false := by simpa using hs
      by_cases hd : isdigit c = true
      · simp only [scan, hs', hd, if_true, Bool.false_eq_true, if_false]
        have happ := readDigitsLoop_append (c :: r) post hnd 0 0
        simp only [List.cons_append] at happ
        rw [happ]
        refine ⟨rfl, ?_⟩
        exact readDigitsLoop_le (c :: r) 0
      · have hd' : isdigit c = false := by simpa using hd
        simp only [scan, hs', hd', Bool.false_eq_true, if_false, List.length_cons]
        split_ifs <;> simp

theorem advance_ext {post : List Char} {T : Token} {k : Nat} (strict : Prop)
    (hpost : scan post = .ok (T, k)) (hnd : ∀ c ∈ post.head?, isdigit c = false)
    (lx1 lx2 : Lexer) (hrest : lx2.rest = lx1.rest ++ post) :
    RelP (Ext post T k) strict (Parser.advance lx1) (Parser.advance lx2) := by
  rw [advance_eq_scan lx1, advance_eq_scan lx2, hrest]
  have happ := scan_append lx1.rest post hnd
  cases hsr : scan lx1.rest with
  | error e =>
    rw [hsr] at happ
    simp only at happ
    rw [happ]
    exact fun _ => rfl
  | ok a =>
    obtain ⟨t, j⟩ := a
    rw [hsr] at happ
    simp only at happ
    by_cases ht : t.type = .End
    · simp only [ht, if_true, hpost] at happ
      obtain ⟨hj, hsc⟩ := happ
      rw [hsc]
      refine ⟨_, rfl, Or.inr ⟨ht, rfl, ?_⟩⟩
      show Lexer.rest ⟨lx2.text, lx2.pos + (k + lx1.rest.length)⟩ = post.drop k
      rw [rest_add]
      show lx2.rest.drop (k + lx1.rest.length) = post.drop k
      rw [hrest, Nat.add_comm, List.drop_append]
    · simp only [ht, if_false] at happ
      obtain ⟨hsc, hj⟩ := happ
      rw [hsc]
      refine ⟨_, rfl, Or.inl ⟨ht, rfl, ?_⟩⟩
      show Lexer.rest ⟨lx2.text, lx2.pos + j⟩ = Lexer.rest ⟨lx1.text, lx1.pos + j⟩ ++ post
      rw [rest_add, rest_add]
      show lx2.rest.drop j = lx1.rest.drop j ++ post
      rw [hrest, List.drop_append_of_le_length hj]

theorem simulation_ext {post : List Char} {T : Token} {k : Nat}
    (hpost : scan post = .ok (T, k)) (hnd : ∀ c ∈ post.head?, isdigit c = false)
    (hstop : T.type ≠ .Plus ∧ T.type ≠ .Minus ∧ T.type ≠ .Star ∧ T.type ≠ .Slash) :
    Simulation (Ext post T k) (T.type = .End) where
  cur := fun p1 p2 h he => by
    rcases h with ⟨_, h, _⟩ | ⟨h, _, _⟩
    · exact h
    · exact absurd h he
  adv := fun p1 p2 h he => by
    rcases h with ⟨_, _, h⟩ | ⟨h, _, _⟩
    · exact advance_ext _ hpost hnd _ _ h
    · exact absurd h he
  stop := fun p1 p2 h he => by
    rcases h with ⟨h, _, _⟩ | ⟨_, h, _⟩
    · exact absurd he h
    · rw [h]
      exact hstop
  strictEnd := fun hs p1 p2 h he => by
    rcases h with ⟨h, _, _⟩ | ⟨_, h, _⟩
    · exact absurd he h
    · rw [h]
      exact hs

/-! ## The fuel of `parse` is enough

The size of a parser state counts the characters after the cursor, and one
for a lookahead that is not `End`.  Every token eaten makes it smaller, and
`3 * size + 3` bounds the depth of the calls. -/

theorem readDigitsLoop_cons_pos {c : Char} (hc : isdigit c = true) (r : List Char) (v : Int) :
    1 ≤ (readDigitsLoop (c :: r) 0 v).1 := by
  simp only [readDigitsLoop, hc, if_true]
  rw [readDigitsLoop_pos]
  simp only
  omega

theorem scan_count (r : List Char) :
    ∀ t k, scan r = .ok (t, k) → k ≤ r.length ∧ (t.type ≠ .End → 1 ≤ k) := by
  induction r with
  | nil =>
    intro t k h
    simp only [scan, Except.ok.injEq, Prod.mk.injEq] at h
    obtain ⟨ht, hk⟩ := h
    subst ht hk
    simp
  | cons c r ih =>
    intro t k h
    by_cases hs : isspace c = true
    · simp only [scan, hs, if_true] at h
      cases hsr : scan r with
      | error e => rw [hsr] at h; cases h
      | ok a =>
        obtain ⟨t', k'⟩ := a
        rw [hsr] at h
        simp only [Except.ok.injEq, Prod.mk.injEq] at h
        obtain ⟨ht, hk⟩ := h
        subst ht hk
        have := (ih t' k' hsr).1
        simp only [List.length_cons]
        omega
    · have hs' : isspace c = false := by simpa using hs
      by_cases hd : isdigit c = true
      · simp only [scan, hs', hd, if_true, Bool.false_eq_true, if_false, Except.ok.injEq,
          Prod.mk.injEq] at h
        obtain ⟨_, hk⟩ := h
        subst hk
        exact ⟨readDigitsLoop_le (c :: r) 0, fun _ => readDigitsLoop_cons_pos hd r 0⟩
      · have hd' : isdigit c = false := by simpa using hd
        simp only [scan, hs', hd', Bool.false_eq_true, if_false] at h
        split_ifs at h <;> cases h <;> simp

theorem advance_fine (lx : Lexer) : FineP (lx.rest.length + 1) (Parser.advance lx) := by
  rw [advance_eq_scan]
  cases hsr : scan lx.rest with
  | error e =>
    refine ⟨?_, fun q h => by cases h⟩
    intro h
    simp only [Except.error.injEq] at h
    subst h
    revert hsr
    generalize lx.rest = r
    induction r with
    | nil => simp [scan]
    | cons c r ih =>
      simp only [scan]
      split_ifs <;> try simp
      cases hsr : scan r with
      | error e =>
        intro h
        simp only [Except.error.injEq] at h
        exact ih (by rw [hsr, h])
      | ok a => simp
  | ok a =>
    obtain ⟨t, k⟩ := a
    refine ⟨by simp, fun q h => ?_⟩
    simp only [Except.ok.injEq] at h
    subst h
    have hc := scan_count lx.rest t k hsr
    simp only [Parser.size]
    have hr : (Lexer.rest ⟨lx.text, lx.pos + k⟩).length = lx.rest.length - k := by
      have : Lexer.rest ⟨lx.text, lx.pos + k⟩ = lx.rest.drop k := rest_add lx.text lx.pos k
      rw [this, List.length_drop]
    rw [hr]
    split_ifs with he
    · omega
    · have := hc.2 he
      omega

theorem eat_fine (p : Parser) (t : TokenType) (ht : t ≠ .End) : FineP p.size (p.eat t) := by
  by_cases h : p.current.type = t
  · have he : p.current.type ≠ .End := by rw [h]; exact ht
    simp only [Parser.eat, h, if_true]
    have := advance_fine p.lexer
    simp only [Parser.size, he, if_false]
    exact this
  · simp only [Parser.eat, h, if_false]
    exact ⟨by simp, fun q hq => by cases hq⟩

theorem fineP_bind {s1 s : Nat} {r : Except Error Parser}
    {f : Parser → Except Error (Int × Parser)} :
    FineP s1 r → (∀ q, q.size < s1 → Fine s (f q)) →
    Fine s
      (match r with
        | .error e => .error e
        | .ok q => f q) := by
  intro h hf
  cases r with
  | error e =>
    show Fine s (.error e)
    refine ⟨fun he => h.1 ?_, fun v q hq => by cases hq⟩
    simp only [Except.error.injEq] at he
    rw [he]
  | ok q => exact hf q (h.2 q rfl)

theorem fine_bind {s1 s : Nat} {r : Except Error (Int × Parser)}
    {f : Int → Parser → Except Error (Int × Parser)} :
    Fine s1 r → (∀ v q, q.size < s1 → Fine s (f v q)) →
    Fine s
      (match r with
        | .error e => .error e
        | .ok (v, q) => f v q) := by
  intro h hf
  cases r with
  | error e =>
    show Fine s (.error e)
    exact ⟨h.1, fun v q hq => by cases hq⟩
  | ok a =>
    obtain ⟨v, q⟩ := a
    exact hf v q (h.2 v q rfl)

theorem Fine.mono {s s' : Nat} {r : Except Error (Int × Parser)} (h : Fine s r)
    (hs : s ≤ s') : Fine s' r :=
  ⟨h.1, fun v q hq => Nat.lt_of_lt_of_le (h.2 v q hq) hs⟩

theorem fine_ok {s : Nat} {v : Int} {q : Parser} (h : q.size < s) :
    Fine s (.ok (v, q)) := by
  refine ⟨by simp, fun v' q' hq => ?_⟩
  simp only [Except.ok.injEq, Prod.mk.injEq] at hq
  rw [← hq.2]
  exact h

theorem fine_error {s : Nat} {e : Error} (he : e ≠ .outOfFuel) : Fine s (.error e) :=
  ⟨by simpa using he, fun v q hq => by cases hq⟩

theorem fuel_factor {n : Nat} (ih : FuelAt n) (p : Parser) (hn : 3 * p.size + 1 ≤ n + 1) :
    Fine p.size (Parser.parseFactor (n + 1) p) := by
  simp only [Parser.parseFactor]
  cases hty : p.current.type with
  | Number =>
    exact fineP_bind (eat_fine p .Number (by decide)) (fun q hq => fine_ok hq)
  | LParen =>
    refine fineP_bind (eat_fine p .LParen (by decide)) (fun p' hp' => ?_)
    refine fine_bind ((ih p').2.2.2.2 (by omega)) (fun v q hq => ?_)
    refine fineP_bind (eat_fine q .RParen (by decide)) (fun q' hq' => fine_ok (by omega))
  | Minus =>
    refine fineP_bind (eat_fine p .Minus (by decide)) (fun p' hp' => ?_)
    exact fine_bind ((ih p').1 (by omega)) (fun v q hq => fine_ok (by omega))
  | End => exact fine_error (by decide)
  | Plus => exact fine_error (by decide)
  | Star => exact fine_error (by decide)
  | Slash => exact fine_error (by decide)
  | RParen => exact fine_error (by decide)

theorem fuel_termLoop {n : Nat} (ih : FuelAt n) (p : Parser) (v : Int)
    (hn : 3 * p.size + 1 ≤ n + 1) :
    Fine (p.size + 1) (Parser.parseTermLoop (n + 1) v p) := by
  by_cases hop : p.current.type = .Star ∨ p.current.type = .Slash
  · have he : p.current.type ≠ .End := by
      rcases hop with h | h <;> rw [h] <;> decide
    simp only [Parser.parseTermLoop, hop, if_true]
    refine fineP_bind (eat_fine p _ he) (fun p' hp' => ?_)
    refine fine_bind ((ih p').1 (by omega)) (fun right q hq => ?_)
    split_ifs
    · exact ((ih q).2.1 _ (by omega)).mono (by omega)
    · exact fine_error (by decide)
    · exact fine_error (by decide)
    · exact ((ih q).2.1 _ (by omega)).mono (by omega)
  · simp only [Parser.parseTermLoop, hop, if_false]
    exact fine_ok (by omega)

theorem fuel_exprLoop {n : Nat} (ih : FuelAt n) (p : Parser) (v : Int)
    (hn : 3 * p.size + 1 ≤ n + 1) :
    Fine (p.size + 1) (Parser.parseExprLoop (n + 1) v p) := by
  by_cases hop : p.current.type = .Plus ∨ p.current.type = .Minus
  · have he : p.current.type ≠ .End := by
      rcases hop with h | h <;> rw [h] <;> decide
    simp only [Parser.parseExprLoop, hop, if_true]
    refine fineP_bind (eat_fine p _ he) (fun p' hp' => ?_)
    refine fine_bind ((ih p').2.2.1 (by omega)) (fun right q hq => ?_)
    split_ifs
    · exact ((ih q).2.2.2.1 _ (by omega)).mono (by omega)
    · exact ((ih q).2.2.2.1 _ (by omega)).mono (by omega)
  · simp only [Parser.parseExprLoop, hop, if_false]
    exact fine_ok (by omega)

theorem fuel_term {n : Nat} (ih : FuelAt n) (p : Parser) (hn : 3 * p.size + 2 ≤ n + 1) :
    Fine p.size (Parser.parseTerm (n + 1) p) := by
  simp only [Parser.parseTerm]
  exact fine_bind ((ih p).1 (by omega))
    (fun v q hq => ((ih q).2.1 v (by omega)).mono (by omega))

theorem fuel_expr {n : Nat} (ih : FuelAt n) (p : Parser) (hn : 3 * p.size + 3 ≤ n + 1) :
    Fine p.size (Parser.parseExpr (n + 1) p) := by
  simp only [Parser.parseExpr]
  exact fine_bind ((ih p).2.2.1 (by omega))
    (fun v q hq => ((ih q).2.2.2.1 v (by omega)).mono (by omega))

theorem fuel_enough : ∀ n, FuelAt n := by
  intro n
  induction n with
  | zero =>
    intro p
    exact ⟨fun h => by omega, fun _ h => by omega, fun h => by omega, fun _ h => by omega,
      fun h => by omega⟩
  | succ n ih =>
    intro p
    exact ⟨fuel_factor ih p, fun v => fuel_termLoop ih p v, fuel_term ih p,
      fun v => fuel_exprLoop ih p v, fuel_expr ih p⟩

/-! ## Results with enough fuel

What a parsing function returns depends on the lookahead and on the text
after the cursor only (`Parser.view`).  `Yields f s o` says that `f`, started
in any state with view `s` and given enough fuel, ends with outcome `o`: a
value and the view of the state left, or an error of the program. -/

theorem mono_factor : Mono Parser.parseFactor :=
  fun n m p h => (simulation simulation_eq n m h p p rfl).1

theorem mono_termLoop (v : Int) : Mono (fun n p => Parser.parseTermLoop n v p) :=
  fun n m p h => (simulation simulation_eq n m h p p rfl).2.1 v

theorem mono_term : Mono Parser.parseTerm :=
  fun n m p h => (simulation simulation_eq n m h p p rfl).2.2.1

theorem mono_exprLoop (v : Int) : Mono (fun n p => Parser.parseExprLoop n v p) :=
  fun n m p h => (simulation simulation_eq n m h p p rfl).2.2.2.1 v

theorem mono_expr : Mono Parser.parseExpr :=
  fun n m p h => (simulation simulation_eq n m h p p rfl).2.2.2.2

theorem Mono.keep_ok {f : Nat → Parser → Except Error (Int × Parser)} (hf : Mono f)
    {n m : Nat} {p : Parser} {v : Int} {q : Parser} (h : f n p = .ok (v, q)) (hnm : n ≤ m) :
    f m p = .ok (v, q) := by
  have hs := hf n m p hnm
  rw [h] at hs
  obtain ⟨q2, h2, hq⟩ := hs
  rw [h2, hq]

theorem Mono.keep_error {f : Nat → Parser → Except Error (Int × Parser)} (hf : Mono f)
    {n m : Nat} {p : Parser} {e : Error} (h : f n p = .error e) (he : e ≠ .outOfFuel)
    (hnm : n ≤ m) : f m p = .error e := by
  have hs := hf n m p hnm
  rw [h] at hs
  exact hs ⟨he, Or.inl trivial⟩

theorem Mono.keep {f : Nat → Parser → Except Error (Int × Parser)} (hf : Mono f)
    {n m : Nat} {p : Parser} {o : Except Error (Int × (Token × List Char))}
    (h : outcome (f n p) = o) (ho : o ≠ .error .outOfFuel) (hnm : n ≤ m) :
    outcome (f m p) = o := by
  cases hr : f n p with
  | error e =>
    rw [hr] at h
    have he : e ≠ .outOfFuel := by
      intro he
      apply ho
      rw [← h, he]
      rfl
    rw [hf.keep_error hr he hnm]
    exact h
  | ok a =>
    obtain ⟨v, q⟩ := a
    rw [hf.keep_ok hr hnm]
    rw [hr] at h
    exact h

/-- A result that is not `outOfFuel` is the result with enough fuel. -/
theorem Mono.keep_of_fine {f : Nat → Parser → Except Error (Int × Parser)} (hf : Mono f)
    {n F : Nat} {p : Parser} {o : Except Error (Int × (Token × List Char))}
    (h : outcome (f n p) = o) (ho : o ≠ .error .outOfFuel)
    (hF : f F p ≠ .error .outOfFuel) : outcome (f F p) = o := by
  have h1 : outcome (f (max n F) p) = o := hf.keep h ho (Nat.le_max_left n F)
  have h2 : outcome (f (max n F) p) = outcome (f F p) := by
    refine hf.keep rfl ?_ (Nat.le_max_right n F)
    cases hr : f F p with
    | error e =>
      intro he
      apply hF
      rw [hr]
      simpa [outcome] using he
    | ok a => simp [outcome]
  rw [← h2, h1]

theorem outcome_ok {r : Except Error (Int × Parser)} {v : Int} {s : Token × List Char}
    (h : outcome r = .ok (v, s)) : ∃ q, r = .ok (v, q) ∧ q.view = s := by
  cases r with
  | error e => cases h
  | ok a =>
    obtain ⟨v', q⟩ := a
    simp only [outcome, Except.ok.injEq, Prod.mk.injEq] at h
    exact ⟨q, by rw [h.1], h.2⟩

theorem outcome_error {r : Except Error (Int × Parser)} {e : Error}
    (h : outcome r = .error e) : r = .error e := by
  cases r with
  | error e' => simpa [outcome] using h
  | ok a => cases h

/-- The value and the state `f` returns in a given state, with enough fuel. -/
theorem Yields.run_ok {f : Nat → Parser → Except Error (Int × Parser)} (hf : Mono f)
    {s s' : Token × List Char} {v : Int} (h : Yields f s (.ok (v, s'))) {p : Parser}
    (hp : p.view = s) (N : Nat) :
    ∃ n q, N ≤ n ∧ f n p = .ok (v, q) ∧ q.view = s' := by
  obtain ⟨n, hn⟩ := h.2 p hp
  have hm := hf.keep hn h.1 (Nat.le_max_left n N)
  obtain ⟨q, hq, hv⟩ := outcome_ok hm
  exact ⟨max n N, q, Nat.le_max_right n N, hq, hv⟩

/-- The error `f` raises in a given state, with enough fuel. -/
theorem Yields.run_error {f : Nat → Parser → Except Error (Int × Parser)} (hf : Mono f)
    {s : Token × List Char} {e : Error} (h : Yields f s (.error e)) {p : Parser}
    (hp : p.view = s) (N : Nat) :
    ∃ n, N ≤ n ∧ f n p = .error e := by
  obtain ⟨n, hn⟩ := h.2 p hp
  have hm := hf.keep hn h.1 (Nat.le_max_left n N)
  exact ⟨max n N, Nat.le_max_right n N, outcome_error hm⟩

theorem Yields.run {f : Nat → Parser → Except Error (Int × Parser)} (hf : Mono f)
    {s : Token × List Char} {o : Except Error (Int × (Token × List Char))}
    (h : Yields f s o) {p : Parser} (hp : p.view = s) (N : Nat) :
    ∃ n, N ≤ n ∧ outcome (f n p) = o := by
  obtain ⟨n, hn⟩ := h.2 p hp
  exact ⟨max n N, Nat.le_max_right n N, hf.keep hn h.1 (Nat.le_max_left n N)⟩

theorem view_eq {p : Parser} {tok : Token} {r : List Char} (h : p.view = (tok, r)) :
    p.current = tok ∧ p.lexer.rest = r := by
  simpa [Parser.view] using h

theorem scan_error_ne {r : List Char} {e : Error} (h : scan r = .error e) :
    e ≠ .outOfFuel := by
  intro he
  have hf := (advance_fine ⟨r, 0⟩).1
  rw [advance_eq_scan] at hf
  have hr : (Lexer.rest ⟨r, 0⟩) = r := by simp [Lexer.rest]
  rw [hr, h, he] at hf
  exact hf rfl

/-! ### `eat` on views -/

theorem eat_ok {p : Parser} {x : TokenType} {t : Token} {k : Nat}
    (hx : p.current.type = x) (hs : scan p.lexer.rest = .ok (t, k)) :
    ∃ q, p.eat x = .ok q ∧ q.view = (t, p.lexer.rest.drop k) := by
  refine ⟨⟨⟨p.lexer.text, p.lexer.pos + k⟩, t⟩, ?_, ?_⟩
  · simp only [Parser.eat, hx, if_true]
    rw [advance_eq_scan, hs]
  · simp only [Parser.view, rest_add]

theorem eat_scan_error {p : Parser} {x : TokenType} {e : Error}
    (hx : p.current.type = x) (hs : scan p.lexer.rest = .error e) :
    p.eat x = .error e := by
  simp only [Parser.eat, hx, if_true]
  rw [advance_eq_scan, hs]

theorem eat_mismatch {p : Parser} {x : TokenType} (hx : p.current.type ≠ x) :
    p.eat x = .error .unexpectedToken := by
  simp only [Parser.eat, hx, if_false]

/-! ### `parseFactor` -/

theorem yields_factor_num {tok : Token} {r : List Char} {t : Token} {r' : List Char}
    (htok : tok.type = .Number) (hN : Next r t r') :
    Yields Parser.parseFactor (tok, r) (.ok (tok.value, (t, r'))) := by
  refine ⟨by simp, fun p hp => ?_⟩
  obtain ⟨rfl, rfl⟩ := view_eq hp
  have hty : p.current.type = .Number := htok
  obtain ⟨k, h1, rfl⟩ := hN
  obtain ⟨q, he, hv⟩ := eat_ok hty h1
  refine ⟨1, ?_⟩
  simp only [Parser.parseFactor, hty, he, outcome, hv]

theorem yields_factor_paren {tok : Token} {r : List Char} {t1 : Token} {r1 : List Char} {v : Int}
    {t2 : Token} {r2 : List Char} {t3 : Token} {r3 : List Char}
    (htok : tok.type = .LParen) (hN : Next r t1 r1)
    (hE : Yields Parser.parseExpr (t1, r1) (.ok (v, (t2, r2))))
    (h2 : t2.type = .RParen) (hN3 : Next r2 t3 r3) :
    Yields Parser.parseFactor (tok, r) (.ok (v, (t3, r3))) := by
  refine ⟨by simp, fun p hp => ?_⟩
  obtain ⟨rfl, rfl⟩ := view_eq hp
  have hty : p.current.type = .LParen := htok
  obtain ⟨k1, h1, rfl⟩ := hN
  obtain ⟨p', he, hv⟩ := eat_ok hty h1
  obtain ⟨n, q, _, hq, hqv⟩ := hE.run_ok mono_expr hv 0
  obtain ⟨hqc, hqr⟩ := view_eq hqv
  have hqty : q.current.type = .RParen := by rw [hqc]; exact h2
  obtain ⟨k3, h3, rfl⟩ := hN3
  obtain ⟨q', he', hv'⟩ := eat_ok hqty (by rw [hqr]; exact h3)
  refine ⟨n + 1, ?_⟩
  simp only [Parser.parseFactor, hty, he, hq, he', outcome, hv', hqr]

theorem yields_factor_neg {tok : Token} {r : List Char} {t1 : Token} {r1 : List Char} {v : Int}
    {s' : Token × List Char}
    (htok : tok.type = .Minus) (hN : Next r t1 r1)
    (hF : Yields Parser.parseFactor (t1, r1) (.ok (v, s'))) :
    Yields Parser.parseFactor (tok, r) (.ok (wrap (-v), s')) := by
  refine ⟨by simp, fun p hp => ?_⟩
  obtain ⟨rfl, rfl⟩ := view_eq hp
  have hty : p.current.type = .Minus := htok
  obtain ⟨k1, h1, rfl⟩ := hN
  obtain ⟨p', he, hv⟩ := eat_ok hty h1
  obtain ⟨n, q, _, hq, hqv⟩ := hF.run_ok mono_factor hv 0
  refine ⟨n + 1, ?_⟩
  simp only [Parser.parseFactor, hty, he, hq, outcome, hqv]

theorem yields_factor_operand {tok : Token} {r : List Char}
    (h1 : tok.type ≠ .Number) (h2 : tok.type ≠ .LParen) (h3 : tok.type ≠ .Minus) :
    Yields Parser.parseFactor (tok, r) (.error .operandExpected) := by
  refine ⟨by simp, fun p hp => ?_⟩
  obtain ⟨rfl, rfl⟩ := view_eq hp
  refine ⟨1, ?_⟩
  simp only [Parser.parseFactor]
  cases hty : p.current.type with
  | Number => exact absurd hty h1
  | LParen => exact absurd hty h2
  | Minus => exact absurd hty h3
  | Plus => rfl
  | Star => rfl
  | Slash => rfl
  | RParen => rfl
  | End => rfl

theorem yields_factor_paren_error {tok : Token} {r : List Char} {t1 : Token} {r1 : List Char}
    {e : Error} (htok : tok.type = .LParen) (hN : Next r t1 r1)
    (hE : Yields Parser.parseExpr (t1, r1) (.error e)) :
    Yields Parser.parseFactor (tok, r) (.error e) := by
  refine ⟨hE.1, fun p hp => ?_⟩
  obtain ⟨rfl, rfl⟩ := view_eq hp
  have hty : p.current.type = .LParen := htok
  obtain ⟨k1, h1, rfl⟩ := hN
  obtain ⟨p', he, hv⟩ := eat_ok hty h1
  obtain ⟨n, _, hq⟩ := hE.run_error mono_expr hv 0
  refine ⟨n + 1, ?_⟩
  simp only [Parser.parseFactor, hty, he, hq, outcome]

theorem yields_factor_unclosed {tok : Token} {r : List Char} {t1 : Token} {r1 : List Char}
    {v : Int} {t2 : Token} {r2 : List Char}
    (htok : tok.type = .LParen) (hN : Next r t1 r1)
    (hE : Yields Parser.parseExpr (t1, r1) (.ok (v, (t2, r2))))
    (h2 : t2.type ≠ .RParen) :
    Yields Parser.parseFactor (tok, r) (.error .unexpectedToken) := by
  refine ⟨by simp, fun p hp => ?_⟩
  obtain ⟨rfl, rfl⟩ := view_eq hp
  have hty : p.current.type = .LParen := htok
  obtain ⟨k1, h1, rfl⟩ := hN
  obtain ⟨p', he, hv⟩ := eat_ok hty h1
  obtain ⟨n, q, _, hq, hqv⟩ := hE.run_ok mono_expr hv 0
  obtain ⟨hqc, hqr⟩ := view_eq hqv
  have hqty : q.current.type ≠ .RParen := by rw [hqc]; exact h2
  refine ⟨n + 1, ?_⟩
  simp only [Parser.parseFactor, hty, he, hq, eat_mismatch hqty, outcome]

theorem yields_factor_neg_error {tok : Token} {r : List Char} {t1 : Token} {r1 : List Char}
    {e : Error} (htok : tok.type = .Minus) (hN : Next r t1 r1)
    (hF : Yields Parser.parseFactor (t1, r1) (.error e)) :
    Yields Parser.parseFactor (tok, r) (.error e) := by
  refine ⟨hF.1, fun p hp => ?_⟩
  obtain ⟨rfl, rfl⟩ := view_eq hp
  have hty : p.current.type = .Minus := htok
  obtain ⟨k1, h1, rfl⟩ := hN
  obtain ⟨p', he, hv⟩ := eat_ok hty h1
  obtain ⟨n, _, hq⟩ := hF.run_error mono_factor hv 0
  refine ⟨n + 1, ?_⟩
  simp only [Parser.parseFactor, hty, he, hq, outcome]

theorem yields_factor_eat_error {tok : Token} {r : List Char} {e : Error}
    (htok : tok.type = .Number ∨ tok.type = .LParen ∨ tok.type = .Minus)
    (h1 : scan r = .error e) :
    Yields Parser.parseFactor (tok, r) (.error e) := by
  refine ⟨by simpa using scan_error_ne h1, fun p hp => ?_⟩
  obtain ⟨rfl, rfl⟩ := view_eq hp
  refine ⟨1, ?_⟩
  rcases htok with hty | hty | hty <;>
    simp only [Parser.parseFactor, hty, eat_scan_error hty h1, outcome]

/-! ### `parseTerm` and its loop -/

theorem yields_termLoop_stop {tok : Token} {r : List Char} (v : Int)
    (h1 : tok.type ≠ .Star) (h2 : tok.type ≠ .Slash) :
    Yields (fun n p => Parser.parseTermLoop n v p) (tok, r) (.ok (v, (tok, r))) := by
  refine ⟨by simp, fun p hp => ?_⟩
  refine ⟨1, ?_⟩
  obtain ⟨rfl, rfl⟩ := view_eq hp
  simp only [Parser.parseTermLoop, h1, h2, or_self, if_false, outcome, Parser.view]

theorem yields_termLoop_star {tok : Token} {r : List Char} {t1 : Token} {r1 : List Char}
    {v b : Int} {s2 : Token × List Char} {o : Except Error (Int × (Token × List Char))}
    (htok : tok.type = .Star) (hN : Next r t1 r1)
    (hF : Yields Parser.parseFactor (t1, r1) (.ok (b, s2)))
    (hL : Yields (fun n p => Parser.parseTermLoop n (wrap (v * b)) p) s2 o) :
    Yields (fun n p => Parser.parseTermLoop n v p) (tok, r) o := by
  refine ⟨hL.1, fun p hp => ?_⟩
  obtain ⟨rfl, rfl⟩ := view_eq hp
  obtain ⟨k1, h1, rfl⟩ := hN
  obtain ⟨p', he, hv⟩ := eat_ok htok h1
  obtain ⟨n1, q, _, hq, hqv⟩ := hF.run_ok mono_factor hv 0
  obtain ⟨n, hn, ho⟩ := hL.run (mono_termLoop _) hqv n1
  have hq' := mono_factor.keep_ok hq hn
  refine ⟨n + 1, ?_⟩
  simp only [Parser.parseTermLoop, htok, true_or, if_true, he, hq']
  exact ho

theorem yields_termLoop_slash {tok : Token} {r : List Char} {t1 : Token} {r1 : List Char}
    {v b : Int} {s2 : Token × List Char} {o : Except Error (Int × (Token × List Char))}
    (htok : tok.type = .Slash) (hN : Next r t1 r1)
    (hF : Yields Parser.parseFactor (t1, r1) (.ok (b, s2))) (hb : b ≠ 0)
    (hk : ¬ (v = -2147483648 ∧ b = -1))
    (hL : Yields (fun n p => Parser.parseTermLoop n (wrap (Int.tdiv v b)) p) s2 o) :
    Yields (fun n p => Parser.parseTermLoop n v p) (tok, r) o := by
  refine ⟨hL.1, fun p hp => ?_⟩
  obtain ⟨rfl, rfl⟩ := view_eq hp
  obtain ⟨k1, h1, rfl⟩ := hN
  obtain ⟨p', he, hv⟩ := eat_ok htok h1
  obtain ⟨n1, q, _, hq, hqv⟩ := hF.run_ok mono_factor hv 0
  obtain ⟨n, hn, ho⟩ := hL.run (mono_termLoop _) hqv n1
  have hq' := mono_factor.keep_ok hq hn
  have hns : ¬ (TokenType.Slash = TokenType.Star) := by decide
  refine ⟨n + 1, ?_⟩
  simp only [Parser.parseTermLoop, htok, or_true, if_true, he, hq', hns, if_false, hb, hk]
  exact ho

theorem yields_termLoop_killed {tok : Token} {r : List Char} {t1 : Token} {r1 : List Char}
    {s2 : Token × List Char}
    (htok : tok.type = .Slash) (hN : Next r t1 r1)
    (hF : Yields Parser.parseFactor (t1, r1) (.ok (-1, s2))) :
    Yields (fun n p => Parser.parseTermLoop n (-2147483648) p) (tok, r) (.error .killed) := by
  refine ⟨by simp, fun p hp => ?_⟩
  obtain ⟨rfl, rfl⟩ := view_eq hp
  obtain ⟨k1, h1, rfl⟩ := hN
  obtain ⟨p', he, hv⟩ := eat_ok htok h1
  obtain ⟨n, q, _, hq, hqv⟩ := hF.run_ok mono_factor hv 0
  have hns : ¬ (TokenType.Slash = TokenType.Star) := by decide
  have hb : ¬ ((-1 : Int) = 0) := by decide
  refine ⟨n + 1, ?_⟩
  simp only [Parser.parseTermLoop, htok, or_true, if_true, he, hq, hns, if_false, hb, and_self,
    outcome]

theorem yields_termLoop_divzero {tok : Token} {r : List Char} {t1 : Token} {r1 : List Char}
    {v : Int} {s2 : Token × List Char}
    (htok : tok.type = .Slash) (hN : Next r t1 r1)
    (hF : Yields Parser.parseFactor (t1, r1) (.ok (0, s2))) :
    Yields (fun n p => Parser.parseTermLoop n v p) (tok, r) (.error .divisionByZero) := by
  refine ⟨by simp, fun p hp => ?_⟩
  obtain ⟨rfl, rfl⟩ := view_eq hp
  obtain ⟨k1, h1, rfl⟩ := hN
  obtain ⟨p', he, hv⟩ := eat_ok htok h1
  obtain ⟨n, q, _, hq, hqv⟩ := hF.run_ok mono_factor hv 0
  have hns : ¬ (TokenType.Slash = TokenType.Star) := by decide
  refine ⟨n + 1, ?_⟩
  simp only [Parser.parseTermLoop, htok, or_true, if_true, he, hq, hns, if_false, outcome]

theorem yields_termLoop_operand_error {tok : Token} {r : List Char} {t1 : Token} {r1 : List Char}
    {v : Int} {e : Error}
    (htok : tok.type = .Star ∨ tok.type = .Slash) (hN : Next r t1 r1)
    (hF : Yields Parser.parseFactor (t1, r1) (.error e)) :
    Yields (fun n p => Parser.parseTermLoop n v p) (tok, r) (.error e) := by
  refine ⟨hF.1, fun p hp => ?_⟩
  obtain ⟨rfl, rfl⟩ := view_eq hp
  obtain ⟨k1, h1, rfl⟩ := hN
  obtain ⟨p', he, hv⟩ := eat_ok rfl h1
  obtain ⟨n, _, hq⟩ := hF.run_error mono_factor hv 0
  refine ⟨n + 1, ?_⟩
  simp only [Parser.parseTermLoop, htok, if_true, he, hq, outcome]

theorem yields_termLoop_eat_error {tok : Token} {r : List Char} {v : Int} {e : Error}
    (htok : tok.type = .Star ∨ tok.type = .Slash) (h1 : scan r = .error e) :
    Yields (fun n p => Parser.parseTermLoop n v p) (tok, r) (.error e) := by
  refine ⟨by simpa using scan_error_ne h1, fun p hp => ?_⟩
  obtain ⟨rfl, rfl⟩ := view_eq hp
  refine ⟨1, ?_⟩
  simp only [Parser.parseTermLoop, htok, if_true, eat_scan_error rfl h1, outcome]

theorem yields_term {s s1 : Token × List Char} {a : Int}
    {o : Except Error (Int × (Token × List Char))}
    (hF : Yields Parser.parseFactor s (.ok (a, s1)))
    (hL : Yields (fun n p => Parser.parseTermLoop n a p) s1 o) :
    Yields Parser.parseTerm s o := by
  refine ⟨hL.1, fun p hp => ?_⟩
  obtain ⟨n1, q, _, hq, hqv⟩ := hF.run_ok mono_factor hp 0
  obtain ⟨n, hn, ho⟩ := hL.run (mono_termLoop _) hqv n1
  have hq' := mono_factor.keep_ok hq hn
  refine ⟨n + 1, ?_⟩
  simp only [Parser.parseTerm, hq']
  exact ho

theorem yields_term_error {s : Token × List Char} {e : Error}
    (hF : Yields Parser.parseFactor s (.error e)) :
    Yields Parser.parseTerm s (.error e) := by
  refine ⟨hF.1, fun p hp => ?_⟩
  obtain ⟨n, _, hq⟩ := hF.run_error mono_factor hp 0
  refine ⟨n + 1, ?_⟩
  simp only [Parser.parseTerm, hq, outcome]

/-! ### `parseExpr` and its loop -/

theorem yields_exprLoop_stop {tok : Token} {r : List Char} (v : Int)
    (h1 : tok.type ≠ .Plus) (h2 : tok.type ≠ .Minus) :
    Yields (fun n p => Parser.parseExprLoop n v p) (tok, r) (.ok (v, (tok, r))) := by
  refine ⟨by simp, fun p hp => ?_⟩
  refine ⟨1, ?_⟩
  obtain ⟨rfl, rfl⟩ := view_eq hp
  simp only [Parser.parseExprLoop, h1, h2, or_self, if_false, outcome, Parser.view]

theorem yields_exprLoop_plus {tok : Token} {r : List Char} {t1 : Token} {r1 : List Char}
    {v b : Int} {s2 : Token × List Char} {o : Except Error (Int × (Token × List Char))}
    (htok : tok.type = .Plus) (hN : Next r t1 r1)
    (hT : Yields Parser.parseTerm (t1, r1) (.ok (b, s2)))
    (hL : Yields (fun n p => Parser.parseExprLoop n (wrap (v + b)) p) s2 o) :
    Yields (fun n p => Parser.parseExprLoop n v p) (tok, r) o := by
  refine ⟨hL.1, fun p hp => ?_⟩
  obtain ⟨rfl, rfl⟩ := view_eq hp
  obtain ⟨k1, h1, rfl⟩ := hN
  obtain ⟨p', he, hv⟩ := eat_ok htok h1
  obtain ⟨n1, q, _, hq, hqv⟩ := hT.run_ok mono_term hv 0
  obtain ⟨n, hn, ho⟩ := hL.run (mono_exprLoop _) hqv n1
  have hq' := mono_term.keep_ok hq hn
  refine ⟨n + 1, ?_⟩
  simp only [Parser.parseExprLoop, htok, true_or, if_true, he, hq']
  exact ho

theorem yields_exprLoop_minus {tok : Token} {r : List Char} {t1 : Token} {r1 : List Char}
    {v b : Int} {s2 : Token × List Char} {o : Except Error (Int × (Token × List Char))}
    (htok : tok.type = .Minus) (hN : Next r t1 r1)
    (hT : Yields Parser.parseTerm (t1, r1) (.ok (b, s2)))
    (hL : Yields (fun n p => Parser.parseExprLoop n (wrap (v - b)) p) s2 o) :
    Yields (fun n p => Parser.parseExprLoop n v p) (tok, r) o := by
  refine ⟨hL.1, fun p hp => ?_⟩
  obtain ⟨rfl, rfl⟩ := view_eq hp
  obtain ⟨k1, h1, rfl⟩ := hN
  obtain ⟨p', he, hv⟩ := eat_ok htok h1
  obtain ⟨n1, q, _, hq, hqv⟩ := hT.run_ok mono_term hv 0
  obtain ⟨n, hn, ho⟩ := hL.run (mono_exprLoop _) hqv n1
  have hq' := mono_term.keep_ok hq hn
  have hns : ¬ (TokenType.Minus = TokenType.Plus) := by decide
  refine ⟨n + 1, ?_⟩
  simp only [Parser.parseExprLoop, htok, or_true, if_true, he, hq', hns, if_false]
  exact ho

theorem yields_exprLoop_operand_error {tok : Token} {r : List Char} {t1 : Token} {r1 : List Char}
    {v : Int} {e : Error}
    (htok : tok.type = .Plus ∨ tok.type = .Minus) (hN : Next r t1 r1)
    (hT : Yields Parser.parseTerm (t1, r1) (.error e)) :
    Yields (fun n p => Parser.parseExprLoop n v p) (tok, r) (.error e) := by
  refine ⟨hT.1, fun p hp => ?_⟩
  obtain ⟨rfl, rfl⟩ := view_eq hp
  obtain ⟨k1, h1, rfl⟩ := hN
  obtain ⟨p', he, hv⟩ := eat_ok rfl h1
  obtain ⟨n, _, hq⟩ := hT.run_error mono_term hv 0
  refine ⟨n + 1, ?_⟩
  simp only [Parser.parseExprLoop, htok, if_true, he, hq, outcome]

theorem yields_exprLoop_eat_error {tok : Token} {r : List Char} {v : Int} {e : Error}
    (htok : tok.type = .Plus ∨ tok.type = .Minus) (h1 : scan r = .error e) :
    Yields (fun n p => Parser.parseExprLoop n v p) (tok, r) (.error e) := by
  refine ⟨by simpa using scan_error_ne h1, fun p hp => ?_⟩
  obtain ⟨rfl, rfl⟩ := view_eq hp
  refine ⟨1, ?_⟩
  simp only [Parser.parseExprLoop, htok, if_true, eat_scan_error rfl h1, outcome]

theorem yields_expr {s s1 : Token × List Char} {a : Int}
    {o : Except Error (Int × (Token × List Char))}
    (hT : Yields Parser.parseTerm s (.ok (a, s1)))
    (hL : Yields (fun n p => Parser.parseExprLoop n a p) s1 o) :
    Yields Parser.parseExpr s o := by
  refine ⟨hL.1, fun p hp => ?_⟩
  obtain ⟨n1, q, _, hq, hqv⟩ := hT.run_ok mono_term hp 0
  obtain ⟨n, hn, ho⟩ := hL.run (mono_exprLoop _) hqv n1
  have hq' := mono_term.keep_ok hq hn
  refine ⟨n + 1, ?_⟩
  simp only [Parser.parseExpr, hq']
  exact ho

theorem yields_expr_error {s : Token × List Char} {e : Error}
    (hT : Yields Parser.parseTerm s (.error e)) :
    Yields Parser.parseExpr s (.error e) := by
  refine ⟨hT.1, fun p hp => ?_⟩
  obtain ⟨n, _, hq⟩ := hT.run_error mono_term hp 0
  refine ⟨n + 1, ?_⟩
  simp only [Parser.parseExpr, hq, outcome]

/-! ### `parse` -/

theorem rest_zero (s : List Char) : Lexer.rest ⟨s, 0⟩ = s := by
  simp [Lexer.rest]

theorem new_eq_scan (s : List Char) :
    Parser.new s =
      match scan s with
      | .error e => .error e
      | .ok (t, k) => .ok ⟨⟨s, 0 + k⟩, t⟩ := by
  rw [Parser.new, advance_eq_scan, rest_zero]

theorem parse_scan_error {s : List Char} {e : Error} (h : scan s = .error e) :
    parse s = .error e := by
  simp only [parse, new_eq_scan, h]

/-- The run of `parse` on a line whose first token is `t`: the fuel that
`parse` gives `parseExpr` is enough. -/
theorem parse_run {s : List Char} {t : Token} {r : List Char}
    {o : Except Error (Int × (Token × List Char))} (hN : Next s t r)
    (hY : Yields Parser.parseExpr (t, r) o) :
    ∃ p0, Parser.new s = .ok p0 ∧ p0.lexer.text = s ∧
      outcome (Parser.parseExpr (3 * p0.lexer.text.length + 3) p0) = o := by
  obtain ⟨k, h, rfl⟩ := hN
  have hnew : Parser.new s = .ok ⟨⟨s, 0 + k⟩, t⟩ := by rw [new_eq_scan, h]
  refine ⟨_, hnew, rfl, ?_⟩
  have hview : (Parser.mk ⟨s, 0 + k⟩ t).view = (t, s.drop k) := by
    simp only [Parser.view, rest_add, rest_zero]
  obtain ⟨n, hn⟩ := hY.2 _ hview
  refine mono_expr.keep_of_fine hn hY.1 ?_
  have hsize : (Parser.mk ⟨s, 0 + k⟩ t).size < s.length + 1 := by
    have := (advance_fine ⟨s, 0⟩).2 _ hnew
    rwa [rest_zero] at this
  exact ((fuel_enough _ _).2.2.2.2 (by simp only; omega)).1

/-- `parse` never runs out of fuel. -/
theorem parse_fueled (s : List Char) : parse s ≠ .error .outOfFuel := by
  simp only [parse]
  cases hnew : Parser.new s with
  | error e =>
    intro h
    simp only [Except.error.injEq] at h
    rw [h] at hnew
    exact (advance_fine ⟨s, 0⟩).1 hnew
  | ok p =>
    have hsize : p.size < s.length + 1 := by
      have := (advance_fine ⟨s, 0⟩).2 p hnew
      rwa [rest_zero] at this
    have htext : p.lexer.text = s := by
      rw [new_eq_scan] at hnew
      cases hsc : scan s with
      | error e => rw [hsc] at hnew; cases hnew
      | ok a =>
        rw [hsc] at hnew
        cases hnew
        rfl
    have hfine := ((fuel_enough (3 * p.lexer.text.length + 3) p).2.2.2.2
      (by rw [htext]; omega)).1
    simp only [Parser.parse]
    cases hrun : Parser.parseExpr (3 * p.lexer.text.length + 3) p with
    | error e =>
      intro h
      apply hfine
      rw [hrun]
      simpa using h
    | ok a =>
      simp only
      split_ifs <;> simp

theorem parse_of_yields_ok {s : List Char} {t : Token} {r : List Char} {v : Int} {T : Token}
    {r' : List Char} (hN : Next s t r)
    (hY : Yields Parser.parseExpr (t, r) (.ok (v, (T, r')))) (hT : T.type = .End) :
    parse s = .ok v := by
  obtain ⟨p0, hnew, _, ho⟩ := parse_run hN hY
  obtain ⟨q, hq, hqv⟩ := outcome_ok ho
  obtain ⟨hc, _⟩ := view_eq hqv
  have hty : q.current.type = .End := by rw [hc]; exact hT
  simp [parse, hnew, Parser.parse, hq, hty]

theorem parse_of_yields_trailing {s : List Char} {t : Token} {r : List Char} {v : Int} {T : Token}
    {r' : List Char} (hN : Next s t r)
    (hY : Yields Parser.parseExpr (t, r) (.ok (v, (T, r')))) (hT : T.type ≠ .End) :
    parse s = .error .unknownSymbol := by
  obtain ⟨p0, hnew, _, ho⟩ := parse_run hN hY
  obtain ⟨q, hq, hqv⟩ := outcome_ok ho
  obtain ⟨hc, _⟩ := view_eq hqv
  have hty : q.current.type ≠ .End := by rw [hc]; exact hT
  simp [parse, hnew, Parser.parse, hq, hty]

theorem parse_of_yields_error {s : List Char} {t : Token} {r : List Char} {e : Error}
    (hN : Next s t r)
    (hY : Yields Parser.parseExpr (t, r) (.error e)) :
    parse s = .error e := by
  obtain ⟨p0, hnew, _, ho⟩ := parse_run hN hY
  simp [parse, hnew, Parser.parse, outcome_error ho]

theorem ext_view {post : List Char} {T : Token} {k : Nat} {p1 p2 p : Parser}
    (h : Ext post T k p1 p2) (hp : p.view = p2.view) : Ext post T k p1 p := by
  obtain ⟨hc, hr⟩ := view_eq hp
  rcases h with ⟨h1, h2, h3⟩ | ⟨h1, h2, h3⟩
  · exact Or.inl ⟨h1, by rw [hc, h2], by rw [hr, h3]⟩
  · exact Or.inr ⟨h1, by rw [hc, h2], by rw [hr, h3]⟩

/-- A line that `parse` evaluates to `v`, followed by a text `post` whose first
token `T` is no binary operator and that does not start with a digit:
`parseExpr` returns `v` and stops with `T` as lookahead. -/
theorem parse_ok_ext {s : List Char} {v : Int} (h : parse s = .ok v)
    {post : List Char} {T : Token} {post' : List Char}
    (hN : Next post T post') (hnd : ∀ c ∈ post.head?, isdigit c = false)
    (hstop : T.type ≠ .Plus ∧ T.type ≠ .Minus ∧ T.type ≠ .Star ∧ T.type ≠ .Slash) :
    ∃ t1 r1, Next (s ++ post) t1 r1 ∧
      Yields Parser.parseExpr (t1, r1) (.ok (v, (T, post'))) := by
  obtain ⟨k, hpost, rfl⟩ := hN
  simp only [parse] at h
  cases hnew : Parser.new s with
  | error e => rw [hnew] at h; cases h
  | ok p1 =>
    rw [hnew] at h
    simp only [Parser.parse] at h
    cases hrun : Parser.parseExpr (3 * p1.lexer.text.length + 3) p1 with
    | error e => rw [hrun] at h; cases h
    | ok a =>
      obtain ⟨v', q1⟩ := a
      rw [hrun] at h
      simp only at h
      by_cases hend : q1.current.type = .End
      · simp only [hend, ne_eq, not_true_eq_false, if_false, Except.ok.injEq] at h
        subst h
        have hadv := advance_ext (T.type = .End) hpost hnd ⟨s, 0⟩ ⟨s ++ post, 0⟩
          (by rw [rest_zero, rest_zero])
        rw [show Parser.advance ⟨s, 0⟩ = Parser.new s from rfl, hnew] at hadv
        obtain ⟨p2, hp2, hext⟩ := hadv
        rw [advance_eq_scan, rest_zero] at hp2
        cases hsc : scan (s ++ post) with
        | error e => rw [hsc] at hp2; cases hp2
        | ok b =>
          obtain ⟨t1, k1⟩ := b
          rw [hsc] at hp2
          simp only [Except.ok.injEq] at hp2
          refine ⟨t1, _, ⟨k1, hsc, rfl⟩, by simp, fun p hp => ?_⟩
          have hp' : p.view = p2.view := by
            rw [hp, ← hp2]
            simp only [Parser.view, rest_add, rest_zero]
          have hsim := (simulation (simulation_ext hpost hnd hstop)
            (3 * p1.lexer.text.length + 3) (3 * p1.lexer.text.length + 3) (Nat.le_refl _)
            p1 p (ext_view hext hp')).2.2.2.2
          rw [hrun] at hsim
          obtain ⟨q, hq, hQ⟩ := hsim
          refine ⟨3 * p1.lexer.text.length + 3, ?_⟩
          rw [hq]
          rcases hQ with ⟨h1, _, _⟩ | ⟨_, h2, h3⟩
          · exact absurd hend h1
          · simp only [outcome, Parser.view, h2, h3]
      · simp [hend] at h

/-- A line on which `parse` raises a division by zero, is killed or meets an
unknown character does the same when a text follows it. -/
theorem parse_error_ext {s : List Char} {e : Error} (h : parse s = .error e)
    (he : (e = .divisionByZero ∨ e = .killed) ∨ ∃ c, e = .unknownChar c)
    {post : List Char} {T : Token} {post' : List Char}
    (hN : Next post T post') (hnd : ∀ c ∈ post.head?, isdigit c = false)
    (hstop : T.type ≠ .Plus ∧ T.type ≠ .Minus ∧ T.type ≠ .Star ∧ T.type ≠ .Slash) :
    scan (s ++ post) = .error e ∨
    ∃ t1 r1, Next (s ++ post) t1 r1 ∧ Yields Parser.parseExpr (t1, r1) (.error e) := by
  obtain ⟨k, hpost, rfl⟩ := hN
  have hne : e ≠ .outOfFuel := by
    rcases he with (he | he) | ⟨c, he⟩ <;> rw [he] <;> simp
  have hkept : Error.kept (T.type = .End) e := ⟨hne, Or.inr he⟩
  have hadv := advance_ext (T.type = .End) hpost hnd ⟨s, 0⟩ ⟨s ++ post, 0⟩
    (by rw [rest_zero, rest_zero])
  rw [show Parser.advance ⟨s, 0⟩ = Parser.new s from rfl] at hadv
  simp only [parse] at h
  cases hnew : Parser.new s with
  | error e' =>
    rw [hnew] at h hadv
    simp only [Except.error.injEq] at h
    subst h
    have h2 := hadv hkept
    rw [advance_eq_scan, rest_zero] at h2
    left
    cases hsc : scan (s ++ post) with
    | error e2 =>
      rw [hsc] at h2
      simp only [Except.error.injEq] at h2
      rw [h2]
    | ok b => rw [hsc] at h2; cases h2
  | ok p1 =>
    rw [hnew] at h hadv
    obtain ⟨p2, hp2, hext⟩ := hadv
    rw [advance_eq_scan, rest_zero] at hp2
    right
    cases hsc : scan (s ++ post) with
    | error e2 => rw [hsc] at hp2; cases hp2
    | ok b =>
      obtain ⟨t1, k1⟩ := b
      rw [hsc] at hp2
      simp only [Except.ok.injEq] at hp2
      refine ⟨t1, _, ⟨k1, hsc, rfl⟩, by simpa using hne, fun p hp => ?_⟩
      have hp' : p.view = p2.view := by
        rw [hp, ← hp2]
        simp only [Parser.view, rest_add, rest_zero]
      have hsim := (simulation (simulation_ext hpost hnd hstop)
        (3 * p1.lexer.text.length + 3) (3 * p1.lexer.text.length + 3) (Nat.le_refl _)
        p1 p (ext_view hext hp')).2.2.2.2
      simp only [Parser.parse] at h
      cases hrun : Parser.parseExpr (3 * p1.lexer.text.length + 3) p1 with
      | error e' =>
        rw [hrun] at h hsim
        simp only [Except.error.injEq] at h
        subst h
        exact ⟨_, by rw [hsim hkept]; rfl⟩
      | ok a =>
        rw [hrun] at h
        simp only at h
        split_ifs at h
        · simp only [Except.error.injEq] at h
          subst h
          rcases he with (he | he) | ⟨c, he⟩ <;> cases he

/-! ## Decimal literals -/

theorem digitChar_digit (d : Nat) (h : d < 10) :
    isdigit (Nat.digitChar d) = true ∧ isspace (Nat.digitChar d) = false ∧
      ((Nat.digitChar d).toNat : Int) - 48 = d := by
  interval_cases d <;> decide

theorem wrap_step (x d : Int) : wrap (wrap (wrap x * 10) + d) = wrap (x * 10 + d) := by
  unfold wrap
  omega

theorem wrap_step0 (x d : Int) : wrap (wrap (x * 10) + d) = wrap (x * 10 + d) := by
  unfold wrap
  omega

theorem readDigitsLoop_nodigit (post : List Char) (hnd : ∀ c ∈ post.head?, isdigit c = false)
    (pos : Nat) (v : Int) : readDigitsLoop post pos v = (pos, v) := by
  cases post with
  | nil => rfl
  | cons c r =>
    have hc : isdigit c = false := hnd c (by simp)
    simp [readDigitsLoop, hc]

theorem readDigitsLoop_digits (D post : List Char) (hD : ∀ c ∈ D, isdigit c = true)
    (hnd : ∀ c ∈ post.head?, isdigit c = false) (pos : Nat) (v : Int) :
    readDigitsLoop (D ++ post) pos v = (pos + D.length, D.foldl stepDigit v) := by
  induction D generalizing pos v with
  | nil => simpa using readDigitsLoop_nodigit post hnd pos v
  | cons c r ih =>
    have hc : isdigit c = true := hD c (by simp)
    rw [List.cons_append]
    simp only [readDigitsLoop, hc, if_true, List.foldl_cons, List.length_cons]
    rw [ih (fun c hc => hD c (by simp [hc]))]
    simp only [stepDigit, Prod.mk.injEq, and_true]
    omega

/-- The digits that `Nat.toDigits 10` writes: decimal digits, at least one, and
the digit loop reads the number back from them (up to `wrap`). -/
theorem toDigitsCore_spec :
    ∀ fuel n, n < fuel → ∃ D : List Char,
      (∀ ds, Nat.toDigitsCore 10 fuel n ds = D ++ ds) ∧ D ≠ [] ∧
      (∀ c ∈ D, isdigit c = true ∧ isspace c = false) ∧
      ∀ v : Int, D.foldl stepDigit v = wrap (v * 10 ^ D.length + n) := by
  intro fuel
  induction fuel with
  | zero => intro n h; omega
  | succ fuel ih =>
    intro n hn
    have hd := digitChar_digit (n % 10) (Nat.mod_lt n (by decide))
    by_cases h0 : n / 10 = 0
    · refine ⟨[Nat.digitChar (n % 10)], ?_, by simp, ?_, ?_⟩
      · intro ds
        simp [Nat.toDigitsCore, h0]
      · intro c hc
        simp only [List.mem_singleton] at hc
        rw [hc]
        exact ⟨hd.1, hd.2.1⟩
      · intro v
        have hn' : n % 10 = n := by omega
        rw [hn'] at hd
        simp only [List.foldl_cons, List.foldl_nil, stepDigit, hd.2.2, List.length_singleton,
          pow_one, hn']
        exact wrap_step0 v n
    · obtain ⟨D, hD1, _, hD3, hD4⟩ := ih (n / 10) (by omega)
      refine ⟨D ++ [Nat.digitChar (n % 10)], ?_, by simp, ?_, ?_⟩
      · intro ds
        simp [Nat.toDigitsCore, h0, hD1]
      · intro c hc
        simp only [List.mem_append, List.mem_singleton] at hc
        rcases hc with hc | hc
        · exact hD3 c hc
        · rw [hc]
          exact ⟨hd.1, hd.2.1⟩
      · intro v
        simp only [List.foldl_append, List.foldl_cons, List.foldl_nil, hD4, stepDigit, hd.2.2,
          List.length_append, List.length_singleton]
        rw [wrap_step]
        congr 1
        have hsplit : (n : Int) = ((n / 10 : Nat) : Int) * 10 + ((n % 10 : Nat) : Int) := by
          have := Nat.div_add_mod n 10
          omega
        rw [pow_succ]
        linarith

/-- What the digit loop makes of the base-10 text of `n`. -/
theorem decimal_spec (n : Nat) :
    decimal n ≠ [] ∧ (∀ c ∈ decimal n, isdigit c = true ∧ isspace c = false) ∧
      (decimal n).foldl stepDigit 0 = wrap n := by
  obtain ⟨D, hD1, hD2, hD3, hD4⟩ := toDigitsCore_spec (n + 1) n (by omega)
  have hdec : decimal n = D := by
    have := hD1 []
    simpa [decimal, Nat.repr, Nat.toDigits] using this
  rw [hdec]
  refine ⟨hD2, hD3, ?_⟩
  rw [hD4]
  simp

/-- The first token of a text that starts with the base-10 text of `n` and
goes on with no digit is `Number`, with the value of `n` reduced to `int`. -/
theorem scan_decimal (n : Nat) (post : List Char)
    (hnd : ∀ c ∈ post.head?, isdigit c = false) :
    scan (decimal n ++ post) = .ok (⟨.Number, wrap n⟩, (decimal n).length) := by
  obtain ⟨hne, hdig, hval⟩ := decimal_spec n
  have hread := readDigitsLoop_digits (decimal n) post (fun c hc => (hdig c hc).1) hnd 0 0
  cases hD : decimal n with
  | nil => exact absurd hD hne
  | cons c r =>
    rw [hD] at hread hval hdig
    have hc := hdig c (by simp)
    rw [List.cons_append] at hread ⊢
    simp only [scan, hc.1, hc.2, if_true, Bool.false_eq_true, if_false, hread, hval]
    simp

theorem wrap_of_inInt {x : Int} (h : inInt x = true) : wrap x = x := by
  simp only [inInt, INT_MIN, INT_MAX, Bool.and_eq_true, decide_eq_true_eq] at h
  unfold wrap
  omega

theorem wrap_nat {n : Nat} (h : (n : Int) ≤ INT_MAX) : wrap n = n := by
  simp only [INT_MAX] at h
  unfold wrap
  omega

/-- A literal is not `-1`: no division by a literal is that of `INT_MIN` by
`-1`. -/
theorem not_killed_nat (v : Int) {n : Nat} (h : (n : Int) ≤ INT_MAX) :
    ¬ (v = -2147483648 ∧ wrap (n : Int) = -1) := by
  rw [wrap_nat h]
  omega

theorem wrap_eq {x : Int} (h1 : INT_MIN ≤ x) (h2 : x ≤ INT_MAX) : wrap x = x := by
  simp only [INT_MIN, INT_MAX] at h1 h2
  unfold wrap
  omega

/-! ### First tokens of texts -/

theorem nodigit_nil : ∀ c ∈ ([] : List Char).head?, isdigit c = false := by
  intro c hc
  simp at hc

theorem nodigit_cons {c : Char} (r : List Char) (h : isdigit c = false) :
    ∀ x ∈ (c :: r).head?, isdigit x = false := by
  intro x hx
  simp only [List.head?_cons, Option.mem_def, Option.some.injEq] at hx
  rw [← hx]
  exact h

theorem next_nil : Next [] ⟨.End, 0⟩ [] := ⟨0, rfl, rfl⟩

theorem next_plus (r : List Char) : Next ('+' :: r) ⟨.Plus, 0⟩ r := ⟨1, rfl, rfl⟩

theorem next_minus (r : List Char) : Next ('-' :: r) ⟨.Minus, 0⟩ r := ⟨1, rfl, rfl⟩

theorem next_star (r : List Char) : Next ('*' :: r) ⟨.Star, 0⟩ r := ⟨1, rfl, rfl⟩

theorem next_slash (r : List Char) : Next ('/' :: r) ⟨.Slash, 0⟩ r := ⟨1, rfl, rfl⟩

theorem next_lparen (r : List Char) : Next ('(' :: r) ⟨.LParen, 0⟩ r := ⟨1, rfl, rfl⟩

theorem next_rparen (r : List Char) : Next (')' :: r) ⟨.RParen, 0⟩ r := ⟨1, rfl, rfl⟩

theorem next_space {c : Char} (hc : isspace c = true) {r : List Char} {t : Token}
    {r' : List Char} (h : Next r t r') : Next (c :: r) t r' := by
  obtain ⟨k, hs, hr⟩ := h
  refine ⟨k + 1, ?_, by simpa using hr⟩
  simp only [scan, hc, if_true, hs]

theorem next_decimal (n : Nat) (post : List Char)
    (hnd : ∀ c ∈ post.head?, isdigit c = false) :
    Next (decimal n ++ post) ⟨.Number, wrap n⟩ post :=
  ⟨(decimal n).length, scan_decimal n post hnd, List.drop_left _ _⟩

theorem next_decimal_end (n : Nat) : Next (decimal n) ⟨.Number, wrap n⟩ [] := by
  have := next_decimal n [] nodigit_nil
  rwa [List.append_nil] at this

/-! ### Operands that end a term or an expression -/

theorem yields_term_stop {s : Token × List Char} {a : Int} {t : Token} {r : List Char}
    (hF : Yields Parser.parseFactor s (.ok (a, (t, r))))
    (h1 : t.type ≠ .Star) (h2 : t.type ≠ .Slash) :
    Yields Parser.parseTerm s (.ok (a, (t, r))) :=
  yields_term hF (yields_termLoop_stop a h1 h2)

theorem yields_expr_stop {s : Token × List Char} {a : Int} {t : Token} {r : List Char}
    (hT : Yields Parser.parseTerm s (.ok (a, (t, r))))
    (h1 : t.type ≠ .Plus) (h2 : t.type ≠ .Minus) :
    Yields Parser.parseExpr s (.ok (a, (t, r))) :=
  yields_expr hT (yields_exprLoop_stop a h1 h2)

/-- A literal as operand: `parseFactor` returns its value and fetches the next
token. -/
theorem yields_factor_lit (n : Int) {r : List Char} {t : Token} {r' : List Char}
    (hN : Next r t r') :
    Yields Parser.parseFactor (⟨.Number, n⟩, r) (.ok (n, (t, r'))) :=
  @yields_factor_num ⟨.Number, n⟩ r t r' rfl hN

theorem natCast_nonneg_int (n : Nat) : INT_MIN ≤ (n : Int) := by
  simp only [INT_MIN]
  omega

theorem tdiv_natCast (a b : Nat) : Int.tdiv (a : Int) (b : Int) = ((a / b : Nat) : Int) := by
  rw [Int.tdiv_eq_ediv (Int.natCast_nonneg a) (Int.natCast_nonneg b)]
  exact (Int.natCast_div a b).symm

theorem natCast_div_le (a b : Nat) (ha : (a : Int) ≤ INT_MAX) : ((a / b : Nat) : Int) ≤ INT_MAX := by
  have h : a / b ≤ a := Nat.div_le_self a b
  have h' : ((a / b : Nat) : Int) ≤ (a : Int) := by exact_mod_cast h
  exact le_trans h' ha

/-! ## Values stay within `int` -/

theorem inInt_wrap (x : Int) : inInt (wrap x) = true := by
  simp only [inInt, INT_MIN, INT_MAX, Bool.and_eq_true, decide_eq_true_eq]
  unfold wrap
  omega

theorem readDigitsLoop_value (l : List Char) (pos : Nat) (v : Int) (hv : inInt v = true) :
    inInt (readDigitsLoop l pos v).2 = true := by
  induction l generalizing pos v with
  | nil => simpa [readDigitsLoop] using hv
  | cons c r ih =>
    by_cases hc : isdigit c = true
    · simp only [readDigitsLoop, hc, if_true]
      exact ih _ _ (inInt_wrap _)
    · simpa [readDigitsLoop, hc] using hv

theorem scan_value (r : List Char) : ∀ t k, scan r = .ok (t, k) → inInt t.value = true := by
  induction r with
  | nil =>
    intro t k h
    cases h
    decide
  | cons c r ih =>
    intro t k h
    by_cases hs : isspace c = true
    · simp only [scan, hs, if_true] at h
      cases hsr : scan r with
      | error e => rw [hsr] at h; cases h
      | ok a =>
        obtain ⟨t', k'⟩ := a
        rw [hsr] at h
        cases h
        exact ih t k' hsr
    · have hs' : isspace c = false := by simpa using hs
      by_cases hd : isdigit c = true
      · simp only [scan, hs', hd, if_true, Bool.false_eq_true, if_false] at h
        cases h
        exact readDigitsLoop_value _ _ _ (by decide)
      · have hd' : isdigit c = false := by simpa using hd
        simp only [scan, hs', hd', Bool.false_eq_true, if_false] at h
        split_ifs at h <;> cases h <;> decide

theorem advance_ranged (lx : Lexer) : RangedP (Parser.advance lx) := by
  intro q h
  rw [advance_eq_scan] at h
  cases hsr : scan lx.rest with
  | error e => rw [hsr] at h; cases h
  | ok a =>
    obtain ⟨t, k⟩ := a
    rw [hsr] at h
    cases h
    exact scan_value _ t k hsr

theorem eat_ranged (p : Parser) (t : TokenType) : RangedP (p.eat t) := by
  intro q h
  simp only [Parser.eat] at h
  split_ifs at h
  exact advance_ranged _ q h

theorem rangedP_bind {r : Except Error Parser} {f : Parser → Except Error (Int × Parser)} :
    RangedP r → (∀ q, inInt q.current.value = true → Ranged (f q)) →
    Ranged
      (match r with
        | .error e => .error e
        | .ok q => f q) := by
  intro h hf
  cases r with
  | error e => exact fun v q hq => by cases hq
  | ok q => exact hf q (h q rfl)

theorem ranged_bind {r : Except Error (Int × Parser)}
    {f : Int → Parser → Except Error (Int × Parser)} :
    Ranged r → (∀ v q, inInt v = true → inInt q.current.value = true → Ranged (f v q)) →
    Ranged
      (match r with
        | .error e => .error e
        | .ok (v, q) => f v q) := by
  intro h hf
  cases r with
  | error e => exact fun v q hq => by cases hq
  | ok a =>
    obtain ⟨v, q⟩ := a
    exact hf v q (h v q rfl).1 (h v q rfl).2

theorem ranged_ok {v : Int} {q : Parser} (hv : inInt v = true)
    (hq : inInt q.current.value = true) : Ranged (.ok (v, q)) := by
  intro v' q' h
  cases h
  exact ⟨hv, hq⟩

theorem ranged_error (e : Error) : Ranged (.error e) := fun v q h => by cases h

theorem ranged_factor {n : Nat} (ih : RangedAt n) (p : Parser)
    (hp : inInt p.current.value = true) : Ranged (Parser.parseFactor (n + 1) p) := by
  simp only [Parser.parseFactor]
  cases hty : p.current.type with
  | Number => exact rangedP_bind (eat_ranged p _) (fun q hq => ranged_ok hp hq)
  | LParen =>
    refine rangedP_bind (eat_ranged p _) (fun p' hp' => ?_)
    refine ranged_bind (ih p' hp').2.2.2.2 (fun v q hv hq => ?_)
    exact rangedP_bind (eat_ranged q _) (fun q' hq' => ranged_ok hv hq')
  | Minus =>
    refine rangedP_bind (eat_ranged p _) (fun p' hp' => ?_)
    exact ranged_bind (ih p' hp').1 (fun v q hv hq => ranged_ok (inInt_wrap _) hq)
  | End => exact ranged_error _
  | Plus => exact ranged_error _
  | Star => exact ranged_error _
  | Slash => exact ranged_error _
  | RParen => exact ranged_error _

theorem ranged_termLoop {n : Nat} (ih : RangedAt n) (p : Parser)
    (hp : inInt p.current.value = true) (v : Int) (hv : inInt v = true) :
    Ranged (Parser.parseTermLoop (n + 1) v p) := by
  by_cases hop : p.current.type = .Star ∨ p.current.type = .Slash
  · simp only [Parser.parseTermLoop, hop, if_true]
    refine rangedP_bind (eat_ranged p _) (fun p' hp' => ?_)
    refine ranged_bind (ih p' hp').1 (fun right q hr hq => ?_)
    split_ifs
    · exact (ih q hq).2.1 _ (inInt_wrap _)
    · exact ranged_error _
    · exact ranged_error _
    · exact (ih q hq).2.1 _ (inInt_wrap _)
  · simp only [Parser.parseTermLoop, hop, if_false]
    exact ranged_ok hv hp

theorem ranged_exprLoop {n : Nat} (ih : RangedAt n) (p : Parser)
    (hp : inInt p.current.value = true) (v : Int) (hv : inInt v = true) :
    Ranged (Parser.parseExprLoop (n + 1) v p) := by
  by_cases hop : p.current.type = .Plus ∨ p.current.type = .Minus
  · simp only [Parser.parseExprLoop, hop, if_true]
    refine rangedP_bind (eat_ranged p _) (fun p' hp' => ?_)
    refine ranged_bind (ih p' hp').2.2.1 (fun right q hr hq => ?_)
    split_ifs
    · exact (ih q hq).2.2.2.1 _ (inInt_wrap _)
    · exact (ih q hq).2.2.2.1 _ (inInt_wrap _)
  · simp only [Parser.parseExprLoop, hop, if_false]
    exact ranged_ok hv hp

theorem ranged_all : ∀ n, RangedAt n := by
  intro n
  induction n with
  | zero =>
    intro p _
    simp only [Parser.parseFactor, Parser.parseTermLoop, Parser.parseTerm,
      Parser.parseExprLoop, Parser.parseExpr]
    exact ⟨ranged_error _, fun _ _ => ranged_error _, ranged_error _,
      fun _ _ => ranged_error _, ranged_error _⟩
  | succ n ih =>
    intro p hp
    refine ⟨ranged_factor ih p hp, fun v hv => ranged_termLoop ih p hp v hv, ?_,
      fun v hv => ranged_exprLoop ih p hp v hv, ?_⟩
    · simp only [Parser.parseTerm]
      exact ranged_bind (ih p hp).1 (fun v q hv hq => (ih q hq).2.1 v hv)
    · simp only [Parser.parseExpr]
      exact ranged_bind (ih p hp).2.2.1 (fun v q hv hq => (ih q hq).2.2.2.1 v hv)

/-- Every value that `parse` returns is within `int`. -/
theorem parse_inInt {s : List Char} {v : Int} (h : parse s = .ok v) : inInt v = true := by
  simp only [parse] at h
  cases hnew : Parser.new s with
  | error e => rw [hnew] at h; cases h
  | ok p =>
    rw [hnew] at h
    simp only [Parser.parse] at h
    cases hrun : Parser.parseExpr (3 * p.lexer.text.length + 3) p with
    | error e => rw [hrun] at h; cases h
    | ok a =>
      obtain ⟨v', q⟩ := a
      rw [hrun] at h
      simp only at h
      split_ifs at h
      cases h
      exact ((ranged_all _ p (advance_ranged _ p hnew)).2.2.2.2 v q hrun).1

/-! ### Parenthesised lines as operands -/

theorem stop_rparen :
    (⟨.RParen, 0⟩ : Token).type ≠ .Plus ∧ (⟨.RParen, 0⟩ : Token).type ≠ .Minus ∧
    (⟨.RParen, 0⟩ : Token).type ≠ .Star ∧ (⟨.RParen, 0⟩ : Token).type ≠ .Slash := by
  decide

theorem stop_end :
    (⟨.End, 0⟩ : Token).type ≠ .Plus ∧ (⟨.End, 0⟩ : Token).type ≠ .Minus ∧
    (⟨.End, 0⟩ : Token).type ≠ .Star ∧ (⟨.End, 0⟩ : Token).type ≠ .Slash := by
  decide

/-- A line that `parse` evaluates to `v`, in parentheses, as an operand:
`parseFactor` returns `v` and fetches the token after the `)`. -/
theorem yields_paren_of_parse {s : List Char} {v : Int} (h : parse s = .ok v)
    {post : List Char} {T : Token} {post' : List Char} (hN : Next post T post') :
    Yields Parser.parseFactor (⟨.LParen, 0⟩, s ++ ')' :: post) (.ok (v, (T, post'))) := by
  obtain ⟨t1, r1, hN1, hY⟩ :=
    parse_ok_ext h (next_rparen post) (nodigit_cons _ (by decide)) stop_rparen
  exact yields_factor_paren rfl hN1 hY rfl hN

/-- A line on which `parse` divides by zero, is killed or meets an unknown
character, in parentheses, as an operand: `parseFactor` ends in the same way. -/
theorem yields_paren_of_parse_error {s : List Char} {e : Error} (h : parse s = .error e)
    (he : (e = .divisionByZero ∨ e = .killed) ∨ ∃ c, e = .unknownChar c) (post : List Char) :
    Yields Parser.parseFactor (⟨.LParen, 0⟩, s ++ ')' :: post) (.error e) := by
  rcases parse_error_ext h he (next_rparen post) (nodigit_cons _ (by decide)) stop_rparen with
    hsc | ⟨t1, r1, hN1, hY⟩
  · exact yields_factor_eat_error (Or.inr (Or.inl rfl)) hsc
  · exact yields_factor_paren_error rfl hN1 hY

theorem stop_number (n : Int) :
    (⟨.Number, n⟩ : Token).type ≠ .Plus ∧ (⟨.Number, n⟩ : Token).type ≠ .Minus ∧
    (⟨.Number, n⟩ : Token).type ≠ .Star ∧ (⟨.Number, n⟩ : Token).type ≠ .Slash := by
  simp

theorem scan_unknown (ws : List Char) (c : Char) (r : List Char)
    (hws : ∀ w ∈ ws, isspace w = true) (hs : isspace c = false) (hd : isdigit c = false)
    (hop : c ∉ ['+', '-', '*', '/', '(', ')']) :
    scan (ws ++ c :: r) = .error (.unknownChar c) := by
  induction ws with
  | nil =>
    simp only [List.mem_cons, List.mem_singleton, List.not_mem_nil, or_false, not_or] at hop
    obtain ⟨h1, h2, h3, h4, h5, h6⟩ := hop
    simp only [List.nil_append, scan, hs, hd, Bool.false_eq_true, if_false, h1, h2, h3, h4, h5,
      h6]
  | cons w ws ih =>
    have hw : isspace w = true := hws w (by simp)
    rw [List.cons_append]
    simp only [scan, hw, if_true, ih (fun x hx => hws x (by simp [hx]))]

theorem cString_append (a b : List Char) (h : ∀ x ∈ a, x.toNat ≠ 0) :
    cString (a ++ b) = a ++ cString b := by
  induction a with
  | nil => rfl
  | cons x a ih =>
    have hx : x.toNat ≠ 0 := h x (by simp)
    rw [List.cons_append]
    simp only [cString, hx, if_false]
    rw [ih (fun y hy => h y (by simp [hy])), List.cons_append]

/-- The message of the lexer as `what()` returns it: with the character, unless
the character is NUL, where the C string ends. -/
theorem what_unknownChar (c : Char) :
    (Error.what (.unknownChar c)).toList =
      if c.toNat = 0 then unknownCharPrefix else unknownCharPrefix ++ [c] ++ "'".toList := by
  have hp : ∀ x ∈ unknownCharPrefix, x.toNat ≠ 0 := by decide
  show cString (unknownCharPrefix ++ [c] ++ "'".toList) = _
  rw [List.append_assoc, cString_append _ _ hp]
  by_cases hc : c.toNat = 0
  · simp only [List.singleton_append, cString, hc, if_true, List.append_nil]
  · simp only [hc, if_false, List.append_assoc]
    congr 1
    simp only [List.singleton_append, cString, hc, if_false]
    rfl

/-! ## Expression trees and their texts -/

theorem render_neg (e : Expr) : render (.neg e) = '-' :: '(' :: (render e ++ [')']) := by
  show ['-', '('] ++ render e ++ [')'] = _
  simp

theorem render_bin (op : BinOp) (l r : Expr) :
    render (.bin op l r) = '(' :: (render l ++ ')' :: op.char :: '(' :: (render r ++ [')'])) := by
  show ['('] ++ render l ++ [')'] ++ [op.char] ++ ['('] ++ render r ++ [')'] = _
  simp

theorem evalInt_error (e : Expr) {x : Error} (h : evalInt e = .error x) : evalError x := by
  induction e generalizing x with
  | lit n => cases h
  | neg e ih =>
    simp only [evalInt] at h
    cases he : evalInt e with
    | error y =>
      rw [he] at h
      cases h
      exact ih he
    | ok v => rw [he] at h; cases h
  | bin op l r ihl ihr =>
    simp only [evalInt] at h
    cases hl : evalInt l with
    | error y =>
      rw [hl] at h
      cases h
      exact ihl hl
    | ok a =>
      rw [hl] at h
      cases hr : evalInt r with
      | error y =>
        rw [hr] at h
        cases h
        exact ihr hr
      | ok b =>
        rw [hr] at h
        cases op with
        | add => cases h
        | sub => cases h
        | mul => cases h
        | div =>
          simp only at h
          split_ifs at h
          · cases h; exact Or.inl rfl
          · cases h; exact Or.inr rfl

theorem parse_render_neg {s : List Char} {o : Except Error Int} :
    (∀ x, o = .error x → evalError x) →
    parse s = o →
    parse ('-' :: '(' :: (s ++ [')'])) =
      (match o with
        | .error x => .error x
        | .ok v => .ok (wrap (-v))) := by
  intro ho ih
  cases o with
  | error x =>
    have hF : Yields Parser.parseFactor (⟨.Minus, 0⟩, '(' :: (s ++ [')'])) _ :=
      yields_factor_neg_error rfl (next_lparen _)
        (yields_paren_of_parse_error ih (Or.inl (ho x rfl)) [])
    exact parse_of_yields_error (next_minus _) (yields_expr_error (yields_term_error hF))
  | ok v =>
    have hF : Yields Parser.parseFactor (⟨.Minus, 0⟩, '(' :: (s ++ [')'])) _ :=
      yields_factor_neg rfl (next_lparen _) (yields_paren_of_parse ih next_nil)
    exact parse_of_yields_ok (next_minus _)
      (yields_expr_stop (yields_term_stop hF (by decide) (by decide)) (by decide) (by decide))
      rfl

theorem parse_render_left_error {s1 : List Char} {x : Error} (h1 : parse s1 = .error x)
    (hx : evalError x) (post : List Char) :
    parse ('(' :: (s1 ++ ')' :: post)) = .error x :=
  parse_of_yields_error (next_lparen _)
    (yields_expr_error (yields_term_error (yields_paren_of_parse_error h1 (Or.inl hx) post)))

theorem parse_render_right_error {s1 s2 : List Char} {a : Int} {x : Error} (op : BinOp)
    (h1 : parse s1 = .ok a) (h2 : parse s2 = .error x) (hx : evalError x) :
    parse ('(' :: (s1 ++ ')' :: op.char :: '(' :: (s2 ++ [')']))) = .error x := by
  have hF2 := yields_paren_of_parse_error h2 (Or.inl hx) []
  cases op with
  | add =>
    have hT1 := yields_term_stop (yields_paren_of_parse h1 (next_plus ('(' :: (s2 ++ [')']))))
      (by decide) (by decide)
    have hL : Yields (fun n p => Parser.parseExprLoop n a p) (⟨.Plus, 0⟩, _) _ :=
      yields_exprLoop_operand_error (Or.inl rfl) (next_lparen _) (yields_term_error hF2)
    exact parse_of_yields_error (next_lparen _) (yields_expr hT1 hL)
  | sub =>
    have hT1 := yields_term_stop (yields_paren_of_parse h1 (next_minus ('(' :: (s2 ++ [')']))))
      (by decide) (by decide)
    have hL : Yields (fun n p => Parser.parseExprLoop n a p) (⟨.Minus, 0⟩, _) _ :=
      yields_exprLoop_operand_error (Or.inr rfl) (next_lparen _) (yields_term_error hF2)
    exact parse_of_yields_error (next_lparen _) (yields_expr hT1 hL)
  | mul =>
    have hF1 := yields_paren_of_parse h1 (next_star ('(' :: (s2 ++ [')'])))
    have hL : Yields (fun n p => Parser.parseTermLoop n a p) (⟨.Star, 0⟩, _) _ :=
      yields_termLoop_operand_error (Or.inl rfl) (next_lparen _) hF2
    exact parse_of_yields_error (next_lparen _) (yields_expr_error (yields_term hF1 hL))
  | div =>
    have hF1 := yields_paren_of_parse h1 (next_slash ('(' :: (s2 ++ [')'])))
    have hL : Yields (fun n p => Parser.parseTermLoop n a p) (⟨.Slash, 0⟩, _) _ :=
      yields_termLoop_operand_error (Or.inr rfl) (next_lparen _) hF2
    exact parse_of_yields_error (next_lparen _) (yields_expr_error (yields_term hF1 hL))

theorem parse_render_values {s1 s2 : List Char} {a b : Int} (op : BinOp)
    (h1 : parse s1 = .ok a) (h2 : parse s2 = .ok b) :
    parse ('(' :: (s1 ++ ')' :: op.char :: '(' :: (s2 ++ [')']))) =
      (match op with
        | .add => .ok (wrap (a + b))
        | .sub => .ok (wrap (a - b))
        | .mul => .ok (wrap (a * b))
        | .div =>
          if b = 0 then .error .divisionByZero
          else if a = -2147483648 ∧ b = -1 then .error .killed
          else .ok (wrap (Int.tdiv a b))) := by
  have hF2 := yields_paren_of_parse h2 next_nil
  have hT2 := yields_term_stop hF2 (by decide) (by decide)
  cases op with
  | add =>
    have hT1 := yields_term_stop (yields_paren_of_parse h1 (next_plus ('(' :: (s2 ++ [')']))))
      (by decide) (by decide)
    have hL : Yields (fun n p => Parser.parseExprLoop n a p) (⟨.Plus, 0⟩, _) _ :=
      yields_exprLoop_plus rfl (next_lparen _) hT2
        (yields_exprLoop_stop _ (by decide) (by decide))
    exact parse_of_yields_ok (next_lparen _) (yields_expr hT1 hL) rfl
  | sub =>
    have hT1 := yields_term_stop (yields_paren_of_parse h1 (next_minus ('(' :: (s2 ++ [')']))))
      (by decide) (by decide)
    have hL : Yields (fun n p => Parser.parseExprLoop n a p) (⟨.Minus, 0⟩, _) _ :=
      yields_exprLoop_minus rfl (next_lparen _) hT2
        (yields_exprLoop_stop _ (by decide) (by decide))
    exact parse_of_yields_ok (next_lparen _) (yields_expr hT1 hL) rfl
  | mul =>
    have hF1 := yields_paren_of_parse h1 (next_star ('(' :: (s2 ++ [')'])))
    have hL : Yields (fun n p => Parser.parseTermLoop n a p) (⟨.Star, 0⟩, _) _ :=
      yields_termLoop_star rfl (next_lparen _) hF2
        (yields_termLoop_stop _ (by decide) (by decide))
    exact parse_of_yields_ok (next_lparen _)
      (yields_expr_stop (yields_term hF1 hL) (by decide) (by decide)) rfl
  | div =>
    have hF1 := yields_paren_of_parse h1 (next_slash ('(' :: (s2 ++ [')'])))
    by_cases hb : b = 0
    · subst hb
      have hL : Yields (fun n p => Parser.parseTermLoop n a p) (⟨.Slash, 0⟩, _) _ :=
        yields_termLoop_divzero rfl (next_lparen _) hF2
      simp only [if_true]
      exact parse_of_yields_error (next_lparen _) (yields_expr_error (yields_term hF1 hL))
    · by_cases hk : a = -2147483648 ∧ b = -1
      · obtain ⟨ha, hb1⟩ := hk
        subst ha hb1
        have hL : Yields (fun n p => Parser.parseTermLoop n (-2147483648) p) (⟨.Slash, 0⟩, _) _ :=
          yields_termLoop_killed rfl (next_lparen _) hF2
        simp only [hb, if_false, and_self, if_true]
        exact parse_of_yields_error (next_lparen _) (yields_expr_error (yields_term hF1 hL))
      · have hL : Yields (fun n p => Parser.parseTermLoop n a p) (⟨.Slash, 0⟩, _) _ :=
          yields_termLoop_slash rfl (next_lparen _) hF2 hb hk
            (yields_termLoop_stop _ (by decide) (by decide))
        simp only [hb, hk, if_false]
        exact parse_of_yields_ok (next_lparen _)
          (yields_expr_stop (yields_term hF1 hL) (by decide) (by decide)) rfl

/-- `parse` of the text of a tree ends as the evaluator on `int` does, for
every tree. -/
theorem parse_render_int (e : Expr) : parse (render e) = evalInt e := by
  induction e with
  | lit n =>
    have hF := yields_factor_lit (wrap n) next_nil
    exact parse_of_yields_ok (next_decimal_end n)
      (yields_expr_stop (yields_term_stop hF (by decide) (by decide)) (by decide) (by decide))
      rfl
  | neg e ih =>
    rw [render_neg]
    exact parse_render_neg (fun x hx => evalInt_error e hx) ih
  | bin op l r ihl ihr =>
    rw [render_bin]
    simp only [evalInt]
    cases hel : evalInt l with
    | error x =>
      rw [hel] at ihl
      exact parse_render_left_error ihl (evalInt_error l hel) _
    | ok a =>
      rw [hel] at ihl
      cases her : evalInt r with
      | error x =>
        rw [her] at ihr
        exact parse_render_right_error op ihl ihr (evalInt_error r her)
      | ok b =>
        rw [her] at ihr
        exact parse_render_values op ihl ihr

theorem valueInRange_some {e : Expr} {v : Int} (h : valueInRange e = true)
    (hv : refEval e = some v) : wrap v = v := by
  simp only [valueInRange, hv] at h
  exact wrap_of_inInt h

/-- A quotient within `int` is not that of `INT_MIN` by `-1`. -/
theorem tdiv_not_killed {a b : Int} (h : wrap (Int.tdiv a b) = Int.tdiv a b) :
    ¬ (a = -2147483648 ∧ b = -1) := by
  rintro ⟨rfl, rfl⟩
  revert h
  decide

/-- Within the `int` range the evaluator on `int` is the reference evaluator. -/
theorem evalInt_eq_refEval (e : Expr) (h : inRange e = true) :
    evalInt e = toResult (refEval e) := by
  induction e with
  | lit n =>
    have := valueInRange_some (e := .lit n) (v := n) h rfl
    simp only [evalInt, refEval, this, toResult]
  | neg e ih =>
    simp only [inRange, Bool.and_eq_true] at h
    have hv := h.2
    simp only [evalInt, ih h.1]
    cases he : refEval e with
    | none => simp only [refEval, he, toResult]
    | some v =>
      have := valueInRange_some hv (v := -v) (by simp only [refEval, he])
      simp only [refEval, he, this, toResult]
  | bin op l r ihl ihr =>
    simp only [inRange, Bool.and_eq_true] at h
    obtain ⟨h1, h2⟩ := h
    simp only [evalInt, ihl h1]
    cases hl : refEval l with
    | none => simp only [refEval, hl, toResult]
    | some a =>
      rw [hl] at h2
      simp only [Bool.and_eq_true] at h2
      obtain ⟨h3, hv⟩ := h2
      simp only [ihr h3, toResult]
      cases hr : refEval r with
      | none => simp only [refEval, hl, hr, toResult]
      | some b =>
        cases op with
        | add =>
          have := valueInRange_some hv (v := a + b) (by simp only [refEval, hl, hr])
          simp only [refEval, hl, hr, this, toResult]
        | sub =>
          have := valueInRange_some hv (v := a - b) (by simp only [refEval, hl, hr])
          simp only [refEval, hl, hr, this, toResult]
        | mul =>
          have := valueInRange_some hv (v := a * b) (by simp only [refEval, hl, hr])
          simp only [refEval, hl, hr, this, toResult]
        | div =>
          by_cases hb : b = 0
          · simp only [refEval, hl, hr, hb, if_true, toResult]
          · have := valueInRange_some hv (v := Int.tdiv a b)
              (by simp only [refEval, hl, hr, hb, if_false])
            have hk := tdiv_not_killed this
            simp only [refEval, hl, hr, hb, hk, if_false, this, toResult]

/-! ## The cursor of the lexer -/

theorem cursorAfter_aux (l : List Char) :
    ∀ (text : List Char) (pos : Nat), text.drop pos = l →
      Lexer.cursorAfter ⟨text, pos⟩ = pos + scanLen l := by
  induction l with
  | nil =>
    intro text pos h
    have hlen : text.length ≤ pos := List.drop_eq_nil_iff.mp h
    simp [Lexer.cursorAfter, Lexer.skipWhitespace, h, skipWhitespaceLoop, scanLen,
      List.getElem?_eq_none hlen]
  | cons c r ih =>
    intro text pos h
    obtain ⟨hget, hdrop⟩ := drop_eq_cons h
    by_cases hs : isspace c = true
    · have hstep : Lexer.cursorAfter ⟨text, pos⟩ = Lexer.cursorAfter ⟨text, pos + 1⟩ := by
        simp [Lexer.cursorAfter, Lexer.skipWhitespace, h, hdrop, skipWhitespaceLoop, hs]
      rw [hstep, ih text (pos + 1) hdrop]
      simp only [scanLen, hs, if_true]
      omega
    · have hs' : isspace c = false := by simpa using hs
      have hskip : (Lexer.skipWhitespace ⟨text, pos⟩) = ⟨text, pos⟩ := by
        simp [Lexer.skipWhitespace, h, skipWhitespaceLoop, hs']
      simp only [Lexer.cursorAfter, hskip, hget, scanLen, hs', h, Bool.false_eq_true, if_false]
      by_cases hd : isdigit c = true
      · simp only [hd, if_true]
        rw [readDigitsLoop_pos (c :: r) pos 0]
      · have hd' : isdigit c = false := by simpa using hd
        simp only [hd', Bool.false_eq_true, if_false]

theorem cursorAfter_eq (lx : Lexer) : lx.cursorAfter = lx.pos + scanLen lx.rest :=
  cursorAfter_aux lx.rest lx.text lx.pos rfl

theorem scanLen_le (r : List Char) : scanLen r ≤ r.length := by
  induction r with
  | nil => simp [scanLen]
  | cons c r ih =>
    simp only [scanLen, List.length_cons]
    split_ifs
    · omega
    · exact readDigitsLoop_le (c :: r) 0
    · omega

theorem scan_scanLen (r : List Char) : ∀ t k, scan r = .ok (t, k) → k = scanLen r := by
  induction r with
  | nil =>
    intro t k h
    cases h
    rfl
  | cons c r ih =>
    intro t k h
    by_cases hs : isspace c = true
    · simp only [scan, hs, if_true] at h
      cases hsr : scan r with
      | error e => rw [hsr] at h; cases h
      | ok a =>
        obtain ⟨t', k'⟩ := a
        rw [hsr] at h
        cases h
        simp only [scanLen, hs, if_true, ih t k' hsr]
    · have hs' : isspace c = false := by simpa using hs
      by_cases hd : isdigit c = true
      · simp only [scan, hs', hd, if_true, Bool.false_eq_true, if_false] at h
        cases h
        simp only [scanLen, hs', hd, if_true, Bool.false_eq_true, if_false]
      · have hd' : isdigit c = false := by simpa using hd
        simp only [scan, hs', hd', Bool.false_eq_true, if_false] at h
        split_ifs at h <;> cases h <;> simp [scanLen, hs', hd']

theorem getNextToken_ok (lx : Lexer) {t : Token} {lx' : Lexer}
    (h : lx.getNextToken = .ok (t, lx')) :
    ∃ k, scan lx.rest = .ok (t, k) ∧ lx' = ⟨lx.text, lx.pos + k⟩ := by
  rw [getNextToken_eq_scan] at h
  cases hsr : scan lx.rest with
  | error e => rw [hsr] at h; cases h
  | ok a =>
    obtain ⟨t', k⟩ := a
    rw [hsr] at h
    cases h
    exact ⟨k, rfl, rfl⟩

theorem rest_length (lx : Lexer) : lx.rest.length = lx.text.length - lx.pos := by
  simp [Lexer.rest]

theorem scan_spaces (r : List Char) (h : ∀ c ∈ r, isspace c = true) :
    scan r = .ok (⟨.End, 0⟩, r.length) := by
  induction r with
  | nil => rfl
  | cons c r ih =>
    have hc : isspace c = true := h c (by simp)
    simp only [scan, hc, if_true, ih (fun x hx => h x (by simp [hx])), List.length_cons]

theorem scan_end (r : List Char) :
    ∀ t k, scan r = .ok (t, k) → t.type = .End →
      t = ⟨.End, 0⟩ ∧ k = r.length ∧ ∀ c ∈ r, isspace c = true := by
  induction r with
  | nil =>
    intro t k h _
    cases h
    simp
  | cons c r ih =>
    intro t k h ht
    by_cases hs : isspace c = true
    · simp only [scan, hs, if_true] at h
      cases hsr : scan r with
      | error e => rw [hsr] at h; cases h
      | ok a =>
        obtain ⟨t', k'⟩ := a
        rw [hsr] at h
        cases h
        obtain ⟨h1, h2, h3⟩ := ih t k' hsr ht
        refine ⟨h1, by simp [h2], ?_⟩
        intro x hx
        simp only [List.mem_cons] at hx
        rcases hx with hx | hx
        · rw [hx]; exact hs
        · exact h3 x hx
    · have hs' : isspace c = false := by simpa using hs
      by_cases hd : isdigit c = true
      · simp only [scan, hs', hd, if_true, Bool.false_eq_true, if_false] at h
        cases h
        cases ht
      · have hd' : isdigit c = false := by simpa using hd
        simp only [scan, hs', hd', Bool.false_eq_true, if_false] at h
        split_ifs at h <;> cases h <;> cases ht

theorem reachable_inv {text : List Char} {lx : Lexer} (h : Lexer.Reachable text lx) :
    lx.text = text ∧ lx.pos ≤ text.length := by
  induction h with
  | init => exact ⟨rfl, Nat.zero_le _⟩
  | @step lx lx' t _ hcall ih =>
    obtain ⟨k, hs, rfl⟩ := getNextToken_ok lx hcall
    have hk := (scan_count lx.rest t k hs).1
    rw [rest_length, ih.1] at hk
    refine ⟨ih.1, ?_⟩
    show lx.pos + k ≤ text.length
    have := ih.2
    omega

theorem getNextTokens_end (lx : Lexer) (h : lx.getNextToken = .ok (⟨.End, 0⟩, lx)) :
    ∀ n, Lexer.getNextTokens n lx = .ok (List.replicate n ⟨.End, 0⟩, lx) := by
  intro n
  induction n with
  | zero => rfl
  | succ n ih => simp only [Lexer.getNextTokens, h, ih, List.replicate_succ]

/-! ## Accepted characters -/

theorem readDigitsLoop_take (l : List Char) (v : Int) :
    ∀ c ∈ l.take (readDigitsLoop l 0 v).1, isdigit c = true := by
  induction l generalizing v with
  | nil => simp [readDigitsLoop]
  | cons d r ih =>
    by_cases hd : isdigit d = true
    · simp only [readDigitsLoop, hd, if_true]
      rw [readDigitsLoop_pos]
      intro c hc
      simp only [Nat.add_comm 0 1] at hc
      rw [Nat.add_comm, List.take_succ_cons] at hc
      simp only [List.mem_cons] at hc
      rcases hc with hc | hc
      · rw [hc]; exact hd
      · exact ih _ c hc
    · simp [readDigitsLoop, hd]

theorem scan_legal (r : List Char) :
    ∀ t k, scan r = .ok (t, k) → ∀ c ∈ r.take k, legalChar c = true := by
  induction r with
  | nil =>
    intro t k h c hc
    simp at hc
  | cons d r ih =>
    intro t k h
    by_cases hs : isspace d = true
    · simp only [scan, hs, if_true] at h
      cases hsr : scan r with
      | error e => rw [hsr] at h; cases h
      | ok a =>
        obtain ⟨t', k'⟩ := a
        rw [hsr] at h
        cases h
        intro c hc
        rw [List.take_succ_cons] at hc
        simp only [List.mem_cons] at hc
        rcases hc with hc | hc
        · rw [hc]; simp [legalChar, hs]
        · exact ih t k' hsr c hc
    · have hs' : isspace d = false := by simpa using hs
      by_cases hd : isdigit d = true
      · simp only [scan, hs', hd, if_true, Bool.false_eq_true, if_false] at h
        cases h
        intro c hc
        have := readDigitsLoop_take (d :: r) 0 c hc
        simp [legalChar, this]
      · have hd' : isdigit d = false := by simpa using hd
        simp only [scan, hs', hd', Bool.false_eq_true, if_false] at h
        split_ifs at h with h1 h2 h3 h4 h5 h6 <;> cases h <;> intro c hc <;>
          simp only [List.take_succ_cons, List.take_zero, List.mem_singleton] at hc <;>
          subst hc <;> simp [legalChar, *]

theorem advance_scanned (lx : Lexer) (h : ∀ c ∈ lx.text.take lx.pos, legalChar c = true)
    {q : Parser} (hq : Parser.advance lx = .ok q) : q.lexer.text = lx.text ∧ Scanned q := by
  rw [advance_eq_scan] at hq
  cases hsr : scan lx.rest with
  | error e => rw [hsr] at hq; cases hq
  | ok a =>
    obtain ⟨t, k⟩ := a
    rw [hsr] at hq
    cases hq
    refine ⟨rfl, ?_, ?_⟩
    · intro c hc
      simp only [List.take_add, List.mem_append] at hc
      rcases hc with hc | hc
      · exact h c hc
      · exact scan_legal lx.rest t k hsr c hc
    · intro ht
      have hk := (scan_end lx.rest t k hsr ht).2.1
      show lx.text.length ≤ lx.pos + k
      rw [hk, rest_length]
      omega

theorem simulation_scanned (s : List Char) : Simulation (ScannedRun s) True where
  cur := fun p1 p2 h _ => by rw [h.1]
  adv := fun p1 p2 h _ => by
    obtain ⟨rfl, htext, hsc⟩ := h
    cases hr : Parser.advance p1.lexer with
    | error e => exact fun _ => rfl
    | ok q =>
      obtain ⟨h1, h2⟩ := advance_scanned p1.lexer hsc.1 hr
      exact ⟨q, rfl, rfl, by rw [h1, htext], h2⟩
  stop := fun p1 p2 h he => by
    rw [← h.1, he]
    decide
  strictEnd := fun _ p1 p2 h he => by rw [← h.1]; exact he

/-- Every character of a line that `parse` evaluates is an accepted one. -/
theorem parse_ok_scanned {s : List Char} {v : Int} (h : parse s = .ok v) :
    ∀ c ∈ s, legalChar c = true := by
  simp only [parse] at h
  cases hnew : Parser.new s with
  | error e => rw [hnew] at h; cases h
  | ok p =>
    rw [hnew] at h
    simp only [Parser.parse] at h
    cases hrun : Parser.parseExpr (3 * p.lexer.text.length + 3) p with
    | error e => rw [hrun] at h; cases h
    | ok a =>
      obtain ⟨v', q⟩ := a
      rw [hrun] at h
      simp only at h
      by_cases hend : q.current.type = .End
      · obtain ⟨htext, hsc⟩ := advance_scanned ⟨s, 0⟩ (by simp) hnew
        have hsim := (simulation (simulation_scanned s) (3 * p.lexer.text.length + 3)
          (3 * p.lexer.text.length + 3) (Nat.le_refl _) p p ⟨rfl, htext, hsc⟩).2.2.2.2
        rw [hrun] at hsim
        obtain ⟨q2, _, _, hqt, hqs⟩ := hsim
        have hlen := hqs.2 hend
        intro c hc
        apply hqs.1 c
        rw [List.take_of_length_le hlen, hqt]
        exact hc
      · simp [hend] at h

/-! ## Inserted white space -/

theorem wsInserted_weaken {b : Bool} {s1 s2 : List Char} (h : WsInserted b s1 s2) :
    WsInserted false s1 s2 := by
  induction h with
  | nil b => exact .nil _
  | keep b c h _ => exact .keep _ c h
  | ins b w hw _ _ ih => exact .ins _ w hw (fun h => by cases h) ih

theorem space_not_digit {w : Char} (h : isspace w = true) : isdigit w = false := by
  simp only [isspace, Bool.or_eq_true, beq_iff_eq, Bool.and_eq_true, decide_eq_true_eq] at h
  simp only [isdigit, Bool.and_eq_false_imp, decide_eq_true_eq, decide_eq_false_iff_not]
  omega

theorem readDigitsLoop_stop (r : List Char) (h : ∀ c ∈ r.head?, isdigit c = false)
    (pos : Nat) (v : Int) : readDigitsLoop r pos v = (pos, v) := by
  cases r with
  | nil => rfl
  | cons c r =>
    have := h c (by simp)
    simp [readDigitsLoop, this]

theorem wsInserted_digits {b : Bool} {r1 r2 : List Char} (h : WsInserted b r1 r2) :
    b = true → ∀ (pos : Nat) (v : Int),
      readDigitsLoop r2 pos v = readDigitsLoop r1 pos v ∧
      WsInserted true (r1.drop (readDigitsLoop r1 0 v).1) (r2.drop (readDigitsLoop r1 0 v).1) := by
  induction h with
  | nil b =>
    intro hb pos v
    subst hb
    exact ⟨rfl, .nil _⟩
  | keep b c h ih =>
    intro hb pos v
    subst hb
    by_cases hc : isdigit c = true
    · obtain ⟨h1, h2⟩ := ih hc (pos + 1) (wrap (wrap (v * 10) + ((c.toNat : Int) - 48)))
      simp only [readDigitsLoop, hc, if_true]
      refine ⟨h1, ?_⟩
      rw [readDigitsLoop_pos]
      simp only
      rw [Nat.add_comm 1, List.drop_succ_cons, List.drop_succ_cons]
      exact h2
    · have hc' : isdigit c = false := by simpa using hc
      simp only [readDigitsLoop, hc', Bool.false_eq_true, if_false, List.drop_zero, true_and]
      exact .keep _ c h
  | ins b w hw hcond h ih =>
    intro hb pos v
    subst hb
    have hstop := readDigitsLoop_stop _ (hcond rfl)
    have hwd := space_not_digit hw
    rw [hstop pos v, hstop 0 v]
    simp only [readDigitsLoop, hwd, Bool.false_eq_true, if_false, List.drop_zero, true_and]
    exact .ins _ w hw hcond h

theorem wsInserted_scan {b : Bool} {r1 r2 : List Char} (h : WsInserted b r1 r2) :
    (b = true → ∀ c ∈ r1.head?, isdigit c = false) → ScanWs r1 r2 := by
  induction h with
  | nil b =>
    intro _
    exact ⟨0, rfl, .nil _⟩
  | keep b c h ih =>
    rename_i s1 s2
    intro _
    by_cases hs : isspace c = true
    · have hd := space_not_digit hs
      have ih := ih (fun h => by rw [hd] at h; cases h)
      simp only [ScanWs, scan, hs, if_true] at ih ⊢
      cases hsr : scan s1 with
      | error e =>
        rw [hsr] at ih
        simp only at ih ⊢
        rw [ih]
      | ok a =>
        obtain ⟨t, k1⟩ := a
        rw [hsr] at ih
        simp only at ih ⊢
        obtain ⟨k2, h1, h2⟩ := ih
        rw [h1]
        exact ⟨k2 + 1, rfl, h2⟩
    · have hs' : isspace c = false := by simpa using hs
      by_cases hd : isdigit c = true
      · obtain ⟨h1, h2⟩ := wsInserted_digits h hd 1 (wrap (wrap (0 * 10) + ((c.toNat : Int) - 48)))
        have hrd : readDigitsLoop (c :: s2) 0 0 = readDigitsLoop (c :: s1) 0 0 := by
          simp only [readDigitsLoop, hd, if_true, Nat.zero_add]
          exact h1
        simp only [ScanWs, scan, hs', hd, if_true, Bool.false_eq_true, if_false]
        rw [hrd]
        refine ⟨(readDigitsLoop (c :: s1) 0 0).1, rfl, ?_⟩
        simp only [readDigitsLoop, hd, if_true, Nat.zero_add]
        rw [readDigitsLoop_pos]
        simp only
        rw [Nat.add_comm 1, List.drop_succ_cons, List.drop_succ_cons]
        exact wsInserted_weaken h2
      · have hd' : isdigit c = false := by simpa using hd
        have h' : WsInserted false s1 s2 := wsInserted_weaken h
        simp only [ScanWs, scan, hs', hd', Bool.false_eq_true, if_false]
        split_ifs <;> first | exact ⟨1, rfl, h'⟩ | rfl
  | ins b w hw hcond h ih =>
    rename_i s1 s2
    intro hb
    have ih := ih hb
    simp only [ScanWs] at ih ⊢
    simp only [scan, hw, if_true]
    cases hsr : scan s1 with
    | error e =>
      rw [hsr] at ih
      simp only at ih ⊢
      rw [ih]
    | ok a =>
      obtain ⟨t, k1⟩ := a
      rw [hsr] at ih
      simp only at ih ⊢
      obtain ⟨k2, h1, h2⟩ := ih
      rw [h1]
      exact ⟨k2 + 1, rfl, h2⟩

theorem advance_ws {lx1 lx2 : Lexer} (h : WsInserted false lx1.rest lx2.rest) :
    RelP WsRun True (Parser.advance lx1) (Parser.advance lx2) := by
  have hs := wsInserted_scan h (fun h => by cases h)
  rw [advance_eq_scan lx1, advance_eq_scan lx2]
  simp only [ScanWs] at hs
  cases hsr : scan lx1.rest with
  | error e =>
    rw [hsr] at hs
    simp only at hs
    rw [hs]
    exact fun _ => rfl
  | ok a =>
    obtain ⟨t, k1⟩ := a
    rw [hsr] at hs
    simp only at hs
    obtain ⟨k2, h1, h2⟩ := hs
    rw [h1]
    refine ⟨_, rfl, rfl, ?_⟩
    show WsInserted false (Lexer.rest ⟨lx1.text, lx1.pos + k1⟩) (Lexer.rest ⟨lx2.text, lx2.pos + k2⟩)
    rw [rest_add, rest_add]
    exact h2

theorem simulation_ws : Simulation WsRun True where
  cur := fun p1 p2 h _ => h.1
  adv := fun p1 p2 h _ => advance_ws h.2
  stop := fun p1 p2 h he => by
    rw [h.1, he]
    decide
  strictEnd := fun _ p1 p2 h he => by rw [h.1]; exact he

theorem new_text {s : List Char} {p : Parser} (h : Parser.new s = .ok p) : p.lexer.text = s := by
  rw [new_eq_scan] at h
  cases hsc : scan s with
  | error e => rw [hsc] at h; cases h
  | ok a =>
    rw [hsc] at h
    cases h
    rfl

theorem Mono.run_of_fine {f : Nat → Parser → Except Error (Int × Parser)} (hf : Mono f)
    {n F : Nat} {p : Parser} {r : Except Error (Int × Parser)} (h : f n p = r)
    (hr : r ≠ .error .outOfFuel) (hF : f F p ≠ .error .outOfFuel) : f F p = r := by
  have h1 : f (max n F) p = r := by
    cases r with
    | error e => exact hf.keep_error h (fun he => hr (by rw [he])) (Nat.le_max_left n F)
    | ok a => exact hf.keep_ok h (Nat.le_max_left n F)
  cases hr2 : f F p with
  | error e =>
    rw [← h1]
    exact (hf.keep_error hr2 (fun he => hF (by rw [hr2, he])) (Nat.le_max_right n F)).symm
  | ok a =>
    rw [← h1]
    exact (hf.keep_ok hr2 (Nat.le_max_right n F)).symm

/-- The run of `parseExpr` inside `parse`, from a run with any fuel that is
enough. -/
theorem parse_fuel_run {s : List Char} {p : Parser} (hnew : Parser.new s = .ok p) {n : Nat}
    {r : Except Error (Int × Parser)} (hrun : Parser.parseExpr n p = r)
    (hr : r ≠ .error .outOfFuel) :
    Parser.parseExpr (3 * p.lexer.text.length + 3) p = r := by
  have hsize : p.size < s.length + 1 := by
    have := (advance_fine ⟨s, 0⟩).2 p hnew
    rwa [rest_zero] at this
  have htext := new_text hnew
  exact mono_expr.run_of_fine hrun hr
    ((fuel_enough (3 * p.lexer.text.length + 3) p).2.2.2.2 (by rw [htext]; omega)).1

theorem parse_of_expr_ok {s : List Char} {p : Parser} (hnew : Parser.new s = .ok p) {n : Nat}
    {v : Int} {q : Parser} (hrun : Parser.parseExpr n p = .ok (v, q)) :
    parse s = if q.current.type ≠ .End then .error .unknownSymbol else .ok v := by
  simp only [parse, hnew, Parser.parse, parse_fuel_run hnew hrun (by simp)]

theorem parse_of_expr_error {s : List Char} {p : Parser} (hnew : Parser.new s = .ok p) {n : Nat}
    {e : Error} (hrun : Parser.parseExpr n p = .error e) (he : e ≠ .outOfFuel) :
    parse s = .error e := by
  simp only [parse, hnew, Parser.parse,
    parse_fuel_run hnew hrun (fun h => he (by simpa using h))]

/-! ## A binary operator after the expression

A line that `parse` evaluates, followed by a binary operator: the run on the
longer line repeats the run on the line up to its end, takes the operator,
and finds no operand. -/

section Operator

variable {E : Parser → Parser → Prop}

theorem anyP_bind {R : Except Error (Int × Parser) → Except Error (Int × Parser) → Prop}
    (hR : ∀ e r, R (.error e) r) {r1 r2 : Except Error Parser}
    {f1 f2 : Parser → Except Error (Int × Parser)} :
    AnyP E r1 r2 →
    (∀ p1 p2, E p1 p2 → R (f1 p1) (f2 p2)) →
    R (match r1 with
        | .error e => .error e
        | .ok p => f1 p)
      (match r2 with
        | .error e => .error e
        | .ok p => f2 p) := by
  intro h hf
  cases r1 with
  | error e => exact hR _ _
  | ok p1 =>
    obtain ⟨p2, h2, hP⟩ := h
    rw [h2]
    exact hf p1 p2 hP

theorem anyOut_bind {R : Except Error (Int × Parser) → Except Error (Int × Parser) → Prop}
    (hR : ∀ e r, R (.error e) r) {r1 r2 : Except Error (Int × Parser)}
    {f1 f2 : Int → Parser → Except Error (Int × Parser)} :
    AnyOut E r1 r2 →
    (∀ v p1 p2, E p1 p2 → R (f1 v p1) (f2 v p2)) →
    R (match r1 with
        | .error e => .error e
        | .ok (v, p) => f1 v p)
      (match r2 with
        | .error e => .error e
        | .ok (v, p) => f2 v p) := by
  intro h hf
  cases r1 with
  | error e => exact hR _ _
  | ok a =>
    obtain ⟨v, p1⟩ := a
    obtain ⟨p2, h2, hP⟩ := h
    rw [h2]
    exact hf v p1 p2 hP

theorem syncOut_bind {R : Except Error (Int × Parser) → Except Error (Int × Parser) → Prop}
    (hR : ∀ e r, R (.error e) r) {r1 r2 : Except Error (Int × Parser)}
    {f1 f2 : Int → Parser → Except Error (Int × Parser)} :
    SyncOut E r1 r2 →
    (∀ v p1 p2, E p1 p2 → R (f1 v p1) (f2 v p2)) →
    (∀ v p1, p1.current.type = .End → ∀ r, R (f1 v p1) r) →
    R (match r1 with
        | .error e => .error e
        | .ok (v, p) => f1 v p)
      (match r2 with
        | .error e => .error e
        | .ok (v, p) => f2 v p) := by
  intro h hf hend
  cases r1 with
  | error e => exact hR _ _
  | ok a =>
    obtain ⟨v, p1⟩ := a
    by_cases he : p1.current.type = .End
    · exact hend v p1 he _
    · obtain ⟨p2, h2, hP⟩ := h he
      rw [h2]
      exact hf v p1 p2 hP

theorem termOut_bind {T : Token}
    (hop : (T.type = .Star ∨ T.type = .Slash) ∨ (T.type = .Plus ∨ T.type = .Minus))
    {r1 r2 : Except Error (Int × Parser)}
    {f1 f2 : Int → Parser → Except Error (Int × Parser)} :
    SyncOut E r1 r2 → TermOut E T r1 r2 →
    (∀ v p1 p2, E p1 p2 → (p1.current.type = .End → T.type = .Plus ∨ T.type = .Minus) →
      ExprOut (f1 v p1) (f2 v p2)) →
    ExprOut
      (match r1 with
        | .error e => .error e
        | .ok (v, p) => f1 v p)
      (match r2 with
        | .error e => .error e
        | .ok (v, p) => f2 v p) := by
  intro hs ht hf
  cases r1 with
  | error e => exact trivial
  | ok a =>
    obtain ⟨v, p1⟩ := a
    by_cases he : p1.current.type = .End
    · obtain ⟨h1, h2⟩ := ht he
      rcases hop with hop | hop
      · rw [h1 hop]
        simp only [ExprOut]
        split
        · intro _; trivial
        · trivial
      · obtain ⟨p2, h3, hP⟩ := h2 hop
        rw [h3]
        exact hf v p1 p2 hP (fun _ => hop)
    · obtain ⟨p2, h2, hP⟩ := hs he
      rw [h2]
      exact hf v p1 p2 hP (fun h => absurd h he)

end Operator

theorem factor_end (n : Nat) {p : Parser} (h : p.current.type = .End) :
    Parser.parseFactor (n + 1) p = .error .operandExpected := by
  simp only [Parser.parseFactor, h]

theorem termLoop_end (n : Nat) (v : Int) {p : Parser} (h : p.current.type = .End) :
    Parser.parseTermLoop (n + 1) v p = .ok (v, p) := by
  simp [Parser.parseTermLoop, h]

theorem exprLoop_end (n : Nat) (v : Int) {p : Parser} (h : p.current.type = .End) :
    Parser.parseExprLoop (n + 1) v p = .ok (v, p) := by
  simp [Parser.parseExprLoop, h]

theorem syncOut_termLoop_end {E : Parser → Parser → Prop} (n : Nat) (v : Int) {p : Parser}
    (h : p.current.type = .End) (r : Except Error (Int × Parser)) :
    SyncOut E (Parser.parseTermLoop n v p) r := by
  cases n with
  | zero => simp only [Parser.parseTermLoop]; trivial
  | succ n =>
    rw [termLoop_end n v h]
    exact fun hne => absurd h hne

theorem syncOut_exprLoop_end {E : Parser → Parser → Prop} (n : Nat) (v : Int) {p : Parser}
    (h : p.current.type = .End) (r : Except Error (Int × Parser)) :
    SyncOut E (Parser.parseExprLoop n v p) r := by
  cases n with
  | zero => simp only [Parser.parseExprLoop]; trivial
  | succ n =>
    rw [exprLoop_end n v h]
    exact fun hne => absurd h hne

section Operator

variable {post : List Char} {T : Token} {k : Nat}

theorem ext_cur {p1 p2 : Parser} (h : Ext post T k p1 p2) (he : p1.current.type ≠ .End) :
    p2.current = p1.current := by
  rcases h with ⟨_, h, _⟩ | ⟨h, _, _⟩
  · exact h
  · exact absurd h he

theorem ext_eat (C : Operator post T k) {p1 p2 : Parser} (h : Ext post T k p1 p2)
    (t : TokenType) (ht : t ≠ .End) : AnyP (Ext post T k) (p1.eat t) (p2.eat t) := by
  by_cases h1 : p1.current.type = t
  · have hne : p1.current.type ≠ .End := by rw [h1]; exact ht
    rcases h with ⟨_, hc, hr⟩ | ⟨h, _, _⟩
    · have h2 : p2.current.type = t := by rw [hc]; exact h1
      simp only [Parser.eat, h1, h2, if_true]
      have hadv := advance_ext False C.first C.nodigit p1.lexer p2.lexer hr
      cases hr1 : Parser.advance p1.lexer with
      | error e => trivial
      | ok q =>
        rw [hr1] at hadv
        exact hadv
    · exact absurd h hne
  · simp only [Parser.eat, h1, if_false]
    trivial

/-- At the end of the first text the second run takes the operator and is at
the end as well. -/
theorem ext_end_eat (C : Operator post T k) {p1 p2 : Parser} (h : Ext post T k p1 p2)
    (he : p1.current.type = .End) :
    ∃ q, p2.eat T.type = .ok q ∧ q.current.type = .End ∧ p2.current = T := by
  rcases h with ⟨h, _, _⟩ | ⟨_, hc, hr⟩
  · exact absurd he h
  · obtain ⟨j, hj⟩ := C.last
    refine ⟨⟨⟨p2.lexer.text, p2.lexer.pos + j⟩, ⟨.End, 0⟩⟩, ?_, rfl, hc⟩
    simp only [Parser.eat, hc, if_true]
    rw [advance_eq_scan, hr, hj]

theorem anyOut_error {E : Parser → Parser → Prop} (e : Error)
    (r : Except Error (Int × Parser)) : AnyOut E (.error e) r := trivial

theorem syncOut_error {E : Parser → Parser → Prop} (e : Error)
    (r : Except Error (Int × Parser)) : SyncOut E (.error e) r := trivial

theorem termOut_error {E : Parser → Parser → Prop} (e : Error)
    (r : Except Error (Int × Parser)) : TermOut E T (.error e) r := trivial

theorem exprOut_error (e : Error) (r : Except Error (Int × Parser)) :
    ExprOut (.error e) r := trivial

theorem sync_factor (C : Operator post T k) {n m : Nat} (ih : SyncAt (Ext post T k) n m)
    {p1 p2 : Parser} (hE : Ext post T k p1 p2) :
    AnyOut (Ext post T k) (Parser.parseFactor (n + 1) p1) (Parser.parseFactor (m + 1) p2) := by
  by_cases he : p1.current.type = .End
  · rw [factor_end n he]
    trivial
  · have hc := ext_cur hE he
    simp only [Parser.parseFactor, hc]
    cases hty : p1.current.type with
    | Number =>
      exact anyP_bind anyOut_error (ext_eat C hE .Number (by decide))
        (fun p1' p2' hP' => ⟨p2', rfl, hP'⟩)
    | LParen =>
      refine anyP_bind anyOut_error (ext_eat C hE .LParen (by decide)) (fun p1' p2' hP' => ?_)
      refine syncOut_bind anyOut_error (ih p1' p2' hP').2.2.2.2 (fun v q1 q2 hQ => ?_)
        (fun v q1 hq r => ?_)
      · exact anyP_bind anyOut_error (ext_eat C hQ .RParen (by decide))
          (fun q1' q2' hQ' => ⟨q2', rfl, hQ'⟩)
      · simp only [Parser.eat, hq]
        trivial
    | Minus =>
      refine anyP_bind anyOut_error (ext_eat C hE .Minus (by decide)) (fun p1' p2' hP' => ?_)
      exact anyOut_bind anyOut_error (ih p1' p2' hP').1 (fun v q1 q2 hQ => ⟨q2, rfl, hQ⟩)
    | End => exact absurd hty he
    | Plus => trivial
    | Star => trivial
    | Slash => trivial
    | RParen => trivial

theorem sync_termLoop (C : Operator post T k) {n m : Nat} (ih : SyncAt (Ext post T k) n m)
    {p1 p2 : Parser} (hE : Ext post T k p1 p2) (v : Int) :
    SyncOut (Ext post T k) (Parser.parseTermLoop (n + 1) v p1)
      (Parser.parseTermLoop (m + 1) v p2) := by
  by_cases he : p1.current.type = .End
  · exact syncOut_termLoop_end _ v he _
  · have hc := ext_cur hE he
    by_cases hop : p1.current.type = .Star ∨ p1.current.type = .Slash
    · simp only [Parser.parseTermLoop, hc, hop, if_true]
      refine anyP_bind syncOut_error (ext_eat C hE _ he) (fun p1' p2' hP' => ?_)
      refine anyOut_bind syncOut_error (ih p1' p2' hP').1 (fun right q1 q2 hQ => ?_)
      split_ifs
      · exact (ih q1 q2 hQ).2.1 _
      · trivial
      · trivial
      · exact (ih q1 q2 hQ).2.1 _
    · simp only [Parser.parseTermLoop, hc, hop, if_false]
      exact fun _ => ⟨p2, rfl, hE⟩

theorem sync_exprLoop (C : Operator post T k) {n m : Nat} (ih : SyncAt (Ext post T k) n m)
    {p1 p2 : Parser} (hE : Ext post T k p1 p2) (v : Int) :
    SyncOut (Ext post T k) (Parser.parseExprLoop (n + 1) v p1)
      (Parser.parseExprLoop (m + 1) v p2) := by
  by_cases he : p1.current.type = .End
  · exact syncOut_exprLoop_end _ v he _
  · have hc := ext_cur hE he
    by_cases hop : p1.current.type = .Plus ∨ p1.current.type = .Minus
    · simp only [Parser.parseExprLoop, hc, hop, if_true]
      refine anyP_bind syncOut_error (ext_eat C hE _ he) (fun p1' p2' hP' => ?_)
      refine syncOut_bind syncOut_error (ih p1' p2' hP').2.2.1 (fun right q1 q2 hQ => ?_)
        (fun right q1 hq r => ?_)
      · split_ifs
        · exact (ih q1 q2 hQ).2.2.2.1 _
        · exact (ih q1 q2 hQ).2.2.2.1 _
      · split_ifs
        · exact syncOut_exprLoop_end _ _ hq _
        · exact syncOut_exprLoop_end _ _ hq _
    · simp only [Parser.parseExprLoop, hc, hop, if_false]
      exact fun _ => ⟨p2, rfl, hE⟩

theorem sync_term {n m : Nat} (ih : SyncAt (Ext post T k) n m)
    {p1 p2 : Parser} (hE : Ext post T k p1 p2) :
    SyncOut (Ext post T k) (Parser.parseTerm (n + 1) p1) (Parser.parseTerm (m + 1) p2) := by
  simp only [Parser.parseTerm]
  exact anyOut_bind syncOut_error (ih p1 p2 hE).1 (fun v q1 q2 hQ => (ih q1 q2 hQ).2.1 v)

theorem sync_expr {n m : Nat} (ih : SyncAt (Ext post T k) n m)
    {p1 p2 : Parser} (hE : Ext post T k p1 p2) :
    SyncOut (Ext post T k) (Parser.parseExpr (n + 1) p1) (Parser.parseExpr (m + 1) p2) := by
  simp only [Parser.parseExpr]
  exact syncOut_bind syncOut_error (ih p1 p2 hE).2.2.1
    (fun v q1 q2 hQ => (ih q1 q2 hQ).2.2.2.1 v)
    (fun v q1 hq r => syncOut_exprLoop_end _ _ hq _)

/-- Up to the end of the first text the second run repeats the first. -/
theorem sync (C : Operator post T k) : ∀ n m, n ≤ m → SyncAt (Ext post T k) n m := by
  intro n
  induction n with
  | zero =>
    intro m _ p1 p2 _
    simp only [Parser.parseFactor, Parser.parseTermLoop, Parser.parseTerm,
      Parser.parseExprLoop, Parser.parseExpr]
    exact ⟨trivial, fun _ => trivial, trivial, fun _ => trivial, trivial⟩
  | succ n ih =>
    intro m hm
    obtain ⟨m, rfl⟩ : ∃ j, m = j + 1 := ⟨m - 1, by omega⟩
    have ih' := ih m (by omega)
    intro p1 p2 hE
    exact ⟨sync_factor C ih' hE, sync_termLoop C ih' hE, sync_term ih' hE,
      sync_exprLoop C ih' hE, sync_expr ih' hE⟩

theorem termLoop_op (n : Nat) (v : Int) {p : Parser}
    (hop : p.current.type = .Star ∨ p.current.type = .Slash) :
    Parser.parseTermLoop (n + 1) v p =
      match p.eat p.current.type with
      | .error e => .error e
      | .ok q =>
        match Parser.parseFactor n q with
        | .error e => .error e
        | .ok (right, q) =>
          if p.current.type = .Star then Parser.parseTermLoop n (wrap (v * right)) q
          else if right = 0 then .error .divisionByZero
          else if v = -2147483648 ∧ right = -1 then .error .killed
          else Parser.parseTermLoop n (wrap (Int.tdiv v right)) q := by
  simp only [Parser.parseTermLoop, hop, if_true]

theorem termLoop_stop (n : Nat) (v : Int) {p : Parser}
    (hop : ¬ (p.current.type = .Star ∨ p.current.type = .Slash)) :
    Parser.parseTermLoop (n + 1) v p = .ok (v, p) := by
  simp only [Parser.parseTermLoop, hop, if_false]

theorem exprLoop_op (n : Nat) (v : Int) {p : Parser}
    (hop : p.current.type = .Plus ∨ p.current.type = .Minus) :
    Parser.parseExprLoop (n + 1) v p =
      match p.eat p.current.type with
      | .error e => .error e
      | .ok q =>
        match Parser.parseTerm n q with
        | .error e => .error e
        | .ok (right, q) =>
          if p.current.type = .Plus then Parser.parseExprLoop n (wrap (v + right)) q
          else Parser.parseExprLoop n (wrap (v - right)) q := by
  simp only [Parser.parseExprLoop, hop, if_true]

theorem parseTerm_succ (n : Nat) (p : Parser) :
    Parser.parseTerm (n + 1) p =
      match Parser.parseFactor n p with
      | .error e => .error e
      | .ok (v, q) => Parser.parseTermLoop n v q := by
  simp only [Parser.parseTerm]

theorem parseExpr_succ (n : Nat) (p : Parser) :
    Parser.parseExpr (n + 1) p =
      match Parser.parseTerm n p with
      | .error e => .error e
      | .ok (v, q) => Parser.parseExprLoop n v q := by
  simp only [Parser.parseExpr]

theorem operand_termLoop (C : Operator post T k) {n : Nat}
    (ih : OperandAt (Ext post T k) T n)
    {p1 p2 : Parser} (hE : Ext post T k p1 p2) (v : Int) :
    TermOut (Ext post T k) T (Parser.parseTermLoop (n + 1) v p1)
      (Parser.parseTermLoop (n + 2 + 1) v p2) := by
  by_cases he : p1.current.type = .End
  · rw [termLoop_end n v he]
    intro _
    obtain ⟨q, hq, hqe, hc⟩ := ext_end_eat C hE he
    constructor
    · intro hop
      rw [termLoop_op _ v (by rw [hc]; exact hop), hc, hq]
      simp only
      rw [factor_end _ hqe]
    · intro hop
      have hno : ¬ (T.type = .Star ∨ T.type = .Slash) := by
        rcases hop with h | h <;> rw [h] <;> decide
      rw [termLoop_stop _ v (by rw [hc]; exact hno)]
      exact ⟨p2, rfl, hE⟩
  · have hc := ext_cur hE he
    by_cases hop : p1.current.type = .Star ∨ p1.current.type = .Slash
    · rw [termLoop_op _ v hop, termLoop_op _ v (by rw [hc]; exact hop), hc]
      refine anyP_bind termOut_error (ext_eat C hE _ he) (fun p1' p2' hP' => ?_)
      refine anyOut_bind termOut_error ((sync C n (n + 2) (by omega)) p1' p2' hP').1
        (fun right q1 q2 hQ => ?_)
      split_ifs
      · exact (ih q1 q2 hQ).1 _
      · trivial
      · trivial
      · exact (ih q1 q2 hQ).1 _
    · rw [termLoop_stop _ v hop]
      exact fun h => absurd h he

theorem operand_term (C : Operator post T k) {n : Nat}
    (ih : OperandAt (Ext post T k) T n)
    {p1 p2 : Parser} (hE : Ext post T k p1 p2) :
    TermOut (Ext post T k) T (Parser.parseTerm (n + 1) p1)
      (Parser.parseTerm (n + 2 + 1) p2) := by
  rw [parseTerm_succ, parseTerm_succ]
  exact anyOut_bind termOut_error ((sync C n (n + 2) (by omega)) p1 p2 hE).1
    (fun v q1 q2 hQ => (ih q1 q2 hQ).1 v)

theorem operand_exprLoop (C : Operator post T k) {n : Nat}
    (ih : OperandAt (Ext post T k) T n)
    {p1 p2 : Parser} (hE : Ext post T k p1 p2) (v : Int)
    (hT : p1.current.type = .End → T.type = .Plus ∨ T.type = .Minus) :
    ExprOut (Parser.parseExprLoop (n + 1) v p1) (Parser.parseExprLoop (n + 2 + 1) v p2) := by
  by_cases he : p1.current.type = .End
  · rw [exprLoop_end n v he]
    intro _
    obtain ⟨q, hq, hqe, hc⟩ := ext_end_eat C hE he
    have hop := hT he
    rw [exprLoop_op _ v (by rw [hc]; exact hop), hc, hq]
    simp only
    rw [parseTerm_succ, factor_end _ hqe]
  · have hc := ext_cur hE he
    by_cases hop : p1.current.type = .Plus ∨ p1.current.type = .Minus
    · rw [exprLoop_op _ v hop, exprLoop_op _ v (by rw [hc]; exact hop), hc]
      refine anyP_bind exprOut_error (ext_eat C hE _ he) (fun p1' p2' hP' => ?_)
      refine termOut_bind C.op ((sync C n (n + 2) (by omega)) p1' p2' hP').2.2.1
        (ih p1' p2' hP').2.1 (fun right q1 q2 hQ hq => ?_)
      split_ifs
      · exact (ih q1 q2 hQ).2.2.1 _ hq
      · exact (ih q1 q2 hQ).2.2.1 _ hq
    · simp only [Parser.parseExprLoop, hop, if_false]
      exact fun h => absurd h he

theorem operand_expr (C : Operator post T k) {n : Nat}
    (ih : OperandAt (Ext post T k) T n)
    {p1 p2 : Parser} (hE : Ext post T k p1 p2) :
    ExprOut (Parser.parseExpr (n + 1) p1) (Parser.parseExpr (n + 2 + 1) p2) := by
  rw [parseExpr_succ, parseExpr_succ]
  exact termOut_bind C.op ((sync C n (n + 2) (by omega)) p1 p2 hE).2.2.1
    (ih p1 p2 hE).2.1 (fun v q1 q2 hQ hq => (ih q1 q2 hQ).2.2.1 v hq)

/-- At the end of the first text the second run takes the operator and finds
no operand. -/
theorem operand (C : Operator post T k) : ∀ n, OperandAt (Ext post T k) T n := by
  intro n
  induction n with
  | zero =>
    intro p1 p2 _
    simp only [Parser.parseTermLoop, Parser.parseTerm, Parser.parseExprLoop, Parser.parseExpr]
    exact ⟨fun _ => trivial, trivial, fun _ _ => trivial, trivial⟩
  | succ n ih =>
    intro p1 p2 hE
    exact ⟨operand_termLoop C ih hE, operand_term C ih hE, operand_exprLoop C ih hE,
      operand_expr C ih hE⟩

/-- A line that `parse` evaluates, followed by a text that holds one binary
operator: `parse` finds no operand. -/
theorem parse_operator (C : Operator post T k) {s : List Char} {v : Int}
    (h : parse s = .ok v) : parse (s ++ post) = .error .operandExpected := by
  simp only [parse] at h
  cases hnew : Parser.new s with
  | error e => rw [hnew] at h; cases h
  | ok p1 =>
    rw [hnew] at h
    simp only [Parser.parse] at h
    cases hrun : Parser.parseExpr (3 * p1.lexer.text.length + 3) p1 with
    | error e => rw [hrun] at h; cases h
    | ok a =>
      obtain ⟨v', q1⟩ := a
      rw [hrun] at h
      simp only at h
      by_cases hend : q1.current.type = .End
      · have hadv := advance_ext False C.first C.nodigit ⟨s, 0⟩ ⟨s ++ post, 0⟩
          (by rw [rest_zero, rest_zero])
        rw [show Parser.advance ⟨s, 0⟩ = Parser.new s from rfl, hnew] at hadv
        obtain ⟨p2, hp2, hext⟩ := hadv
        have hnew2 : Parser.new (s ++ post) = .ok p2 := hp2
        have hop := (operand C (3 * p1.lexer.text.length + 3) p1 p2 hext).2.2.2
        rw [hrun] at hop
        exact parse_of_expr_error hnew2 (hop hend) (by decide)
      · simp [hend] at h

end Operator

theorem operator_char {c : Char} (h : c = '+' ∨ c = '-' ∨ c = '*' ∨ c = '/') :
    ∃ T, Operator [c] T 1 := by
  rcases h with rfl | rfl | rfl | rfl
  · exact ⟨⟨.Plus, 0⟩, rfl, by decide, ⟨0, rfl⟩, by decide⟩
  · exact ⟨⟨.Minus, 0⟩, rfl, by decide, ⟨0, rfl⟩, by decide⟩
  · exact ⟨⟨.Star, 0⟩, rfl, by decide, ⟨0, rfl⟩, by decide⟩
  · exact ⟨⟨.Slash, 0⟩, rfl, by decide, ⟨0, rfl⟩, by decide⟩

/-! ## Tokens eaten and characters left -/

theorem eat_chars {p q : Parser} {t : TokenType} (h : p.eat t = .ok q) :
    q.lexer.rest.length ≤ p.lexer.rest.length ∧
    (q.current.type ≠ .End → q.lexer.rest.length < p.lexer.rest.length) := by
  by_cases ht : p.current.type = t
  · simp only [Parser.eat, ht, if_true] at h
    rw [advance_eq_scan] at h
    cases hsr : scan p.lexer.rest with
    | error e => rw [hsr] at h; cases h
    | ok a =>
      obtain ⟨tok, k⟩ := a
      rw [hsr] at h
      cases h
      have hc := scan_count p.lexer.rest tok k hsr
      have hr : (Lexer.rest ⟨p.lexer.text, p.lexer.pos + k⟩).length = p.lexer.rest.length - k := by
        rw [rest_add]
        exact List.length_drop _ _
      simp only [hr]
      refine ⟨by omega, fun hne => ?_⟩
      have := hc.2 hne
      omega
  · simp only [Parser.eat, ht, if_false] at h
    cases h

theorem Mono.fuel_free {f : Nat → Parser → Except Error (Int × Parser)} (hf : Mono f)
    {n m : Nat} {p : Parser} (h : f n p ≠ .error .outOfFuel) (hnm : n ≤ m) :
    f m p = f n p := by
  cases hr : f n p with
  | error e => exact hf.keep_error hr (fun he => h (by rw [hr, he])) hnm
  | ok a => exact hf.keep_ok hr hnm

/-- How `parse` ends: with a value, with an error that the program throws, or
with the process killed. -/
theorem parse_ends (s : List Char) :
    (∃ v, parse s = .ok v) ∨ (∃ e, parse s = .error e ∧ e.isThrown = true) ∨
      parse s = .error .killed := by
  cases h : parse s with
  | ok v => exact Or.inl ⟨v, rfl⟩
  | error e =>
    cases e with
    | killed => exact Or.inr (Or.inr rfl)
    | outOfFuel => exact absurd h (parse_fueled s)
    | unknownChar c => exact Or.inr (Or.inl ⟨_, rfl, rfl⟩)
    | unknownSymbol => exact Or.inr (Or.inl ⟨_, rfl, rfl⟩)
    | unexpectedToken => exact Or.inr (Or.inl ⟨_, rfl, rfl⟩)
    | operandExpected => exact Or.inr (Or.inl ⟨_, rfl, rfl⟩)
    | divisionByZero => exact Or.inr (Or.inl ⟨_, rfl, rfl⟩)

/-! ## Properties of the evaluator -/

/-- **C1**. For every expression tree built from non-negative integer literals,
unary negation and the binary operators `+ - * /`, whose intermediate values
are all within the `int` range, `parse` of the fully parenthesised text of the
tree gives the outcome of the reference evaluator: the same value when the
reference evaluator succeeds, and the division-by-zero failure exactly when the
reference evaluator meets a division whose right operand is zero. -/
theorem parse_render_refEval (e : Expr) (h : inRange e = true) :
    (∀ v, refEval e = some v → parse (render e) = .ok v) ∧
    (refEval e = none ↔ parse (render e) = .error .divisionByZero) := by
  rw [parse_render_int, evalInt_eq_refEval e h]
  cases refEval e with
  | none => simp [toResult]
  | some v => simp [toResult]

set_option maxRecDepth 100000 in
/-- Witness of **C1**: `((7)+(-(2)))/(2)` gives 2, and `(5)/((1)-(1))` fails
with division by zero. -/
theorem parse_render_refEval_witness :
    (render (.bin .div (.bin .add (.lit 7) (.neg (.lit 2))) (.lit 2))
        = "((7)+(-(2)))/(2)".toList ∧
      parse "((7)+(-(2)))/(2)".toList = .ok 2) ∧
    (render (.bin .div (.lit 5) (.bin .sub (.lit 1) (.lit 1))) = "(5)/((1)-(1))".toList ∧
      parse "(5)/((1)-(1))".toList = .error .divisionByZero) :=
  ⟨⟨by decide,
      (parse_render_refEval (.bin .div (.bin .add (.lit 7) (.neg (.lit 2))) (.lit 2)) (by decide)).1 2
        (by decide)⟩,
    ⟨by decide,
      (parse_render_refEval (.bin .div (.lit 5) (.bin .sub (.lit 1) (.lit 1))) (by decide)).2.mp
        (by decide)⟩⟩

/-- **C2**. For every non-negative integer `n` within the `int` range, `parse`
applied to the base-10 text of `n` returns exactly `n`. -/
theorem parse_decimal (n : Nat) (h : (n : Int) ≤ INT_MAX) : parse (decimal n) = .ok (n : Int) := by
  have hF := yields_factor_lit (wrap n) next_nil
  have hE := yields_expr_stop (yields_term_stop hF (by decide) (by decide)) (by decide)
    (by decide)
  have := parse_of_yields_ok (next_decimal_end n) hE rfl
  rwa [wrap_nat h] at this

/-- Witness of **C2**: `"42"` gives 42. -/
theorem parse_decimal_witness : ((42 : Nat) : Int) ≤ INT_MAX ∧ parse "42".toList = .ok 42 :=
  ⟨by decide, parse_decimal 42 (by decide)⟩

/-- **C3**. Multiplication binds tighter than addition and parentheses override
it: for literals `a`, `b`, `c` with all values within the `int` range, `parse`
of `a+b*c` returns `a + b * c`, and `parse` of `(a+b)*c` returns `(a + b) * c`. -/
theorem parse_precedence (a b c : Nat) (ha : (a : Int) ≤ INT_MAX) (hb : (b : Int) ≤ INT_MAX)
    (hc : (c : Int) ≤ INT_MAX) :
    ((a : Int) + b * c ≤ INT_MAX →
      parse (decimal a ++ "+".toList ++ decimal b ++ "*".toList ++ decimal c)
        = .ok ((a : Int) + b * c)) ∧
    ((a : Int) + b ≤ INT_MAX → ((a : Int) + b) * c ≤ INT_MAX →
      parse ("(".toList ++ decimal a ++ "+".toList ++ decimal b ++ ")".toList ++ "*".toList
          ++ decimal c)
        = .ok (((a : Int) + b) * c)) := by
  have hc_f := yields_factor_lit (wrap c) next_nil
  constructor
  · intro hsum
    show parse (decimal a ++ ['+'] ++ decimal b ++ ['*'] ++ decimal c) = _
    simp only [List.append_assoc, List.cons_append, List.nil_append]
    have hbc0 : (0 : Int) ≤ (b : Int) * c := by positivity
    have ha0 : (0 : Int) ≤ (a : Int) := by positivity
    have hb_f := yields_factor_lit (wrap b) (next_star (decimal c))
    have hbc_t := yields_term hb_f (yields_termLoop_star rfl (next_decimal_end c) hc_f
      (yields_termLoop_stop _ (by decide) (by decide)))
    have ha_f := yields_factor_lit (wrap a) (next_plus (decimal b ++ '*' :: decimal c))
    have ha_t := yields_term_stop ha_f (by decide) (by decide)
    have hloop : Yields (fun n p => Parser.parseExprLoop n (wrap a) p) (⟨.Plus, 0⟩, _) _ :=
      yields_exprLoop_plus rfl
        (next_decimal b ('*' :: decimal c) (nodigit_cons _ (by decide))) hbc_t
        (yields_exprLoop_stop _ (by decide) (by decide))
    have hE := yields_expr ha_t hloop
    have := parse_of_yields_ok (next_decimal a _ (nodigit_cons _ (by decide))) hE rfl
    have h1 : wrap ((b : Int) * c) = (b : Int) * c :=
      wrap_eq (by simp only [INT_MIN]; linarith) (by linarith)
    rw [this, wrap_nat ha, wrap_nat hb, wrap_nat hc, h1,
      wrap_eq (by simp only [INT_MIN]; linarith) hsum]
  · intro hsum hprod
    show parse (['('] ++ decimal a ++ ['+'] ++ decimal b ++ [')'] ++ ['*'] ++ decimal c) = _
    simp only [List.append_assoc, List.cons_append, List.nil_append]
    have hab0 : (0 : Int) ≤ (a : Int) + b := by positivity
    have habc0 : (0 : Int) ≤ ((a : Int) + b) * c := by positivity
    have hb_f := yields_factor_lit (wrap b) (next_rparen ('*' :: decimal c))
    have hb_t := yields_term_stop hb_f (by decide) (by decide)
    have ha_f := yields_factor_lit (wrap a) (next_plus (decimal b ++ ')' :: '*' :: decimal c))
    have ha_t := yields_term_stop ha_f (by decide) (by decide)
    have hloop : Yields (fun n p => Parser.parseExprLoop n (wrap a) p) (⟨.Plus, 0⟩, _) _ :=
      yields_exprLoop_plus rfl
        (next_decimal b (')' :: '*' :: decimal c) (nodigit_cons _ (by decide))) hb_t
        (yields_exprLoop_stop _ (by decide) (by decide))
    have hE := yields_expr ha_t hloop
    have hP : Yields Parser.parseFactor (⟨.LParen, 0⟩, _) _ :=
      yields_factor_paren rfl
        (next_decimal a _ (nodigit_cons _ (by decide))) hE rfl (next_star (decimal c))
    have hT := yields_term hP (yields_termLoop_star rfl (next_decimal_end c) hc_f
      (yields_termLoop_stop _ (by decide) (by decide)))
    have hE2 := yields_expr_stop hT (by decide) (by decide)
    have := parse_of_yields_ok (next_lparen _) hE2 rfl
    have h1 : wrap ((a : Int) + b) = (a : Int) + b :=
      wrap_eq (by simp only [INT_MIN]; linarith) hsum
    rw [this, wrap_nat ha, wrap_nat hb, wrap_nat hc, h1,
      wrap_eq (by simp only [INT_MIN]; linarith) hprod]

/-- Witness of **C3**: `"2+3*4"` gives 14 and `"(2+3)*4"` gives 20. -/
theorem parse_precedence_witness :
    parse "2+3*4".toList = .ok 14 ∧ parse "(2+3)*4".toList = .ok 20 :=
  ⟨(parse_precedence 2 3 4 (by decide) (by decide) (by decide)).1 (by decide),
    (parse_precedence 2 3 4 (by decide) (by decide) (by decide)).2 (by decide) (by decide)⟩

/-- **C4**, as amended.  Binary operators of equal precedence are
left-associative: for literals `a`, `b`, `c` within the `int` range, `parse` of
`a-b-c` returns `(a - b) - c` whenever that is not below `INT_MIN`, and when `b`
and `c` are non-zero `parse` of `a/b/c` returns `(a / b) / c`. -/
theorem parse_left_assoc (a b c : Nat) (ha : (a : Int) ≤ INT_MAX) (hb : (b : Int) ≤ INT_MAX)
    (hc : (c : Int) ≤ INT_MAX) :
    (INT_MIN ≤ (a : Int) - b - c →
      parse (decimal a ++ "-".toList ++ decimal b ++ "-".toList ++ decimal c)
        = .ok ((a : Int) - b - c)) ∧
    (b ≠ 0 → c ≠ 0 →
      parse (decimal a ++ "/".toList ++ decimal b ++ "/".toList ++ decimal c)
        = .ok ((a / b / c : Nat) : Int)) := by
  have ha0 := natCast_nonneg_int a
  have hb0 := natCast_nonneg_int b
  have hc0 := natCast_nonneg_int c
  simp only [INT_MIN, INT_MAX] at ha hb hc ha0 hb0 hc0
  constructor
  · intro hlow
    show parse (decimal a ++ ['-'] ++ decimal b ++ ['-'] ++ decimal c) = _
    simp only [List.append_assoc, List.cons_append, List.nil_append]
    have hc_t := yields_term_stop (yields_factor_lit (wrap c) next_nil) (by decide) (by decide)
    have hb_t := yields_term_stop (yields_factor_lit (wrap b) (next_minus (decimal c)))
      (by decide) (by decide)
    have ha_t := yields_term_stop
      (yields_factor_lit (wrap a) (next_minus (decimal b ++ '-' :: decimal c)))
      (by decide) (by decide)
    have hloop2 : Yields (fun n p => Parser.parseExprLoop n (wrap (wrap a - wrap b)) p)
        (⟨.Minus, 0⟩, _) _ :=
      yields_exprLoop_minus rfl (next_decimal_end c) hc_t
        (yields_exprLoop_stop _ (by decide) (by decide))
    have hloop1 : Yields (fun n p => Parser.parseExprLoop n (wrap a) p) (⟨.Minus, 0⟩, _) _ :=
      yields_exprLoop_minus rfl
        (next_decimal b ('-' :: decimal c) (nodigit_cons _ (by decide))) hb_t hloop2
    have hE := yields_expr ha_t hloop1
    have := parse_of_yields_ok (next_decimal a _ (nodigit_cons _ (by decide))) hE rfl
    simp only [INT_MIN] at hlow
    have h1 : wrap ((a : Int) - b) = (a : Int) - b :=
      wrap_eq (by simp only [INT_MIN]; omega) (by simp only [INT_MAX]; omega)
    rw [this, wrap_nat ha, wrap_nat hb, wrap_nat hc, h1,
      wrap_eq (by simp only [INT_MIN]; omega) (by simp only [INT_MAX]; omega)]
  · intro hbn hcn
    show parse (decimal a ++ ['/'] ++ decimal b ++ ['/'] ++ decimal c) = _
    simp only [List.append_assoc, List.cons_append, List.nil_append]
    have hbz : wrap (b : Int) ≠ 0 := by
      rw [wrap_nat hb]
      exact_mod_cast hbn
    have hcz : wrap (c : Int) ≠ 0 := by
      rw [wrap_nat hc]
      exact_mod_cast hcn
    have hc_f := yields_factor_lit (wrap c) next_nil
    have hb_f := yields_factor_lit (wrap b) (next_slash (decimal c))
    have ha_f := yields_factor_lit (wrap a) (next_slash (decimal b ++ '/' :: decimal c))
    have hloop2 : Yields
        (fun n p => Parser.parseTermLoop n (wrap (Int.tdiv (wrap a) (wrap b))) p)
        (⟨.Slash, 0⟩, _) _ :=
      yields_termLoop_slash rfl (next_decimal_end c) hc_f hcz (not_killed_nat _ hc)
        (yields_termLoop_stop _ (by decide) (by decide))
    have hloop1 : Yields (fun n p => Parser.parseTermLoop n (wrap a) p) (⟨.Slash, 0⟩, _) _ :=
      yields_termLoop_slash rfl
        (next_decimal b ('/' :: decimal c) (nodigit_cons _ (by decide))) hb_f hbz
        (not_killed_nat _ hb) hloop2
    have hE := yields_expr_stop (yields_term ha_f hloop1) (by decide) (by decide)
    have := parse_of_yields_ok (next_decimal a _ (nodigit_cons _ (by decide))) hE rfl
    have hab := natCast_div_le a b ha
    have h1 : wrap ((a / b : Nat) : Int) = ((a / b : Nat) : Int) := wrap_nat hab
    rw [this, wrap_nat ha, wrap_nat hb, wrap_nat hc, tdiv_natCast, h1, tdiv_natCast,
      wrap_nat (natCast_div_le (a / b) c hab)]

/-- Witness of **C4**: `"10-3-2"` gives 5 and `"100/10/2"` gives 5. -/
theorem parse_left_assoc_witness :
    parse "10-3-2".toList = .ok 5 ∧ parse "100/10/2".toList = .ok 5 :=
  ⟨(parse_left_assoc 10 3 2 (by decide) (by decide) (by decide)).1 (by decide),
    (parse_left_assoc 100 10 2 (by decide) (by decide) (by decide)).2 (by decide) (by decide)⟩

set_option maxRecDepth 100000 in
/-- Counterexample to **C4** as stated, for all literals: with `a = 0`,
`b = 2147483647`, `c = 2` the value `(a - b) - c = -2147483649` is no `int`, and
`parse` of `"0-2147483647-2"` returns 2147483647; with `a = 4294967296`, `b = 1`,
`c = 1` the value `(a / b) / c` is no `int`, and `parse` of `"4294967296/1/1"`
returns 0. -/
theorem parse_left_assoc_counterexample :
    (decimal 0 ++ "-".toList ++ decimal 2147483647 ++ "-".toList ++ decimal 2
        = "0-2147483647-2".toList ∧
      parse "0-2147483647-2".toList = .ok 2147483647 ∧
      (2147483647 : Int) ≠ (0 : Int) - 2147483647 - 2) ∧
    (decimal 4294967296 ++ "/".toList ++ decimal 1 ++ "/".toList ++ decimal 1
        = "4294967296/1/1".toList ∧
      parse "4294967296/1/1".toList = .ok 0 ∧
      (0 : Int) ≠ ((4294967296 / 1 / 1 : Nat) : Int)) :=
  ⟨⟨by decide, rfl, by decide⟩, by decide, rfl, by decide⟩

/-- **C5**, as amended.  Unary minus is right-recursive negation: for every
literal `n` within the `int` range, `parse` of `-n` returns `-n` and of `--n`
returns `n`; and for every line `s` that `parse` evaluates to a value `v` other
than `INT_MIN`, `parse` of `-(s)` returns `-v`. -/
theorem parse_unary_minus (n : Nat) (s : List Char) (v : Int) :
    ((n : Int) ≤ INT_MAX →
      parse ("-".toList ++ decimal n) = .ok (-(n : Int)) ∧
      parse ("--".toList ++ decimal n) = .ok (n : Int)) ∧
    (parse s = .ok v → v ≠ INT_MIN → parse ("-(".toList ++ s ++ ")".toList) = .ok (-v)) := by
  constructor
  · intro hn
    have hn0 := natCast_nonneg_int n
    simp only [INT_MIN, INT_MAX] at hn hn0
    have h1 : wrap (-(n : Int)) = -(n : Int) :=
      wrap_eq (by simp only [INT_MIN]; omega) (by simp only [INT_MAX]; omega)
    have hn_f := yields_factor_lit (wrap n) next_nil
    have hneg : Yields Parser.parseFactor (⟨.Minus, 0⟩, decimal n) _ :=
      yields_factor_neg rfl (next_decimal_end n) hn_f
    constructor
    · show parse ('-' :: decimal n) = _
      have hE := yields_expr_stop (yields_term_stop hneg (by decide) (by decide))
        (by decide) (by decide)
      rw [parse_of_yields_ok (next_minus _) hE rfl,
        wrap_nat (by simp only [INT_MAX]; exact hn), h1]
    · show parse ('-' :: '-' :: decimal n) = _
      have hneg2 : Yields Parser.parseFactor (⟨.Minus, 0⟩, '-' :: decimal n) _ :=
        yields_factor_neg rfl (next_minus _) hneg
      have hE := yields_expr_stop (yields_term_stop hneg2 (by decide) (by decide))
        (by decide) (by decide)
      rw [parse_of_yields_ok (next_minus _) hE rfl,
        wrap_nat (by simp only [INT_MAX]; exact hn), h1, neg_neg,
        wrap_nat (by simp only [INT_MAX]; exact hn)]
  · intro hs hv
    show parse (['-', '('] ++ s ++ [')']) = _
    simp only [List.append_assoc, List.cons_append, List.nil_append]
    have hr := parse_inInt hs
    simp only [inInt, INT_MIN, INT_MAX, Bool.and_eq_true, decide_eq_true_eq] at hr
    simp only [INT_MIN] at hv
    have hneg : Yields Parser.parseFactor (⟨.Minus, 0⟩, '(' :: (s ++ [')'])) _ :=
      yields_factor_neg rfl (next_lparen _) (yields_paren_of_parse hs next_nil)
    have hE := yields_expr_stop (yields_term_stop hneg (by decide) (by decide))
      (by decide) (by decide)
    rw [parse_of_yields_ok (next_minus _) hE rfl,
      wrap_eq (by simp only [INT_MIN]; omega) (by simp only [INT_MAX]; omega)]

/-- Witness of **C5**: `"-5"` gives -5, `"--5"` gives 5, `"-(2+3)"` gives -5. -/
theorem parse_unary_minus_witness :
    parse "-5".toList = .ok (-5) ∧ parse "--5".toList = .ok 5 ∧
    parse "2+3".toList = .ok 5 ∧ parse "-(2+3)".toList = .ok (-5) :=
  ⟨((parse_unary_minus 5 "2+3".toList 5).1 (by decide)).1,
    ((parse_unary_minus 5 "2+3".toList 5).1 (by decide)).2, rfl,
    (parse_unary_minus 5 "2+3".toList 5).2 rfl (by decide)⟩

set_option maxRecDepth 100000 in
/-- Counterexample to **C5** as stated: the line `"-2147483647-1"` evaluates to
`INT_MIN = -2147483648` with no overflow, and `"-(-2147483647-1)"` returns
-2147483648 again, not 2147483648, which is no `int`; and for the literal
`n = 3000000000`, `"-3000000000"` returns 1294967296. -/
theorem parse_unary_minus_counterexample :
    (parse "-2147483647-1".toList = .ok (-2147483648) ∧
      "-(".toList ++ "-2147483647-1".toList ++ ")".toList = "-(-2147483647-1)".toList ∧
      parse "-(-2147483647-1)".toList = .ok (-2147483648) ∧
      (-2147483648 : Int) ≠ -(-2147483648)) ∧
    ("-".toList ++ decimal 3000000000 = "-3000000000".toList ∧
      parse "-3000000000".toList = .ok 1294967296 ∧
      (1294967296 : Int) ≠ -((3000000000 : Nat) : Int)) :=
  ⟨⟨rfl, by decide, rfl, by decide⟩, by decide, rfl, by decide⟩

/-- **C6**, as amended.  Division truncates toward zero: for a literal `a` and a
positive literal `b`, both within the `int` range, `parse` of `a/b` returns the
quotient of `a` by `b` rounded down, and `parse` of `-a/b` returns the negation
of that quotient. -/
theorem parse_div_trunc (a b : Nat) (ha : (a : Int) ≤ INT_MAX) (hb : (b : Int) ≤ INT_MAX)
    (hb0 : 0 < b) :
    parse (decimal a ++ "/".toList ++ decimal b) = .ok ((a / b : Nat) : Int) ∧
    parse ("-".toList ++ decimal a ++ "/".toList ++ decimal b) = .ok (-((a / b : Nat) : Int)) := by
  have ha0 := natCast_nonneg_int a
  have hbz : wrap (b : Int) ≠ 0 := by
    rw [wrap_nat hb]
    exact_mod_cast (Nat.pos_iff_ne_zero.mp hb0)
  have hb_f := yields_factor_lit (wrap b) next_nil
  have ha_f := yields_factor_lit (wrap a) (next_slash (decimal b))
  have hab := natCast_div_le a b ha
  constructor
  · show parse (decimal a ++ ['/'] ++ decimal b) = _
    simp only [List.append_assoc, List.cons_append, List.nil_append]
    have hloop : Yields (fun n p => Parser.parseTermLoop n (wrap a) p) (⟨.Slash, 0⟩, _) _ :=
      yields_termLoop_slash rfl (next_decimal_end b) hb_f hbz (not_killed_nat _ hb)
        (yields_termLoop_stop _ (by decide) (by decide))
    have hE := yields_expr_stop (yields_term ha_f hloop) (by decide) (by decide)
    have := parse_of_yields_ok (next_decimal a _ (nodigit_cons _ (by decide))) hE rfl
    rw [this, wrap_nat ha, wrap_nat hb, tdiv_natCast, wrap_nat hab]
  · show parse (['-'] ++ decimal a ++ ['/'] ++ decimal b) = _
    simp only [List.append_assoc, List.cons_append, List.nil_append]
    have hneg : Yields Parser.parseFactor (⟨.Minus, 0⟩, _) _ :=
      yields_factor_neg rfl (next_decimal a ('/' :: decimal b) (nodigit_cons _ (by decide)))
        ha_f
    have hloop : Yields (fun n p => Parser.parseTermLoop n (wrap (-wrap a)) p)
        (⟨.Slash, 0⟩, _) _ :=
      yields_termLoop_slash rfl (next_decimal_end b) hb_f hbz (not_killed_nat _ hb)
        (yields_termLoop_stop _ (by decide) (by decide))
    have hE := yields_expr_stop (yields_term hneg hloop) (by decide) (by decide)
    have := parse_of_yields_ok (next_minus _) hE rfl
    have hq0 := natCast_nonneg_int (a / b)
    simp only [INT_MIN, INT_MAX] at ha ha0 hab hq0
    have h1 : wrap (-(a : Int)) = -(a : Int) :=
      wrap_eq (by simp only [INT_MIN]; omega) (by simp only [INT_MAX]; omega)
    have hq1 : (0 : Int) ≤ ((a / b : Nat) : Int) := Int.natCast_nonneg _
    have h2 : wrap (-((a / b : Nat) : Int)) = -((a / b : Nat) : Int) :=
      wrap_eq (by simp only [INT_MIN]; linarith) (by simp only [INT_MAX]; linarith)
    rw [this, wrap_nat (by simp only [INT_MAX]; exact ha), wrap_nat hb, h1, Int.neg_tdiv,
      tdiv_natCast, h2]

/-- Witness of **C6**: `"7/2"` gives 3 and `"-7/2"` gives -3 (the floor of
`-7/2` is -4). -/
theorem parse_div_trunc_witness :
    parse "7/2".toList = .ok 3 ∧ parse "-7/2".toList = .ok (-3) :=
  parse_div_trunc 7 2 (by decide) (by decide) (by decide)

set_option maxRecDepth 100000 in
/-- Counterexample to **C6** as stated, for all literals: the quotient of
`a = 4294967296` by `b = 1` is no `int`, and `parse` of `"4294967296/1"`
returns 0. -/
theorem parse_div_trunc_counterexample :
    decimal 4294967296 ++ "/".toList ++ decimal 1 = "4294967296/1".toList ∧
    parse "4294967296/1".toList = .ok 0 ∧
    (0 : Int) ≠ ((4294967296 / 1 : Nat) : Int) :=
  ⟨by decide, rfl, by decide⟩

/-- **C7**. Division by zero is an error and produces no result: for every line
`s1` that `parse` evaluates and every line `s2` that `parse` evaluates to 0,
`parse` of `(s1)/(s2)` fails with the division-by-zero error; and `a/0` fails
with it for every literal `a`. -/
theorem parse_div_zero (s1 s2 : List Char) (v1 : Int) (a : Nat) :
    (parse s1 = .ok v1 → parse s2 = .ok 0 →
      parse ("(".toList ++ s1 ++ ")/(".toList ++ s2 ++ ")".toList)
        = .error .divisionByZero) ∧
    parse (decimal a ++ "/0".toList) = .error .divisionByZero := by
  constructor
  · intro h1 h2
    show parse (['('] ++ s1 ++ [')', '/', '('] ++ s2 ++ [')']) = _
    simp only [List.append_assoc, List.cons_append, List.nil_append]
    have hF1 := yields_paren_of_parse h1 (next_slash ('(' :: (s2 ++ [')'])))
    have hF2 := yields_paren_of_parse h2 next_nil
    have hL : Yields (fun n p => Parser.parseTermLoop n v1 p) (⟨.Slash, 0⟩, _) _ :=
      yields_termLoop_divzero rfl (next_lparen _) hF2
    exact parse_of_yields_error (next_lparen _) (yields_expr_error (yields_term hF1 hL))
  · show parse (decimal a ++ ['/', '0']) = _
    have hF := yields_factor_lit (wrap a) (next_slash ['0'])
    have h0 : Next ['0'] ⟨.Number, 0⟩ [] := next_decimal_end 0
    have hL : Yields (fun n p => Parser.parseTermLoop n (wrap a) p) (⟨.Slash, 0⟩, _) _ :=
      yields_termLoop_divzero rfl h0 (yields_factor_lit 0 next_nil)
    exact parse_of_yields_error (next_decimal a _ (nodigit_cons _ (by decide)))
      (yields_expr_error (yields_term hF hL))

/-- Witness of **C7**: `"(5)/(0)"` and `"5/0"` fail with division by zero. -/
theorem parse_div_zero_witness :
    parse "5".toList = .ok 5 ∧ parse "0".toList = .ok 0 ∧
    parse "(5)/(0)".toList = .error .divisionByZero ∧
    parse "5/0".toList = .error .divisionByZero :=
  ⟨rfl, rfl, (parse_div_zero "5".toList "0".toList 5 5).1 rfl rfl,
    (parse_div_zero "5".toList "0".toList 5 5).2⟩

/-- **C8**. A missing closing parenthesis is a syntax error: for every line `s`
that `parse` evaluates, `parse` of `(` followed by `s` returns no value and
fails in `eat`, with the message `Syntax error: unexpected token`. -/
theorem parse_unclosed (s : List Char) (v : Int) (h : parse s = .ok v) :
    parse ("(".toList ++ s) = .error .unexpectedToken ∧
    Error.isSyntaxError .unexpectedToken = true ∧
    Error.what .unexpectedToken = "Syntax error: unexpected token" := by
  refine ⟨?_, by decide, rfl⟩
  show parse ('(' :: s) = _
  obtain ⟨t1, r1, hN1, hY⟩ := parse_ok_ext h next_nil nodigit_nil stop_end
  rw [List.append_nil] at hN1
  have hF : Yields Parser.parseFactor (⟨.LParen, 0⟩, s) _ :=
    yields_factor_unclosed rfl hN1 hY (by decide)
  exact parse_of_yields_error (next_lparen _) (yields_expr_error (yields_term_error hF))

/-- Witness of **C8**: `"(2+3"`. -/
theorem parse_unclosed_witness :
    parse "2+3".toList = .ok 5 ∧ parse "(2+3".toList = .error .unexpectedToken :=
  ⟨rfl, (parse_unclosed "2+3".toList 5 rfl).1⟩

/-- **C9**. Unconsumed tokens after a complete expression are rejected with
the error that `Parser::parse` throws for trailing input, the syntax error
"unexpected trailing input" of the specification (the message in the code is
`Unknown symbol`): for every line `s` that `parse` evaluates and every literal
`n`, `parse` of `s` followed by `)` and of `s` followed by a space and `n` both
fail with it. -/
theorem parse_trailing (s : List Char) (v : Int) (n : Nat) (h : parse s = .ok v) :
    parse (s ++ ")".toList) = .error .unknownSymbol ∧
    parse (s ++ " ".toList ++ decimal n) = .error .unknownSymbol ∧
    Error.what .unknownSymbol = "Unknown symbol" := by
  refine ⟨?_, ?_, rfl⟩
  · show parse (s ++ [')']) = _
    obtain ⟨t1, r1, hN1, hY⟩ :=
      parse_ok_ext h (next_rparen []) (nodigit_cons _ (by decide)) stop_rparen
    exact parse_of_yields_trailing hN1 hY (by decide)
  · show parse (s ++ [' '] ++ decimal n) = _
    simp only [List.append_assoc, List.cons_append, List.nil_append]
    have hsp : Next (' ' :: decimal n) ⟨.Number, wrap n⟩ [] :=
      next_space (by decide) (next_decimal_end n)
    have hnd : ∀ c ∈ (' ' :: decimal n).head?, isdigit c = false :=
      nodigit_cons _ (by decide)
    obtain ⟨t1, r1, hN1, hY⟩ := parse_ok_ext h hsp hnd (stop_number _)
    exact parse_of_yields_trailing hN1 hY (by simp)

/-- Witness of **C9**: `"2 3"`, `"2)"` and `"2+3)"` fail with the error of
`Parser::parse`. -/
theorem parse_trailing_witness :
    parse "2".toList = .ok 2 ∧ parse "2+3".toList = .ok 5 ∧
    parse "2 3".toList = .error .unknownSymbol ∧
    parse "2)".toList = .error .unknownSymbol ∧
    parse "2+3)".toList = .error .unknownSymbol :=
  ⟨rfl, rfl, (parse_trailing "2".toList 2 3 rfl).2.1, (parse_trailing "2".toList 2 3 rfl).1,
    (parse_trailing "2+3".toList 5 3 rfl).1⟩

/-- **C10**, as amended.  An unrecognized character is an error that carries
the character: whenever the first character at the cursor that is no white
space is neither a decimal digit nor one of `+ - * / ( )`,
`Lexer::getNextToken` fails with the error for that character, whose message
as `what()` returns it contains the character unless the character is NUL,
where the message ends before it; and for every literal `n` and every such
character `c`, `parse` of `n+c` fails with that error for `c`. -/
theorem unknown_char (lx : Lexer) (ws : List Char) (c : Char) (r : List Char) (n : Nat)
    (hs : isspace c = false) (hd : isdigit c = false)
    (hop : c ∉ ['+', '-', '*', '/', '(', ')']) :
    (lx.rest = ws ++ c :: r → (∀ w ∈ ws, isspace w = true) →
      lx.getNextToken = .error (.unknownChar c)) ∧
    (c.toNat ≠ 0 → c ∈ (Error.what (.unknownChar c)).toList) ∧
    (c.toNat = 0 → (Error.what (.unknownChar c)).toList = unknownCharPrefix) ∧
    parse (decimal n ++ "+".toList ++ [c]) = .error (.unknownChar c) := by
  refine ⟨?_, ?_, ?_, ?_⟩
  · intro hrest hws
    rw [getNextToken_eq_scan, hrest, scan_unknown ws c r hws hs hd hop]
  · intro hc
    rw [what_unknownChar]
    simp [hc]
  · intro hc
    rw [what_unknownChar]
    simp [hc]
  · show parse (decimal n ++ ['+'] ++ [c]) = _
    simp only [List.append_assoc, List.cons_append, List.nil_append]
    have hF := yields_factor_lit (wrap n) (next_plus [c])
    have hT := yields_term_stop hF (by decide) (by decide)
    have hsc : scan [c] = .error (.unknownChar c) := scan_unknown [] c [] (by simp) hs hd hop
    have hL : Yields (fun k p => Parser.parseExprLoop k (wrap n) p) (⟨.Plus, 0⟩, [c]) _ :=
      yields_exprLoop_eat_error (Or.inl rfl) hsc
    exact parse_of_yields_error (next_decimal n _ (nodigit_cons _ (by decide)))
      (yields_expr hT hL)

/-- Witness of **C10**: `"2+@"` fails with the error for `@`, whose message
contains `@`. -/
theorem unknown_char_witness :
    Lexer.getNextToken ⟨"2+ @".toList, 2⟩ = .error (.unknownChar '@') ∧
    '@' ∈ (Error.what (.unknownChar '@')).toList ∧
    parse "2+@".toList = .error (.unknownChar '@') :=
  ⟨(unknown_char ⟨"2+ @".toList, 2⟩ [' '] '@' [] 2 (by decide) (by decide) (by decide)).1
      rfl (by decide),
    (unknown_char ⟨"2+ @".toList, 2⟩ [' '] '@' [] 2 (by decide) (by decide) (by decide)).2.1
      (by decide),
    (unknown_char ⟨"2+ @".toList, 2⟩ [' '] '@' [] 2 (by decide) (by decide)
      (by decide)).2.2.2⟩

/-- Counterexample to **C10** as stated: the NUL character is no white space,
no digit and no operator, `getNextToken` fails on it, and the message as
`what()` returns it ends before the NUL: it does not contain the character. -/
theorem unknown_char_counterexample :
    isspace (Char.ofNat 0) = false ∧ isdigit (Char.ofNat 0) = false ∧
    Lexer.getNextToken ⟨[Char.ofNat 0], 0⟩ = .error (.unknownChar (Char.ofNat 0)) ∧
    parse ("2+".toList ++ [Char.ofNat 0]) = .error (.unknownChar (Char.ofNat 0)) ∧
    (Error.what (.unknownChar (Char.ofNat 0))).toList = unknownCharPrefix ∧
    Char.ofNat 0 ∉ (Error.what (.unknownChar (Char.ofNat 0))).toList :=
  ⟨by decide, by decide, rfl, rfl, by decide, by decide⟩

/-- **C11**. White space between tokens does not change the outcome: when the
line `s2` is the line `s1` with white space characters inserted anywhere but
between two adjacent digits, `parse` returns on `s2` what it returns on `s1`,
the same value or the same error. -/
theorem parse_ws_insert (s1 s2 : List Char) (h : WsInserted false s1 s2) :
    parse s2 = parse s1 := by
  have hadv := advance_ws (show WsInserted false (Lexer.rest ⟨s1, 0⟩) (Lexer.rest ⟨s2, 0⟩) by
    rw [rest_zero, rest_zero]; exact h)
  cases hnew1 : Parser.new s1 with
  | error e =>
    have hne : e ≠ .outOfFuel := by
      intro he
      rw [he] at hnew1
      exact (advance_fine ⟨s1, 0⟩).1 hnew1
    rw [Parser.new] at hnew1
    rw [hnew1] at hadv
    have h2 := hadv ⟨hne, Or.inl trivial⟩
    simp only [parse, Parser.new, hnew1, h2]
  | ok p1 =>
    have hnew1' := hnew1
    rw [Parser.new] at hnew1'
    rw [hnew1'] at hadv
    obtain ⟨p2, hnew2, hP⟩ := hadv
    have hnew2' : Parser.new s2 = .ok p2 := hnew2
    have hsize : p1.size < s1.length + 1 := by
      have := (advance_fine ⟨s1, 0⟩).2 p1 hnew1'
      rwa [rest_zero] at this
    have hfine := ((fuel_enough (3 * s1.length + 3) p1).2.2.2.2 (by omega)).1
    have hsim := (simulation simulation_ws (3 * s1.length + 3) (3 * s1.length + 3)
      (Nat.le_refl _) p1 p2 hP).2.2.2.2
    cases hr : Parser.parseExpr (3 * s1.length + 3) p1 with
    | error e =>
      rw [hr] at hsim hfine
      have hne : e ≠ .outOfFuel := fun he => hfine (by rw [he])
      have h2 := hsim ⟨hne, Or.inl trivial⟩
      rw [parse_of_expr_error hnew1 hr hne, parse_of_expr_error hnew2' h2 hne]
    | ok a =>
      obtain ⟨v, q1⟩ := a
      rw [hr] at hsim
      obtain ⟨q2, h2, hq⟩ := hsim
      rw [parse_of_expr_ok hnew1 hr, parse_of_expr_ok hnew2' h2, hq.1]

/-- Witness of **C11**: `"  2  +  3 "` and `"2+3"` both give 5. -/
theorem parse_ws_insert_witness :
    WsInserted false "2+3".toList "  2  +  3 ".toList ∧
    parse "  2  +  3 ".toList = parse "2+3".toList ∧ parse "2+3".toList = .ok 5 :=
  have h : WsInserted false "2+3".toList "  2  +  3 ".toList :=
    .ins _ ' ' (by decide) (by decide) (.ins _ ' ' (by decide) (by decide) (.keep _ '2'
    (.ins _ ' ' (by decide) (by decide) (.ins _ ' ' (by decide) (by decide) (.keep _ '+'
    (.ins _ ' ' (by decide) (by decide) (.ins _ ' ' (by decide) (by decide) (.keep _ '3'
    (.ins _ ' ' (by decide) (by decide) (.nil _))))))))))
  ⟨h, parse_ws_insert _ _ h, rfl⟩

/-- **C12**. Where an operand is required and the lookahead is not `Number`,
`LParen` or `Minus`, `parseFactor` fails with the error whose message is
`Syntax error: operand expected`; `parse` of a line of white space only (the
empty line included) fails with it, and so does `parse` of `s` followed by one
of the operators `+ - * /`, for every line `s` that `parse` evaluates. -/
theorem parse_operand_expected (s : List Char) (v : Int) (op : Char) (n : Nat) (p : Parser) :
    (p.current.type ≠ .Number → p.current.type ≠ .LParen → p.current.type ≠ .Minus →
      Parser.parseFactor (n + 1) p = .error .operandExpected) ∧
    Error.isSyntaxError .operandExpected = true ∧
    Error.what .operandExpected = "Syntax error: operand expected" ∧
    ((∀ c ∈ s, isspace c = true) → parse s = .error .operandExpected) ∧
    (parse s = .ok v → op ∈ ['+', '-', '*', '/'] →
      parse (s ++ [op]) = .error .operandExpected) := by
  refine ⟨?_, by decide, rfl, ?_, ?_⟩
  · intro h1 h2 h3
    simp only [Parser.parseFactor]
  · intro hs
    have hnew : Parser.new s = .ok ⟨⟨s, 0 + s.length⟩, ⟨.End, 0⟩⟩ := by
      rw [new_eq_scan, scan_spaces s hs]
    have hrun : Parser.parseExpr (0 + 1 + 1 + 1) ⟨⟨s, 0 + s.length⟩, ⟨.End, 0⟩⟩ =
        .error .operandExpected := by
      rw [parseExpr_succ, parseTerm_succ, factor_end 0 (by rfl)]
    exact parse_of_expr_error hnew hrun (by decide)
  · intro h hop
    obtain ⟨T, C⟩ := operator_char (by simpa using hop)
    exact parse_operator C h

/-- Witness of **C12**: the empty line, `"  "`, `"2+3*"`, and `parseFactor`
at the lookahead `)`. -/
theorem parse_operand_expected_witness :
    Parser.parseFactor 1 ⟨⟨")".toList, 1⟩, ⟨.RParen, 0⟩⟩ = .error .operandExpected ∧
    parse [] = .error .operandExpected ∧
    parse "  ".toList = .error .operandExpected ∧
    parse "2+3".toList = .ok 5 ∧
    parse "2+3*".toList = .error .operandExpected :=
  ⟨(parse_operand_expected [] 0 '*' 0 ⟨⟨")".toList, 1⟩, ⟨.RParen, 0⟩⟩).1
      (by decide) (by decide) (by decide),
    (parse_operand_expected [] 0 '*' 0 ⟨⟨[], 0⟩, ⟨.End, 0⟩⟩).2.2.2.1 (by simp),
    (parse_operand_expected "  ".toList 0 '*' 0 ⟨⟨[], 0⟩, ⟨.End, 0⟩⟩).2.2.2.1 (by decide),
    rfl,
    (parse_operand_expected "2+3".toList 5 '*' 0 ⟨⟨[], 0⟩, ⟨.End, 0⟩⟩).2.2.2.2 rfl
      (by decide)⟩

/-- **C13**. The cursor invariant of the tokenizer: in every state of the
`Lexer` of a text the cursor is at most the text length; a call of
`getNextToken`, whether it returns a token or throws, never decreases the
cursor and never moves it past the end; a call that returns a token other than
`End` strictly increases it; and when only white space is left from the cursor
on, the call returns `End` with the cursor at the end of the text. -/
theorem lexer_cursor (text : List Char) (lx : Lexer) (h : Lexer.Reachable text lx) :
    lx.text = text ∧ lx.pos ≤ text.length ∧
    lx.pos ≤ lx.cursorAfter ∧ lx.cursorAfter ≤ text.length ∧
    (∀ t lx', lx.getNextToken = .ok (t, lx') →
      lx'.text = text ∧ lx'.pos = lx.cursorAfter ∧ (t.type ≠ .End → lx.pos < lx'.pos)) ∧
    ((∀ c ∈ lx.text.drop lx.pos, isspace c = true) →
      lx.getNextToken = .ok (⟨.End, 0⟩, ⟨text, text.length⟩)) := by
  obtain ⟨htext, hpos⟩ := reachable_inv h
  have hlen := scanLen_le lx.rest
  rw [rest_length, htext] at hlen
  refine ⟨htext, hpos, ?_, ?_, ?_, ?_⟩
  · rw [cursorAfter_eq]
    omega
  · rw [cursorAfter_eq]
    omega
  · intro t lx' hcall
    obtain ⟨k, hs, rfl⟩ := getNextToken_ok lx hcall
    have hk := scan_scanLen lx.rest t k hs
    refine ⟨htext, ?_, ?_⟩
    · rw [cursorAfter_eq, hk]
    · intro ht
      have := (scan_count lx.rest t k hs).2 ht
      show lx.pos < lx.pos + k
      omega
  · intro hws
    rw [getNextToken_eq_scan, scan_spaces lx.rest hws, rest_length, htext]
    simp only [Except.ok.injEq, Prod.mk.injEq, Lexer.mk.injEq, true_and]
    omega

/-- Witness of **C13**: the state after the first token of `"2 + "`. -/
theorem lexer_cursor_witness :
    Lexer.Reachable "2 + ".toList ⟨"2 + ".toList, 1⟩ ∧
    Lexer.cursorAfter ⟨"2 + ".toList, 1⟩ = 3 ∧
    Lexer.getNextToken ⟨"2 + ".toList, 3⟩ = .ok (⟨.End, 0⟩, ⟨"2 + ".toList, 4⟩) :=
  have hr : Lexer.Reachable "2 + ".toList ⟨"2 + ".toList, 1⟩ :=
    Lexer.Reachable.step Lexer.Reachable.init rfl
  have hr3 : Lexer.Reachable "2 + ".toList ⟨"2 + ".toList, 3⟩ :=
    Lexer.Reachable.step hr rfl
  ⟨hr, ((lexer_cursor _ _ hr).2.2.2.2.1 ⟨.Plus, 0⟩ ⟨"2 + ".toList, 3⟩ rfl).2.1.symm,
    (lexer_cursor _ _ hr3).2.2.2.2.2 (by decide)⟩

/-- **C14**, as amended.  `parse` ends on every line: with a value, with an
error that the program throws, or with the process killed at a division of
`INT_MIN` by `-1`.  The budget of the recursion never runs out, and from the
budget `3 * size + 3` on the result of `parseExpr`, `parseTerm` and
`parseFactor` does not depend on the budget.  Every recursive call and every
round of a loop comes after an `eat` of a token that is not `End`, and such an
`eat` makes the state smaller, where the size is the number of characters
after the cursor plus one for a lookahead that is not `End`; the characters
after the cursor alone never get more, and get fewer whenever the token
fetched is not `End`.  A parsing function that returns leaves a smaller
state. -/
theorem parse_total (s : List Char) (p q : Parser) (n m : Nat) (t : TokenType) (v : Int) :
    ((∃ w, parse s = .ok w) ∨ (∃ e, parse s = .error e ∧ e.isThrown = true) ∨
      parse s = .error .killed) ∧
    (3 * p.size + 3 ≤ n → n ≤ m →
      Parser.parseExpr n p ≠ .error .outOfFuel ∧
      Parser.parseTerm n p ≠ .error .outOfFuel ∧
      Parser.parseFactor n p ≠ .error .outOfFuel ∧
      Parser.parseExpr m p = Parser.parseExpr n p ∧
      Parser.parseTerm m p = Parser.parseTerm n p ∧
      Parser.parseFactor m p = Parser.parseFactor n p) ∧
    (t ≠ .End → p.eat t = .ok q →
      q.size < p.size ∧ q.lexer.rest.length ≤ p.lexer.rest.length ∧
      (q.current.type ≠ .End → q.lexer.rest.length < p.lexer.rest.length)) ∧
    (Parser.parseFactor n p = .ok (v, q) ∨ Parser.parseTerm n p = .ok (v, q) ∨
      Parser.parseExpr n p = .ok (v, q) → q.size < p.size) := by
  refine ⟨parse_ends s, ?_, ?_, ?_⟩
  · intro hn hnm
    have hF := fuel_enough n p
    have h1 := (hF.2.2.2.2 (by omega)).1
    have h2 := (hF.2.2.1 (by omega)).1
    have h3 := (hF.1 (by omega)).1
    exact ⟨h1, h2, h3, mono_expr.fuel_free h1 hnm, mono_term.fuel_free h2 hnm,
      mono_factor.fuel_free h3 hnm⟩
  · intro ht h
    exact ⟨(eat_fine p t ht).2 q h, eat_chars h⟩
  · intro h
    have hF := fuel_enough (max n (3 * p.size + 3)) p
    have hle : n ≤ max n (3 * p.size + 3) := Nat.le_max_left _ _
    have hge : 3 * p.size + 3 ≤ max n (3 * p.size + 3) := Nat.le_max_right _ _
    rcases h with h | h | h
    · exact (hF.1 (by omega)).2 v q (mono_factor.keep_ok h hle)
    · exact (hF.2.2.1 (by omega)).2 v q (mono_term.keep_ok h hle)
    · exact (hF.2.2.2.2 (by omega)).2 v q (mono_expr.keep_ok h hle)

/-- Witness of **C14**: the line `"(1+2)*3"`, whose state after the
constructor has size 7, with the budgets 24 and 30. -/
theorem parse_total_witness :
    ((∃ w, parse "(1+2)*3".toList = .ok w) ∨
      (∃ e, parse "(1+2)*3".toList = .error e ∧ e.isThrown = true) ∨
      parse "(1+2)*3".toList = .error .killed) ∧
    Parser.parseExpr 30 ⟨⟨"(1+2)*3".toList, 1⟩, ⟨.LParen, 0⟩⟩ =
      Parser.parseExpr 24 ⟨⟨"(1+2)*3".toList, 1⟩, ⟨.LParen, 0⟩⟩ ∧
    Parser.size ⟨⟨"(1+2)*3".toList, 2⟩, ⟨.Number, 1⟩⟩ <
      Parser.size ⟨⟨"(1+2)*3".toList, 1⟩, ⟨.LParen, 0⟩⟩ ∧
    Parser.size ⟨⟨"(1+2)*3".toList, 7⟩, ⟨.End, 0⟩⟩ <
      Parser.size ⟨⟨"(1+2)*3".toList, 1⟩, ⟨.LParen, 0⟩⟩ :=
  ⟨(parse_total "(1+2)*3".toList ⟨⟨"(1+2)*3".toList, 1⟩, ⟨.LParen, 0⟩⟩
      ⟨⟨"(1+2)*3".toList, 2⟩, ⟨.Number, 1⟩⟩ 24 30 .LParen 0).1,
    ((parse_total "(1+2)*3".toList ⟨⟨"(1+2)*3".toList, 1⟩, ⟨.LParen, 0⟩⟩
      ⟨⟨"(1+2)*3".toList, 2⟩, ⟨.Number, 1⟩⟩ 24 30 .LParen 0).2.1
      (by decide) (by decide)).2.2.2.1,
    ((parse_total "(1+2)*3".toList ⟨⟨"(1+2)*3".toList, 1⟩, ⟨.LParen, 0⟩⟩
      ⟨⟨"(1+2)*3".toList, 2⟩, ⟨.Number, 1⟩⟩ 24 30 .LParen 0).2.2.1
      (by decide) rfl).1,
    (parse_total "(1+2)*3".toList ⟨⟨"(1+2)*3".toList, 1⟩, ⟨.LParen, 0⟩⟩
      ⟨⟨"(1+2)*3".toList, 7⟩, ⟨.End, 0⟩⟩ 24 30 .LParen 9).2.2.2 (Or.inr (Or.inr rfl))⟩

set_option maxRecDepth 100000 in
/-- Counterexample to **C14** as stated.  On the line `"("` the recursive call
of `parseExpr` comes after `eat(LParen)`, which fetches `End` and leaves the
cursor where it was, with no character after it before and after.  On the
line `"(-2147483647-1)/ -1"` the run ends with neither a value nor an error:
the process is killed at the division. -/
theorem parse_total_counterexample :
    (Parser.new "(".toList = .ok ⟨⟨"(".toList, 1⟩, ⟨.LParen, 0⟩⟩ ∧
      Parser.eat ⟨⟨"(".toList, 1⟩, ⟨.LParen, 0⟩⟩ .LParen = .ok ⟨⟨"(".toList, 1⟩, ⟨.End, 0⟩⟩ ∧
      (Lexer.rest ⟨"(".toList, 1⟩).length = 0 ∧
      parse "(".toList = .error .operandExpected) ∧
    (parse "(-2147483647-1)/ -1".toList = .error .killed ∧
      Error.isThrown .killed = false) :=
  ⟨⟨rfl, rfl, rfl, rfl⟩, rfl, rfl⟩

/-- **C15**. `Parser::eat` advances only on a match: if the kind of the
lookahead equals the expected kind, `eat` fetches the next token of the `Lexer`
into the lookahead; otherwise it fails with the syntax error
`unexpected token` and leaves the lookahead and the cursor of the `Lexer`
unchanged. -/
theorem eat_match (p : Parser) (expected : TokenType) :
    (p.current.type = expected →
      p.eat expected = Parser.advance p.lexer ∧
      ∀ tok lx, p.lexer.getNextToken = .ok (tok, lx) →
        p.eat expected = .ok ⟨lx, tok⟩ ∧ p.afterEat expected = ⟨lx, tok⟩) ∧
    (p.current.type ≠ expected →
      p.eat expected = .error .unexpectedToken ∧
      Error.what .unexpectedToken = "Syntax error: unexpected token" ∧
      Error.isSyntaxError .unexpectedToken = true ∧
      (p.afterEat expected).current = p.current ∧
      (p.afterEat expected).lexer.pos = p.lexer.pos ∧
      p.afterEat expected = p) := by
  constructor
  · intro h
    refine ⟨by simp only [Parser.eat, h, if_true], fun tok lx hcall => ?_⟩
    simp only [Parser.eat, Parser.afterEat, h, if_true, Parser.advance, hcall, and_self]
  · intro h
    have ha : p.afterEat expected = p := by simp only [Parser.afterEat, h, if_false]
    refine ⟨by simp only [Parser.eat, h, if_false], rfl, by decide, ?_, ?_, ha⟩
    · rw [ha]
    · rw [ha]

/-- Witness of **C15**: on `"2+3"` the lookahead is `Number`; `eat(Number)`
fetches `+`, and `eat(RParen)` fails and changes nothing. -/
theorem eat_match_witness :
    Parser.eat ⟨⟨"2+3".toList, 1⟩, ⟨.Number, 2⟩⟩ .Number
      = .ok ⟨⟨"2+3".toList, 2⟩, ⟨.Plus, 0⟩⟩ ∧
    Parser.eat ⟨⟨"2+3".toList, 1⟩, ⟨.Number, 2⟩⟩ .RParen = .error .unexpectedToken ∧
    Parser.afterEat ⟨⟨"2+3".toList, 1⟩, ⟨.Number, 2⟩⟩ .RParen
      = ⟨⟨"2+3".toList, 1⟩, ⟨.Number, 2⟩⟩ :=
  ⟨(((eat_match ⟨⟨"2+3".toList, 1⟩, ⟨.Number, 2⟩⟩ .Number).1 rfl).2 _ _ rfl).1,
    ((eat_match ⟨⟨"2+3".toList, 1⟩, ⟨.Number, 2⟩⟩ .RParen).2 (by decide)).1,
    ((eat_match ⟨⟨"2+3".toList, 1⟩, ⟨.Number, 2⟩⟩ .RParen).2 (by decide)).2.2.2.2.2⟩

/-- **C16**, as amended.  `parse` returns a value only on lines of accepted
characters: when `parse` returns a value, every character of the line is white
space, a decimal digit, or one of `+ - * / ( )`; a line with any other
character anywhere returns no value: it fails with an error that the program
throws, or the process is killed at a division of `INT_MIN` by `-1` that comes
before the character is reached. -/
theorem parse_legal (s : List Char) :
    (∀ v, parse s = .ok v → ∀ c ∈ s, legalChar c = true) ∧
    ((∃ c ∈ s, legalChar c = false) →
      (∃ e, parse s = .error e ∧ e.isThrown = true) ∨ parse s = .error .killed) := by
  refine ⟨fun v h => parse_ok_scanned h, ?_⟩
  rintro ⟨c, hc, hl⟩
  rcases parse_ends s with ⟨v, hv⟩ | h
  · have := parse_ok_scanned hv c hc
    rw [hl] at this
    cases this
  · exact h

/-- Witness of **C16**: `"2 + 3"` has accepted characters only; `"2 + 3 @"`
fails with the error for `@` although the evaluation is complete before it. -/
theorem parse_legal_witness :
    parse "2 + 3".toList = .ok 5 ∧ legalChar '+' = true ∧
    ((∃ e, parse "2 + 3 @".toList = .error e ∧ e.isThrown = true) ∨
      parse "2 + 3 @".toList = .error .killed) ∧
    parse "2 + 3 @".toList = .error (.unknownChar '@') :=
  ⟨rfl, (parse_legal "2 + 3".toList).1 5 rfl '+' (by decide),
    (parse_legal "2 + 3 @".toList).2 ⟨'@', by decide, by decide⟩, rfl⟩

set_option maxRecDepth 100000 in
/-- Counterexample to **C16** as stated: the line `"(-2147483647-1)/ -1+@"`
holds the character `@`, and `parse` ends with no error: the process is
killed at the division, before `@` is fetched. -/
theorem parse_legal_counterexample :
    '@' ∈ "(-2147483647-1)/ -1+@".toList ∧ legalChar '@' = false ∧
    parse "(-2147483647-1)/ -1+@".toList = .error .killed ∧
    Error.isThrown .killed = false :=
  ⟨by decide, by decide, rfl, rfl⟩

/-- **C17**. Wrapping in parentheses preserves the value: for every line `s`
that `parse` evaluates to `v`, `parse` of `(s)` returns `v`. -/
theorem parse_paren (s : List Char) (v : Int) (h : parse s = .ok v) :
    parse ("(".toList ++ s ++ ")".toList) = .ok v := by
  show parse (['('] ++ s ++ [')']) = _
  simp only [List.append_assoc, List.cons_append, List.nil_append]
  have hF := yields_paren_of_parse h next_nil
  exact parse_of_yields_ok (next_lparen _)
    (yields_expr_stop (yields_term_stop hF (by decide) (by decide)) (by decide) (by decide))
    rfl

/-- Witness of **C17**: `"(2+3)"` gives 5, as `"2+3"` does. -/
theorem parse_paren_witness :
    parse "2+3".toList = .ok 5 ∧ parse "(2+3)".toList = .ok 5 :=
  ⟨rfl, parse_paren "2+3".toList 5 rfl⟩

/-- **C18**. The lookahead is fetched before the zero check: for every literal
`a` and every character `c` that is no white space, no digit and none of
`+ - * / ( )`, `parse` of `a/0c` fails with the error for the unknown character
`c`, not with the division-by-zero error, whereas `parse` of `a/0)` fails with
the division-by-zero error. -/
theorem parse_zero_then_unknown (a : Nat) (c : Char)
    (hs : isspace c = false) (hd : isdigit c = false)
    (hop : c ∉ ['+', '-', '*', '/', '(', ')']) :
    parse (decimal a ++ "/0".toList ++ [c]) = .error (.unknownChar c) ∧
    Error.unknownChar c ≠ .divisionByZero ∧
    parse (decimal a ++ "/0)".toList) = .error .divisionByZero := by
  have hFa1 := yields_factor_lit (wrap a) (next_slash ['0', c])
  have hFa2 := yields_factor_lit (wrap a) (next_slash ['0', ')'])
  refine ⟨?_, by simp, ?_⟩
  · show parse (decimal a ++ ['/', '0'] ++ [c]) = _
    simp only [List.append_assoc, List.cons_append, List.nil_append]
    have h0 : Next ['0', c] ⟨.Number, 0⟩ [c] := next_decimal 0 [c] (nodigit_cons _ hd)
    have hsc : scan [c] = .error (.unknownChar c) := scan_unknown [] c [] (by simp) hs hd hop
    have hF0 : Yields Parser.parseFactor (⟨.Number, 0⟩, [c]) (.error (.unknownChar c)) :=
      yields_factor_eat_error (Or.inl rfl) hsc
    have hL : Yields (fun n p => Parser.parseTermLoop n (wrap a) p) (⟨.Slash, 0⟩, _) _ :=
      yields_termLoop_operand_error (Or.inr rfl) h0 hF0
    exact parse_of_yields_error (next_decimal a _ (nodigit_cons _ (by decide)))
      (yields_expr_error (yields_term hFa1 hL))
  · show parse (decimal a ++ ['/', '0', ')']) = _
    have h0 : Next ['0', ')'] ⟨.Number, 0⟩ [')'] :=
      next_decimal 0 [')'] (nodigit_cons _ (by decide))
    have hL : Yields (fun n p => Parser.parseTermLoop n (wrap a) p) (⟨.Slash, 0⟩, _) _ :=
      yields_termLoop_divzero rfl h0 (yields_factor_lit 0 (next_rparen []))
    exact parse_of_yields_error (next_decimal a _ (nodigit_cons _ (by decide)))
      (yields_expr_error (yields_term hFa2 hL))

/-- Witness of **C18**: `"5/0@"` fails with the error for `@`, `"5/0)"` with
division by zero. -/
theorem parse_zero_then_unknown_witness :
    parse "5/0@".toList = .error (.unknownChar '@') ∧
    parse "5/0)".toList = .error .divisionByZero :=
  ⟨(parse_zero_then_unknown 5 '@' (by decide) (by decide) (by decide)).1,
    (parse_zero_then_unknown 5 '@' (by decide) (by decide) (by decide)).2.2⟩

/-- **C19**. `End` is absorbing for the tokenizer: once `getNextToken` has
returned the `End` token, the cursor is at the text length, and every later
call on the same `Lexer` returns `End` again and leaves the cursor there. -/
theorem end_absorbing (text : List Char) (lx lx' : Lexer) (t : Token)
    (h : Lexer.Reachable text lx) (hcall : lx.getNextToken = .ok (t, lx'))
    (ht : t.type = .End) :
    lx' = ⟨text, text.length⟩ ∧
    lx'.getNextToken = .ok (⟨.End, 0⟩, lx') ∧
    ∀ n, Lexer.getNextTokens n lx' = .ok (List.replicate n ⟨.End, 0⟩, lx') := by
  obtain ⟨htext, hpos⟩ := reachable_inv h
  obtain ⟨k, hs, rfl⟩ := getNextToken_ok lx hcall
  obtain ⟨_, hk, _⟩ := scan_end lx.rest t k hs ht
  have hlx : (⟨lx.text, lx.pos + k⟩ : Lexer) = ⟨text, text.length⟩ := by
    rw [hk, rest_length, htext]
    simp only [Lexer.mk.injEq, true_and]
    omega
  rw [hlx]
  have hfix : Lexer.getNextToken ⟨text, text.length⟩ = .ok (⟨.End, 0⟩, ⟨text, text.length⟩) := by
    rw [getNextToken_eq_scan]
    have hr : Lexer.rest ⟨text, text.length⟩ = [] := by simp [Lexer.rest]
    rw [hr]
    rfl
  exact ⟨rfl, hfix, getNextTokens_end _ hfix⟩

/-- Witness of **C19**: after the `End` of `"2 "`, three more calls return `End`
and leave the cursor at 2. -/
theorem end_absorbing_witness :
    Lexer.getNextToken ⟨"2 ".toList, 1⟩ = .ok (⟨.End, 0⟩, ⟨"2 ".toList, 2⟩) ∧
    Lexer.getNextTokens 3 ⟨"2 ".toList, 2⟩
      = .ok ([⟨.End, 0⟩, ⟨.End, 0⟩, ⟨.End, 0⟩], ⟨"2 ".toList, 2⟩) :=
  ⟨rfl, (end_absorbing "2 ".toList ⟨"2 ".toList, 1⟩ ⟨"2 ".toList, 2⟩ ⟨.End, 0⟩
    (Lexer.Reachable.step Lexer.Reachable.init rfl) rfl rfl).2.2 3⟩

end Lab3
